import Mathlib

/-!
# Mython: lexer and evaluator, embedded in Lean

A shallow embedding of `lexer.cpp`, `runtime.cpp` and `statement.cpp`.

* `std::istream` is a list of remaining characters with the two state bits the
  code can observe (`eofbit`, `failbit`); `peek` and `get` follow the standard
  library: both first build a sentry, which sets `failbit` when the stream is
  not good, `peek` at the end of the data sets `eofbit`, `get` at the end of the
  data sets `eofbit` and `failbit`, and `operator bool` is `!fail()`.
* C++ loops and the recursion of `FindNextToken` are recursions on a step
  budget; running out of budget is the separate outcome `exhausted`, and the
  budget `Lexer.new` hands out is shown to be enough for every input.
* Exceptions are outcomes: `std::out_of_range` of `std::stoi` in the lexer,
  `std::runtime_error`, the `ReturnException` in flight and undefined behaviour
  in the evaluator.
-/

namespace Mython

/-! ## The character stream -/

/-- The part of `std::istream` that `lexer.cpp` observes. -/
structure IStream where
  rest : List Char
  eofbit : Bool
  failbit : Bool
deriving DecidableEq, Repr

/-- The C++ `good()`: no state bit is set. -/
def IStream.good (s : IStream) : Bool := !s.eofbit && !s.failbit

/-- The C++ `operator bool`, that is `!fail()`. -/
def IStream.toBool (s : IStream) : Bool := !s.failbit

/-- The C++ `peek()`: `none` is `EOF`.  On a stream that is not good the sentry sets
`failbit`; on a good stream without data `eofbit` is set. -/
def IStream.peek (s : IStream) : Option Char × IStream :=
  if s.good then
    match s.rest with
    | [] => (none, { s with eofbit := true })
    | c :: _ => (some c, s)
  else (none, { s with failbit := true })

/-- The C++ `get()`: `none` is `EOF`.  On a stream that is not good the sentry sets
`failbit`; on a good stream without data both bits are set. -/
def IStream.get (s : IStream) : Option Char × IStream :=
  if s.good then
    match s.rest with
    | [] => (none, { s with eofbit := true, failbit := true })
    | c :: cs => (some c, { s with rest := cs })
  else (none, { s with failbit := true })

/-- The conversion of the `int` that `peek()`/`get()` return to `char`: `EOF` (-1)
becomes the byte 0xFF. -/
def toChar : Option Char → Char
  | some c => c
  | none => Char.ofNat 255

/-! ## Tokens -/

/-- The variant `parse::Token` over the structs of `parse::token_type`. -/
inductive Token where
  | Number (value : Int)
  | Id (value : String)
  | String (value : String)
  | Char (value : Char)
  | Class
  | Return
  | If
  | Else
  | Def
  | Newline
  | Print
  | Indent
  | Dedent
  | And
  | Or
  | Not
  | Eq
  | NotEq
  | LessOrEq
  | GreaterOrEq
  | None
  | True
  | False
  | Eof
deriving DecidableEq, Repr

/-- What a lexer call can end in. -/
inductive Outcome (α : Type) where
  | ok (a : α)
  | out_of_range
  | exhausted
deriving DecidableEq, Repr

/-- Sequencing of outcomes: a failure of the first step is the failure of the whole. -/
def Outcome.bind {α β : Type} (x : Outcome α) (f : α → Outcome β) : Outcome β :=
  match x with
  | .ok a => f a
  | .out_of_range => .out_of_range
  | .exhausted => .exhausted

/-! ## The lexer -/

/-- The data members of `parse::Lexer` that `FindNextToken` uses. -/
structure Lexer where
  input_ : IStream
  tokens_ : List Token
  indent_ : Int
  is_new_line_ : Bool
deriving DecidableEq, Repr

/-- The single quote character. -/
def chQuote : Char := Char.ofNat 39

/-- The double quote character. -/
def chDQuote : Char := Char.ofNat 34

/-- The backslash character. -/
def chBackslash : Char := Char.ofNat 92

/-- Modelled from the spec: `IsEof` of lexer.h, the "end of stream" test of the main
loop, taken as `input_.peek() == EOF`. -/
def Lexer.IsEof (s : IStream) : Bool × IStream :=
  match s.peek with
  | (none, s1) => (true, s1)
  | (some _, s1) => (false, s1)

/-- Modelled from the spec: `IsString` of lexer.h, true for the two quote characters
that open a string literal. -/
def Lexer.IsString (c : Char) : Bool := c == chQuote || c == chDQuote

/-- Modelled from the spec: `IsNumber` of lexer.h, true for a decimal digit. -/
def Lexer.IsNumber (c : Char) : Bool := c.isDigit

/-- Modelled from the spec: `IsId` of lexer.h, true for the identifier characters:
letters, digits and underscore. -/
def Lexer.IsId (c : Char) : Bool := c.isAlpha || c.isDigit || c == '_'

/-- Modelled from the spec: the table `keywords_` of lexer.h with the twelve keywords. -/
def Lexer.keywords_ : List (String × Token) :=
  [("class", Token.Class), ("return", Token.Return), ("if", Token.If), ("else", Token.Else),
   ("def", Token.Def), ("print", Token.Print), ("and", Token.And), ("or", Token.Or),
   ("not", Token.Not), ("None", Token.None), ("True", Token.True), ("False", Token.False)]

/-- A classifier applied to the `int` of `peek()`: `EOF` is in no character class. -/
def onPeek (p : Char → Bool) : Option Char → Bool
  | some c => p c
  | none => false

/-- The largest `int`. -/
def INT_MAX : Int := 2147483647

/-- The decimal value of a run of digits. -/
def decimalValue (digits : List Char) : Nat :=
  digits.foldl (fun acc c => 10 * acc + (c.toNat - 48)) 0

/-- The call `std::stoi(number)` on a run of decimal digits: the value, or
`std::out_of_range` when it does not fit an `int`. -/
def stoi (number : List Char) : Outcome Int :=
  if (decimalValue number : Int) ≤ INT_MAX then .ok (decimalValue number) else .out_of_range

/-- A counting loop `for (int i = i0; cond(i); i = next(i)) tokens_.push_back(t);`,
run for at most `n` rounds. -/
def pushLoop (cond : Int → Bool) (next : Int → Int) (t : Token) :
    Nat → Int → List Token → List Token
  | 0, _, toks => toks
  | n + 1, i, toks => if cond i then pushLoop cond next t n (next i) (toks ++ [t]) else toks

/-- The loop `while (input_ && input_.peek() == ' ') { ++spaces; input_.get(); }`. -/
def Lexer.countSpaces : Nat → IStream → Int → Outcome (Int × IStream)
  | 0, _, _ => .exhausted
  | n + 1, s, spaces =>
    if s.toBool then
      if s.peek.1 = some ' ' then Lexer.countSpaces n s.peek.2.get.2 (spaces + 1)
      else .ok (spaces, s.peek.2)
    else .ok (spaces, s)

/-- The loop `while (input_ && input_.peek() != '\n') { input_.get(); }` of a comment. -/
def Lexer.skipComment : Nat → IStream → Outcome IStream
  | 0, _ => .exhausted
  | n + 1, s =>
    if s.toBool then
      if s.peek.1 ≠ some '\n' then Lexer.skipComment n s.peek.2.get.2
      else .ok s.peek.2
    else .ok s

/-- The tests of the string loop after a backslash was read: each `if` peeks again;
the escaped character is appended and consumed, any other character is left to
`str += input_.get()`. -/
def Lexer.stringEscape (s : IStream) (str : List Char) : List Char × IStream :=
  if s.peek.1 = some chQuote then (str ++ [chQuote], s.peek.2.get.2)
  else
    let s4 := s.peek.2
    if s4.peek.1 = some chDQuote then (str ++ [chDQuote], s4.peek.2.get.2)
    else
      let s5 := s4.peek.2
      if s5.peek.1 = some 'n' then (str ++ ['\n'], s5.peek.2.get.2)
      else
        let s6 := s5.peek.2
        if s6.peek.1 = some 't' then (str ++ ['\t'], s6.peek.2.get.2)
        else
          let s7 := s6.peek.2
          if s7.peek.1 = some chBackslash then (str ++ [chBackslash], s7.peek.2.get.2)
          else (str ++ [toChar s7.peek.2.get.1], s7.peek.2.get.2)

/-- One round of the body of the string loop, entered with `str` read so far: the
escape handling and `str += input_.get()`. -/
def Lexer.stringBody (s : IStream) (str : List Char) : List Char × IStream :=
  if s.peek.1 = some chBackslash then Lexer.stringEscape s.peek.2.get.2 str
  else (str ++ [toChar s.peek.2.get.1], s.peek.2.get.2)

/-- The loop `while (input_ && input_.peek() != quote) { ... }` of a string literal. -/
def Lexer.readString (quote : Char) : Nat → IStream → List Char → Outcome (List Char × IStream)
  | 0, _, _ => .exhausted
  | n + 1, s, str =>
    if s.toBool then
      if s.peek.1 ≠ some quote then
        Lexer.readString quote n (Lexer.stringBody s.peek.2 str).2 (Lexer.stringBody s.peek.2 str).1
      else .ok (str, s.peek.2)
    else .ok (str, s)

/-- The loop `while (pred(input_.peek())) { c = input_.get(); word += c; }` of a
number (`IsNumber`) and of a word (`IsId`). -/
def Lexer.readWhile (pred : Char → Bool) : Nat → IStream → List Char → Outcome (List Char × IStream)
  | 0, _, _ => .exhausted
  | n + 1, s, word =>
    if onPeek pred s.peek.1 then
      Lexer.readWhile pred n s.peek.2.get.2 (word ++ [toChar s.peek.2.get.1])
    else .ok (word, s.peek.2)

/-- The last part of `FindNextToken`, "find symbols": `char c = input_.get();`, the four
two-character operators, else `Char{c}`.  The second character is peeked only after
the first matched. -/
def Lexer.findSymbol (s : IStream) : Token × IStream :=
  let c := toChar s.get.1
  let s1 := s.get.2
  if c = '=' then
    if s1.peek.1 = some '=' then (Token.Eq, s1.peek.2.get.2) else (Token.Char c, s1.peek.2)
  else if c = '!' then
    if s1.peek.1 = some '=' then (Token.NotEq, s1.peek.2.get.2) else (Token.Char c, s1.peek.2)
  else if c = '<' then
    if s1.peek.1 = some '=' then (Token.LessOrEq, s1.peek.2.get.2) else (Token.Char c, s1.peek.2)
  else if c = '>' then
    if s1.peek.1 = some '=' then (Token.GreaterOrEq, s1.peek.2.get.2)
    else (Token.Char c, s1.peek.2)
  else (Token.Char c, s1)

/-- The end-of-file branch of `FindNextToken`: the pending dedents, then a closing
`Newline` unless there is no token or the last one is `Newline`, `Dedent` or `Indent`;
the branch returns `Eof`. -/
def Lexer.atEof (lx : Lexer) : Lexer :=
  let toks1 :=
    if lx.indent_ > 0 then
      pushLoop (fun i => i > 0) (fun i => i - 2) Token.Dedent lx.indent_.toNat lx.indent_ lx.tokens_
    else lx.tokens_
  let toks2 :=
    if ¬ toks1 = [] then
      if toks1.getLast? ≠ some Token.Newline ∧ toks1.getLast? ≠ some Token.Dedent
          ∧ toks1.getLast? ≠ some Token.Indent then
        toks1 ++ [Token.Newline]
      else toks1
    else toks1
  { lx with tokens_ := toks2 }

/-- How one pass through the body of `FindNextToken` ends: `ret` at a `return` of a
token, `again` at a `return FindNextToken();`, and `next` when the block "find indent
and dedent" is left without a return. -/
inductive Flow where
  | ret (t : Token) (lx : Lexer)
  | again (lx : Lexer)
  | next (lx : Lexer)
deriving DecidableEq, Repr

/-- The block "find indent and dedent" of `FindNextToken` once the leading spaces are
counted and the next character is not a newline. -/
def Lexer.indentStep (lx : Lexer) (spaces : Int) : Flow :=
  let delta := spaces - lx.indent_
  let lx1 : Lexer := { lx with indent_ := spaces }
  if delta = 0 then .next lx1
  else if delta > 0 then
    let toks := pushLoop (fun i => i < delta - 2) (fun i => i + 2) Token.Indent delta.toNat 0
      lx1.tokens_
    .ret Token.Indent { lx1 with tokens_ := toks }
  else
    let toks := pushLoop (fun i => i + 2 < 0) (fun i => i + 2) Token.Dedent (-delta).toNat delta
      lx1.tokens_
    .ret Token.Dedent { lx1 with tokens_ := toks }

/-- The block "find indent and dedent" of `FindNextToken`. -/
def Lexer.findIndent (lx : Lexer) : Outcome Flow :=
  if lx.is_new_line_ then
    (Lexer.countSpaces (lx.input_.rest.length + 2) lx.input_ 0).bind fun r =>
      if r.2.peek.1 ≠ some '\n' then
        .ok (Lexer.indentStep { lx with input_ := r.2.peek.2, is_new_line_ := false } r.1)
      else .ok (.again { lx with input_ := r.2.peek.2, is_new_line_ := false })
  else .ok (.next lx)

/-- The part of `FindNextToken` from `token = input_.peek();` on. -/
def Lexer.findMain (lx : Lexer) : Outcome Flow :=
  let token := toChar lx.input_.peek.1
  let s1 := lx.input_.peek.2
  -- find spaces
  if token = ' ' then
    (Lexer.countSpaces (s1.rest.length + 2) s1.get.2 0).bind fun r =>
      .ok (.again { lx with input_ := r.2 })
  -- find comments
  else if token = '#' then
    (Lexer.skipComment (s1.rest.length + 2) s1.get.2).bind fun s2 =>
      .ok (.again { lx with input_ := s2 })
  -- find strings
  else if Lexer.IsString token then
    (Lexer.readString (toChar s1.get.1) (s1.rest.length + 2) s1.get.2 []).bind fun r =>
      .ok (.ret (Token.String (String.mk r.1)) { lx with input_ := r.2.get.2 })
  -- find numbers
  else if Lexer.IsNumber token then
    (Lexer.readWhile Lexer.IsNumber (s1.rest.length + 2) s1.get.2 [toChar s1.get.1]).bind fun r =>
      (stoi r.1).bind fun v => .ok (.ret (Token.Number v) { lx with input_ := r.2 })
  -- find end of line
  else if token = '\n' then
    let lx1 : Lexer := { lx with input_ := s1.get.2, is_new_line_ := true }
    if lx1.tokens_ = [] then .ok (.again lx1)
    else if lx1.tokens_.getLast? ≠ some Token.Newline then .ok (.ret Token.Newline lx1)
    else .ok (.again lx1)
  -- find special words
  else if onPeek Lexer.IsId s1.peek.1 then
    (Lexer.readWhile Lexer.IsId (s1.rest.length + 2) s1.peek.2 []).bind fun r =>
      match Lexer.keywords_.lookup (String.mk r.1) with
      | some kw => .ok (.ret kw { lx with input_ := r.2 })
      | none => .ok (.ret (Token.Id (String.mk r.1)) { lx with input_ := r.2 })
  -- find symbols
  else .ok (.ret (Lexer.findSymbol s1).1 { lx with input_ := (Lexer.findSymbol s1).2 })

/-- One pass through the body of `FindNextToken`, up to its first `return`. -/
def Lexer.findStep (lx : Lexer) : Outcome Flow :=
  if (Lexer.IsEof lx.input_).1 then
    .ok (.ret Token.Eof (Lexer.atEof { lx with input_ := (Lexer.IsEof lx.input_).2 }))
  else
    (Lexer.findIndent { lx with input_ := (Lexer.IsEof lx.input_).2 }).bind fun
      | .next lx1 => Lexer.findMain lx1
      | flow => .ok flow

/-- The method `Lexer::FindNextToken`: the token it returns and the lexer after the call
(the tokens pushed inside the call are in `tokens_`).  Every recursive call of the
source is a tail call `return FindNextToken();`, here the next round.  A pass never
ends in `next`, which only leads from the indentation block to the main part. -/
def Lexer.FindNextToken : Nat → Lexer → Outcome (Token × Lexer)
  | 0, _ => .exhausted
  | n + 1, lx =>
    (Lexer.findStep lx).bind fun
      | .ret t lx1 => .ok (t, lx1)
      | .again lx1 => Lexer.FindNextToken n lx1
      | .next _ => .exhausted

/-- The loop `while (input_) { auto token = FindNextToken(); tokens_.push_back(token); }`
of the constructor, with `budget` the budget of every call. -/
def Lexer.run (budget : Nat) : Nat → Lexer → Outcome Lexer
  | 0, _ => .exhausted
  | n + 1, lx =>
    if lx.input_.toBool then
      (Lexer.FindNextToken budget lx).bind fun r =>
        Lexer.run budget n { r.2 with tokens_ := r.2.tokens_ ++ [r.1] }
    else .ok lx

/-- Modelled from the spec: the member initialisers of lexer.h; the lexer starts with
no tokens, at indentation 0 and at the start of a line. -/
def Lexer.init (input : List Char) : Lexer :=
  { input_ := { rest := input, eofbit := false, failbit := false },
    tokens_ := [], indent_ := 0, is_new_line_ := true }

/-- The step budget that is enough for an input of the given length. -/
def Lexer.budget (input : List Char) : Nat := 2 * input.length + 4

/-- The constructor `Lexer::Lexer(std::istream&)`: the lexer after the loop. -/
def Lexer.new (input : List Char) : Outcome Lexer :=
  Lexer.run (Lexer.budget input) (Lexer.budget input) (Lexer.init input)

/-- The token sequence `tokens_` the constructor leaves behind. -/
def Lexer.tokens (input : List Char) : Outcome (List Token) :=
  (Lexer.new input).bind fun lx => .ok lx.tokens_

/-! ## Notions used to state the properties of the lexer -/

/-- The stream a loop over a good stream leaves behind once it has read up to `r`:
reaching the end of the data sets `eofbit`. -/
def IStream.upTo (r : List Char) : IStream := ⟨r, r.isEmpty, false⟩

/-- The stream the comment loop leaves behind: at the newline, or failed at the end
of the data (the loop reads once more there). -/
def IStream.afterComment (r : List Char) : IStream :=
  if r.dropWhile (fun c => c != '\n') = [] then ⟨[], true, true⟩
  else ⟨r.dropWhile (fun c => c != '\n'), false, false⟩

/-- The lexer a pass ends with. -/
def Flow.lexer : Flow → Lexer
  | .ret _ lx => lx
  | .again lx => lx
  | .next lx => lx

/-- The main part of `FindNextToken` is reached with the stream at `c :: cs`, after
`k` leading spaces: at the start of a line whose indentation `k` is the current one, or
inside a line (`k = 0`). -/
def Lexer.AtMain (lx : Lexer) (k : Nat) (c : Char) : Prop :=
  (lx.is_new_line_ = true ∧ (k : Int) = lx.indent_ ∧ c ≠ ' ' ∧ c ≠ '\n') ∨
  (lx.is_new_line_ = false ∧ k = 0)

/-- How far a stream is from the failed state: 2 when good, 1 with only `eofbit`. -/
def IStream.rank (s : IStream) : Nat := if s.failbit then 0 else if s.eofbit then 1 else 2

/-- The measure that every call of `FindNextToken` on a stream that has not failed
decreases. -/
def Lexer.measure (lx : Lexer) : Nat :=
  2 * lx.input_.rest.length + (if lx.is_new_line_ then 1 else 0) + lx.input_.rank

/-- One pass makes progress: it does not run out of budget, it never ends in `next`,
the measure does not grow and it decreases unless the stream had failed, and a pass
on a failed stream returns. -/
def Lexer.Progress (lx : Lexer) : Outcome Flow → Prop
  | .exhausted => False
  | .out_of_range => True
  | .ok flow =>
    (∀ l, flow ≠ .next l) ∧ flow.lexer.measure ≤ lx.measure ∧
    (lx.input_.failbit = false → flow.lexer.measure < lx.measure) ∧
    (∀ l, flow = .again l → lx.input_.failbit = false)

/-- No two `Newline` tokens stand at adjacent positions. -/
def NoAdjacentNewlines (ts : List Token) : Prop :=
  ∀ i : Nat, ts[i]? = some Token.Newline → ts[i + 1]? ≠ some Token.Newline

/-- The neighbour relation of `NoAdjacentNewlines`: not both are `Newline`. -/
def NotBothNewline (a b : Token) : Prop := ¬ (a = Token.Newline ∧ b = Token.Newline)

/-- The tokens of the lexer a pass ends with, the returned token included. -/
def Flow.pushed : Flow → List Token
  | .ret t lx => lx.tokens_ ++ [t]
  | .again lx => lx.tokens_
  | .next lx => lx.tokens_

/-- The number of `Dedent` tokens the end-of-file branch pushes at indentation `ind`. -/
def dedentsAtEof (ind : Int) : Nat := ((ind + 1) / 2).toNat

/-- The number of spaces a line starts with. -/
def leadingSpaces (l : List Char) : Nat := (l.takeWhile (fun c => c == ' ')).length

/-- What a pass that returns token `t` does to `tokens_` and `indent_`.  `Eof` comes
with the tokens of the end-of-file branch; `Indent` and `Dedent` come at the start of
a line that is not blank, set `indent_` to its number of leading spaces and come with
the tokens the counting loop pushed; every other token leaves both unchanged. -/
def Lexer.TokenStep (lx : Lexer) (t : Token) (l1 : Lexer) : Prop :=
  (t = Token.Eof ∧ l1.indent_ = lx.indent_ ∧ l1.tokens_ = (Lexer.atEof lx).tokens_) ∨
  (t = Token.Indent ∧ lx.is_new_line_ = true ∧ lx.indent_ < l1.indent_ ∧
    l1.indent_ = leadingSpaces lx.input_.rest ∧
    (lx.input_.rest.dropWhile (fun c => c == ' ')).head? ≠ some '\n' ∧
    l1.tokens_ = lx.tokens_ ++
      List.replicate ((l1.indent_ - lx.indent_ - 1) / 2).toNat Token.Indent) ∨
  (t = Token.Dedent ∧ lx.is_new_line_ = true ∧ l1.indent_ < lx.indent_ ∧
    l1.indent_ = leadingSpaces lx.input_.rest ∧
    (lx.input_.rest.dropWhile (fun c => c == ' ')).head? ≠ some '\n' ∧
    l1.tokens_ = lx.tokens_ ++
      List.replicate ((lx.indent_ - l1.indent_ - 1) / 2).toNat Token.Dedent) ∨
  (t ≠ Token.Eof ∧ t ≠ Token.Indent ∧ t ≠ Token.Dedent ∧
    l1.indent_ = lx.indent_ ∧ l1.tokens_ = lx.tokens_)

/-- A line start is evenly indented: unless the leading spaces are directly followed
by a newline, their number is even. -/
def EvenLine (l : List Char) : Prop :=
  (l.dropWhile (fun c => c == ' ')).head? ≠ some '\n' → leadingSpaces l % 2 = 0

/-- Every line of the input whose run of leading spaces is not directly followed by a
newline starts with an even number of spaces; the lines are the input itself and what
follows each newline character. -/
def EvenIndented (input : List Char) : Prop :=
  EvenLine input ∧
  ∀ i : Nat, i < input.length → input[i]? = some '\n' → EvenLine (input.drop (i + 1))

/-- The even-indentation condition on what is left of the input: the rest is evenly
indented if the lexer stands at a line start, and so is every later line. -/
def LineInv (lx : Lexer) : Prop :=
  (lx.is_new_line_ = true → EvenLine lx.input_.rest) ∧
  ∀ pre suf, lx.input_.rest = pre ++ '\n' :: suf → EvenLine suf

/-- The tokens account for the indentation: twice the excess of `Indent` over `Dedent`
tokens is `indent_`. -/
def Lexer.Balanced (lx : Lexer) : Prop :=
  2 * ((lx.tokens_.count Token.Indent : Int) - lx.tokens_.count Token.Dedent) = lx.indent_ ∧
  0 ≤ lx.indent_

/-- The invariant of the constructor loop behind the balance of `Indent` and `Dedent`:
once `Eof` is pushed the tokens before the first `Eof` are balanced, and before that
the tokens account for the indentation. -/
def Lexer.BalanceInv (lx : Lexer) : Prop :=
  (∃ pre post, lx.tokens_ = pre ++ Token.Eof :: post ∧ Token.Eof ∉ pre ∧
    pre.count Token.Indent = pre.count Token.Dedent) ∨
  (Token.Eof ∉ lx.tokens_ ∧ lx.Balanced ∧ LineInv lx)

instance (l : List Char) : Decidable (EvenLine l) := by
  unfold EvenLine; infer_instance

instance (input : List Char) : Decidable (EvenIndented input) := by
  unfold EvenIndented; infer_instance

/-! ## The runtime: values, classes, closures -/

/-- The six comparators of runtime.cpp that a `Comparison` node can hold. -/
inductive Comparator where
  | Equal
  | Less
  | NotEqual
  | Greater
  | LessOrEqual
  | GreaterOrEqual
deriving DecidableEq, Repr

mutual
/-- The AST nodes of statement.cpp, the classes derived from `Statement`.  The member
`object_` of `FieldAssignment` is a `VariableValue`, given by its dotted ids; the member
`cls_` of `ClassDefinition` is the holder of a class, given by the class. -/
inductive Statement where
  | Assignment (var_ : String) (rv_ : Statement)
  | VariableValue (dotted_ids_ : List String)
  | FieldAssignment (object_ : List String) (field_name_ : String) (rv_ : Statement)
  | NewInstance (class_ : ClassInstance) (args_ : List Statement)
  | Print (args_ : List Statement)
  | MethodCall (object_ : Statement) (method_ : String) (args_ : List Statement)
  | Stringify (argument_ : Statement)
  | Add (lhs_ rhs_ : Statement)
  | Sub (lhs_ rhs_ : Statement)
  | Mult (lhs_ rhs_ : Statement)
  | Div (lhs_ rhs_ : Statement)
  | Compound (statements_ : List Statement)
  | Or (lhs_ rhs_ : Statement)
  | And (lhs_ rhs_ : Statement)
  | Not (argument_ : Statement)
  | Comparison (comparator_ : Comparator) (lhs_ rhs_ : Statement)
  | Return (statement_ : Statement)
  | MethodBody (body_ : Statement)
  | ClassDefinition (cls_ : Class)
  | IfElse (condition_ if_body_ : Statement) (else_body_ : Option Statement)
/-- The class `runtime::Class`: the name, the methods (the values of the map `methods_`,
looked up by their name) and the parent. -/
inductive Class where
  | mk (class_name_ : String) (methods_ : List Method) (parent_ : Option Class)
/-- The struct `runtime::Method`. -/
inductive Method where
  | mk (name : String) (formal_params : List String) (body : Statement)
/-- An object of class `runtime::ClassInstance`: its class `class_` and the address that
identifies the object.  Its `fields_` are kept in the store of the context, under the
address. -/
inductive ClassInstance where
  | mk (class_ : Class) (address : Nat)
end

/-- The name of a method. -/
def Method.name : Method → String
  | .mk n _ _ => n

/-- The formal parameters of a method, without `self`. -/
def Method.formal_params : Method → List String
  | .mk _ ps _ => ps

/-- The body of a method. -/
def Method.body : Method → Statement
  | .mk _ _ b => b

/-- The class of an instance. -/
def ClassInstance.class_ : ClassInstance → Class
  | .mk c _ => c

/-- The address of an instance. -/
def ClassInstance.address : ClassInstance → Nat
  | .mk _ a => a

/-- A value handle, `runtime::ObjectHolder`: empty (`None`) or pointing to an object.
Numbers, strings, booleans and classes are never changed after construction and are
given by value; an instance is given by the object it points to. -/
inductive ObjectHolder where
  | None
  | Number (value : Int)
  | String (value : String)
  | Bool (value : Bool)
  | Class (cls : Class)
  | ClassInstance (object : ClassInstance)

/-- The type `runtime::Closure`, a map from names to holders, as an association list
with one entry per name. -/
abbrev Closure := List (String × ObjectHolder)

/-- The expression `closure.count(name) > 0`. -/
def Closure.has (closure : Closure) (name : String) : Bool := (closure.lookup name).isSome

/-- The statement `closure[name] = value`: overwrite the entry or create it. -/
def Closure.set : Closure → String → ObjectHolder → Closure
  | [], name, value => [(name, value)]
  | (k, v) :: rest, name, value =>
    if k = name then (k, value) :: rest else (k, v) :: Closure.set rest name value

/-- The `runtime::Context` with the heap the evaluator works on: the text written to
the output stream so far, and the `fields_` of the class instances by address (an
instance without entry has no fields). -/
structure Context where
  output : String
  fields : List (Nat × Closure)

/-- The method `ClassInstance::Fields()`. -/
def Context.Fields (context : Context) (object : ClassInstance) : Closure :=
  (context.fields.lookup object.address).getD []

/-- The store after `fields_` of the object is replaced. -/
def Context.setFields (context : Context) (object : ClassInstance) (fields_ : Closure) :
    Context :=
  { context with fields :=
      (object.address, fields_) :: context.fields.filter (fun e => e.1 != object.address) }

/-- How the execution of a node or a runtime call ends: with a value, with a
`ReturnException` in flight, with a `std::runtime_error`, in undefined behaviour, or
not within the step budget.  The state is the context, for a node together with the
closure it runs in. -/
inductive Exec (α σ : Type) where
  | ok (value : α) (state : σ)
  | returning (value : ObjectHolder) (state : σ)
  | runtime_error (what : String)
  | undefined
  | timeout

/-- Sequencing: go on after a normal end, pass on everything else with its state mapped. -/
def Exec.andThen {α β σ τ : Type} (x : Exec α σ) (back : σ → τ) (f : α → σ → Exec β τ) :
    Exec β τ :=
  match x with
  | .ok a s => f a s
  | .returning v s => .returning v (back s)
  | .runtime_error w => .runtime_error w
  | .undefined => .undefined
  | .timeout => .timeout

/-- The smallest `int`. -/
def INT_MIN : Int := -2147483648

/-- The holder `ObjectHolder::Own(runtime::Number(result))` of an `int` result; signed
overflow is undefined behaviour. -/
def ownNumber {σ : Type} (result : Int) (state : σ) : Exec ObjectHolder σ :=
  if INT_MIN ≤ result ∧ result ≤ INT_MAX then .ok (.Number result) state else .undefined

/-- The function `runtime::IsTrue`. -/
def IsTrue : ObjectHolder → Bool
  | .None => false
  | .Number value => value != 0
  | .String value => !value.isEmpty
  | .Bool value => value
  | .Class _ => false
  | .ClassInstance _ => false

/-- The method `Class::GetName`. -/
def Class.GetName : Class → String
  | .mk class_name_ _ _ => class_name_

/-- The lookup `methods_.count(name) > 0 ? &methods_.at(name) : nullptr` in the methods
of one class. -/
def findMethod (methods_ : List Method) (name : String) : Option Method :=
  methods_.find? (fun m => m.name = name)

/-- The method `Class::GetMethod`: `none` is `nullptr`. -/
def Class.GetMethod : Class → String → Option Method
  | .mk _ methods_ none, name => findMethod methods_ name
  | .mk _ methods_ (some parent_), name =>
    match findMethod methods_ name with
    | some m => some m
    | none => parent_.GetMethod name

/-- The loop of the constructor `Class::Class` that fills `methods_`: the message of the
`std::runtime_error` it throws on a duplicate method name, or the filled map. -/
def fillMethods (class_name_ : String) : List Method → List Method → Except String (List Method)
  | [], methods_ => .ok methods_
  | m :: rest, methods_ =>
    if (findMethod methods_ m.name).isSome then
      .error (class_name_ ++ " has duplicate methods: " ++ m.name)
    else fillMethods class_name_ rest (methods_ ++ [m])

/-- The constructor `Class::Class`. -/
def Class.new (name : String) (methods : List Method) (parent : Option Class) :
    Except String Class :=
  (fillMethods name methods []).map fun methods_ => Class.mk name methods_ parent

/-- The method `ClassInstance::HasMethod`. -/
def ClassInstance.HasMethod (self : ClassInstance) (method : String) (argument_count : Nat) :
    Bool :=
  match self.class_.GetMethod method with
  | none => false
  | some m => if m.formal_params.length ≠ argument_count then false else true

/-- The loop `closure[m->formal_params[i]] = actual_args[i]` over the actual arguments.
The call is made only when both lists have the same length. -/
def bindParams : Closure → List String → List ObjectHolder → Closure
  | closure, p :: ps, a :: as => bindParams (closure.set p a) ps as
  | closure, _, _ => closure

/-- The method `ClassInstance::Call`, with `exec` the execution of a node.  The closure
of the call is dropped at the end.  The handler of the source catches an `ObjectHolder`,
which no node throws; a `ReturnException` passes through. -/
def ClassInstance.Call (exec : Statement → Closure → Context → Exec ObjectHolder (Closure × Context))
    (self : ClassInstance) (method : String) (actual_args : List ObjectHolder)
    (context : Context) : Exec ObjectHolder Context :=
  if self.HasMethod method actual_args.length then
    match self.class_.GetMethod method with
    | some m =>
      let closure := bindParams [("self", ObjectHolder.ClassInstance self)] m.formal_params
        actual_args
      (exec m.body closure context).andThen (fun s => s.2) fun value s => .ok value s.2
    | none => .undefined
  else
    .runtime_error
      (self.class_.GetName ++ " does not have method " ++ method ++ "or method is incorrect")

/-- Modelled from the spec: what `os << this` writes for an instance without `__str__`,
an identity string that the implementation defines; here the address in hexadecimal. -/
def addressText (address : Nat) : String := "0x" ++ String.mk (Nat.toDigits 16 address)

/-- Modelled from the spec: the override `Print` of `runtime::Number` in runtime.h writes
the decimal signed integer. -/
def printNumber (value : Int) : String := toString value

/-- Modelled from the spec: the override `Print` of `runtime::String` in runtime.h writes
the raw payload, without quotes. -/
def printString (value : String) : String := value

/-- The virtual method `Object::Print` on the object of a holder: the text written to
`os` (the write is the last action of every override) and the context after the calls
of `__str__`.  An empty holder is reached only through `operator->`, whose assertion
fails: undefined behaviour. -/
def Object.Print (exec : Statement → Closure → Context → Exec ObjectHolder (Closure × Context)) :
    Nat → ObjectHolder → Context → Exec String Context
  | 0, _, _ => .timeout
  | _ + 1, .None, _ => .undefined
  | _ + 1, .Number value, context => .ok (printNumber value) context
  | _ + 1, .String value, context => .ok (printString value) context
  | _ + 1, .Bool value, context => .ok (if value then "True" else "False") context
  | _ + 1, .Class cls, context => .ok ("Class " ++ cls.GetName) context
  | n + 1, .ClassInstance object, context =>
    if object.HasMethod "__str__" 0 then
      (object.Call exec "__str__" [] context).andThen id fun result context1 =>
        Object.Print exec n result context1
    else .ok (addressText object.address) context

/-- The function `runtime::Equal`. -/
def Equal (exec : Statement → Closure → Context → Exec ObjectHolder (Closure × Context))
    (lhs rhs : ObjectHolder) (context : Context) : Exec Bool Context :=
  match lhs, rhs with
  | .None, .None => .ok true context
  | .Number a, .Number b => .ok (a = b) context
  | .String a, .String b => .ok (a = b) context
  | .Bool a, .Bool b => .ok (a = b) context
  | .ClassInstance p, _ =>
    if p.HasMethod "__eq__" 1 then
      (p.Call exec "__eq__" [rhs] context).andThen id fun result context1 =>
        .ok (IsTrue result) context1
    else .runtime_error "Error in compare equal"
  | _, _ => .runtime_error "Error in compare equal"

/-- The function `runtime::Less`. -/
def Less (exec : Statement → Closure → Context → Exec ObjectHolder (Closure × Context))
    (lhs rhs : ObjectHolder) (context : Context) : Exec Bool Context :=
  match lhs, rhs with
  | .Number a, .Number b => .ok (a < b) context
  | .String a, .String b => .ok (a < b) context
  | .Bool a, .Bool b => .ok (a < b) context
  | .ClassInstance p, _ =>
    if p.HasMethod "__lt__" 1 then
      (p.Call exec "__lt__" [rhs] context).andThen id fun result context1 =>
        .ok (IsTrue result) context1
    else .runtime_error "Error in compare less"
  | _, _ => .runtime_error "Error in compare less"

/-- The function `runtime::NotEqual`. -/
def NotEqual (exec : Statement → Closure → Context → Exec ObjectHolder (Closure × Context))
    (lhs rhs : ObjectHolder) (context : Context) : Exec Bool Context :=
  (Equal exec lhs rhs context).andThen id fun b context1 => .ok (!b) context1

/-- The function `runtime::Greater`: `!Less(...) && !Equal(...)`, with `Equal` called
only when `Less` gave false. -/
def Greater (exec : Statement → Closure → Context → Exec ObjectHolder (Closure × Context))
    (lhs rhs : ObjectHolder) (context : Context) : Exec Bool Context :=
  (Less exec lhs rhs context).andThen id fun less context1 =>
    if !less then
      (Equal exec lhs rhs context1).andThen id fun equal context2 => .ok (!equal) context2
    else .ok false context1

/-- The function `runtime::LessOrEqual`. -/
def LessOrEqual (exec : Statement → Closure → Context → Exec ObjectHolder (Closure × Context))
    (lhs rhs : ObjectHolder) (context : Context) : Exec Bool Context :=
  (Greater exec lhs rhs context).andThen id fun b context1 => .ok (!b) context1

/-- The function `runtime::GreaterOrEqual`. -/
def GreaterOrEqual (exec : Statement → Closure → Context → Exec ObjectHolder (Closure × Context))
    (lhs rhs : ObjectHolder) (context : Context) : Exec Bool Context :=
  (Less exec lhs rhs context).andThen id fun b context1 => .ok (!b) context1

/-- The call `comparator_(lhs, rhs, context)` of a `Comparison` node. -/
def callComparator (exec : Statement → Closure → Context → Exec ObjectHolder (Closure × Context)) :
    Comparator → ObjectHolder → ObjectHolder → Context → Exec Bool Context
  | .Equal => Equal exec
  | .Less => Less exec
  | .NotEqual => NotEqual exec
  | .Greater => Greater exec
  | .LessOrEqual => LessOrEqual exec
  | .GreaterOrEqual => GreaterOrEqual exec

/-! ## The evaluator -/

/-- The loop of `VariableValue::Execute` over all ids but the last, and the final
lookup: `current` is `*current_closure`.  An empty list of ids makes `back()` undefined. -/
def lookupPath (context : Context) : Closure → List String → Exec ObjectHolder Context
  | _, [] => .undefined
  | current, [last] =>
    match current.lookup last with
    | some value => .ok value context
    | none => .runtime_error (last ++ " not found in closure")
  | current, id :: rest =>
    match current.lookup id with
    | some (ObjectHolder.ClassInstance p) => lookupPath context (context.Fields p) rest
    | some _ => .runtime_error (id ++ "can't access fields")
    | none => .runtime_error (id ++ " not found")

/-- The loop `for (arg : args_) current_args.push_back(arg->Execute(closure, context))`. -/
def executeArgs (exec : Statement → Closure → Context → Exec ObjectHolder (Closure × Context)) :
    List Statement → List ObjectHolder → Closure → Context →
      Exec (List ObjectHolder) (Closure × Context)
  | [], current_args, closure, context => .ok current_args (closure, context)
  | arg :: rest, current_args, closure, context =>
    (exec arg closure context).andThen id fun value s =>
      executeArgs exec rest (current_args ++ [value]) s.1 s.2

/-- The loop of `Compound::Execute`: every statement in order, the values dropped. -/
def executeAll (exec : Statement → Closure → Context → Exec ObjectHolder (Closure × Context)) :
    List Statement → Closure → Context → Exec ObjectHolder (Closure × Context)
  | [], closure, context => .ok ObjectHolder.None (closure, context)
  | state :: rest, closure, context =>
    (exec state closure context).andThen id fun _ s => executeAll exec rest s.1 s.2

/-- The loop of `Print::Execute`: a space before every argument but the first, the
argument executed and its value written (`None` for an empty holder). -/
def printArgs (exec : Statement → Closure → Context → Exec ObjectHolder (Closure × Context))
    (budget : Nat) : List Statement → Bool → Closure → Context →
      Exec ObjectHolder (Closure × Context)
  | [], _, closure, context =>
    .ok ObjectHolder.None (closure, { context with output := context.output ++ "\n" })
  | arg :: rest, first, closure, context =>
    let context0 : Context :=
      if first then context else { context with output := context.output ++ " " }
    (exec arg closure context0).andThen id fun holder s =>
      match holder with
      | ObjectHolder.None =>
        printArgs exec budget rest false s.1 { s.2 with output := s.2.output ++ "None" }
      | _ =>
        ((Object.Print exec budget holder s.2).andThen (fun c => (s.1, c))
          fun text context1 => .ok text (s.1, context1)).andThen id fun text s1 =>
            printArgs exec budget rest false s1.1 { s1.2 with output := s1.2.output ++ text }

/-- The quotient `a / b` of two `int` values in a freshly owned number: division by zero
and signed overflow are undefined behaviour, the quotient is rounded towards zero. -/
def intDiv {σ : Type} (a b : Int) (state : σ) : Exec ObjectHolder σ :=
  if b = 0 then .undefined else ownNumber (Int.tdiv a b) state

/-- The expression `holder.TryAs<runtime::Number>()` with the value read through the
pointer: `none` is `nullptr`. -/
def TryAsNumber : ObjectHolder → Option Int
  | .Number value => some value
  | _ => none

/-- The part of `Add::Execute` after both operands are executed. -/
def applyAdd (exec : Statement → Closure → Context → Exec ObjectHolder (Closure × Context))
    (lhs rhs : ObjectHolder) (s : Closure × Context) : Exec ObjectHolder (Closure × Context) :=
  match lhs, rhs with
  | ObjectHolder.Number a, ObjectHolder.Number b => ownNumber (a + b) s
  | ObjectHolder.String a, ObjectHolder.String b => .ok (ObjectHolder.String (a ++ b)) s
  | ObjectHolder.ClassInstance pointer, _ =>
    (pointer.Call exec "__add__" [rhs] s.2).andThen (fun c => (s.1, c))
      fun value c => .ok value (s.1, c)
  | _, _ => .runtime_error "Error in add"

/-- The part of `Sub::Execute` after both operands are executed. -/
def applySub (lhs rhs : ObjectHolder) (s : Closure × Context) :
    Exec ObjectHolder (Closure × Context) :=
  match lhs, rhs with
  | ObjectHolder.Number a, ObjectHolder.Number b => ownNumber (a - b) s
  | _, _ => .runtime_error "Error in sub"

/-- The part of `Mult::Execute` after both operands are executed. -/
def applyMult (lhs rhs : ObjectHolder) (s : Closure × Context) :
    Exec ObjectHolder (Closure × Context) :=
  match lhs, rhs with
  | ObjectHolder.Number a, ObjectHolder.Number b => ownNumber (a * b) s
  | _, _ => .runtime_error "Error in mult"

/-- The part of `Div::Execute` after both operands are executed: the branch for two
numbers, the branch for a zero divisor behind it, and the final throw. -/
def applyDiv (lhs rhs : ObjectHolder) (s : Closure × Context) :
    Exec ObjectHolder (Closure × Context) :=
  if (TryAsNumber lhs).isSome ∧ (TryAsNumber rhs).isSome then
    intDiv ((TryAsNumber lhs).getD 0) ((TryAsNumber rhs).getD 0) s
  else if (TryAsNumber lhs).isSome ∧ (TryAsNumber rhs).isSome ∧ TryAsNumber rhs = some 0 then
    .runtime_error "Division by zero"
  else .runtime_error "Error in division"

/-- The method `Execute` of every node, with a budget of nested executions: a node
executes its parts with the budget lowered by one, and no budget left is `timeout`.
An assignment executes its right side before it touches the map (C++17).  The two
operands of a `Comparison` are arguments of one call, whose order C++ leaves open; they
are executed left to right here. -/
def Execute : Nat → Statement → Closure → Context → Exec ObjectHolder (Closure × Context)
  | 0, _, _, _ => .timeout
  | n + 1, .Assignment var_ rv_, closure, context =>
    (Execute n rv_ closure context).andThen id fun value s =>
      .ok value (s.1.set var_ value, s.2)
  | _ + 1, .VariableValue dotted_ids_, closure, context =>
    (lookupPath context closure dotted_ids_).andThen (fun c => (closure, c))
      fun value c => .ok value (closure, c)
  | n + 1, .FieldAssignment object_ field_name_ rv_, closure, context =>
    (lookupPath context closure object_).andThen (fun c => (closure, c)) fun holder c =>
      match holder with
      | ObjectHolder.ClassInstance p =>
        (Execute n rv_ closure c).andThen id fun value s =>
          .ok value (s.1, s.2.setFields p ((s.2.Fields p).set field_name_ value))
      | _ => .ok ObjectHolder.None (closure, c)
  | n + 1, .NewInstance class_ args_, closure, context =>
    if class_.HasMethod "__init__" args_.length then
      (executeArgs (Execute n) args_ [] closure context).andThen id fun current_args s =>
        (class_.Call (Execute n) "__init__" current_args s.2).andThen (fun c => (s.1, c))
          fun _ c => .ok (ObjectHolder.ClassInstance class_) (s.1, c)
    else .ok (ObjectHolder.ClassInstance class_) (closure, context)
  | n + 1, .Print args_, closure, context => printArgs (Execute n) n args_ true closure context
  | n + 1, .MethodCall object_ method_ args_, closure, context =>
    (executeArgs (Execute n) args_ [] closure context).andThen id fun current_args s =>
      (Execute n object_ s.1 s.2).andThen id fun holder s1 =>
        match holder with
        | ObjectHolder.ClassInstance instance_ =>
          (instance_.Call (Execute n) method_ current_args s1.2).andThen (fun c => (s1.1, c))
            fun value c => .ok value (s1.1, c)
        | _ => .ok ObjectHolder.None s1
  | n + 1, .Stringify argument_, closure, context =>
    (Execute n argument_ closure context).andThen id fun holder s =>
      match holder with
      | ObjectHolder.None => .ok (ObjectHolder.String "None") s
      | _ =>
        (Object.Print (Execute n) n holder s.2).andThen (fun c => (s.1, c))
          fun text c => .ok (ObjectHolder.String text) (s.1, c)
  | n + 1, .Add lhs_ rhs_, closure, context =>
    (Execute n lhs_ closure context).andThen id fun lhs s =>
      (Execute n rhs_ s.1 s.2).andThen id fun rhs s1 =>
        applyAdd (Execute n) lhs rhs s1
  | n + 1, .Sub lhs_ rhs_, closure, context =>
    (Execute n lhs_ closure context).andThen id fun lhs s =>
      (Execute n rhs_ s.1 s.2).andThen id fun rhs s1 =>
        applySub lhs rhs s1
  | n + 1, .Mult lhs_ rhs_, closure, context =>
    (Execute n lhs_ closure context).andThen id fun lhs s =>
      (Execute n rhs_ s.1 s.2).andThen id fun rhs s1 =>
        applyMult lhs rhs s1
  | n + 1, .Div lhs_ rhs_, closure, context =>
    (Execute n lhs_ closure context).andThen id fun lhs s =>
      (Execute n rhs_ s.1 s.2).andThen id fun rhs s1 =>
        applyDiv lhs rhs s1
  | n + 1, .Compound statements_, closure, context =>
    executeAll (Execute n) statements_ closure context
  | n + 1, .Or lhs_ rhs_, closure, context =>
    (Execute n lhs_ closure context).andThen id fun lhs s =>
      if IsTrue lhs then .ok (ObjectHolder.Bool true) s
      else
        (Execute n rhs_ s.1 s.2).andThen id fun rhs s1 =>
          .ok (ObjectHolder.Bool (IsTrue rhs)) s1
  | n + 1, .And lhs_ rhs_, closure, context =>
    (Execute n lhs_ closure context).andThen id fun lhs s =>
      if IsTrue lhs then
        (Execute n rhs_ s.1 s.2).andThen id fun rhs s1 =>
          .ok (ObjectHolder.Bool (IsTrue rhs)) s1
      else .ok (ObjectHolder.Bool false) s
  | n + 1, .Not argument_, closure, context =>
    (Execute n argument_ closure context).andThen id fun value s =>
      .ok (ObjectHolder.Bool (!IsTrue value)) s
  | n + 1, .Comparison comparator_ lhs_ rhs_, closure, context =>
    (Execute n lhs_ closure context).andThen id fun lhs s =>
      (Execute n rhs_ s.1 s.2).andThen id fun rhs s1 =>
        (callComparator (Execute n) comparator_ lhs rhs s1.2).andThen (fun c => (s1.1, c))
          fun b c => .ok (ObjectHolder.Bool b) (s1.1, c)
  | n + 1, .Return statement_, closure, context =>
    (Execute n statement_ closure context).andThen id fun value s => .returning value s
  | n + 1, .MethodBody body_, closure, context =>
    match Execute n body_ closure context with
    | .ok _ s => .ok ObjectHolder.None s
    | .returning value s => .ok value s
    | .runtime_error what => .runtime_error what
    | .undefined => .undefined
    | .timeout => .timeout
  | _ + 1, .ClassDefinition cls_, closure, context =>
    .ok ObjectHolder.None (closure.set cls_.GetName (ObjectHolder.Class cls_), context)
  | n + 1, .IfElse condition_ if_body_ else_body_, closure, context =>
    (Execute n condition_ closure context).andThen id fun condition s =>
      if IsTrue condition then Execute n if_body_ s.1 s.2
      else
        match else_body_ with
        | some else_body => Execute n else_body s.1 s.2
        | none => .ok ObjectHolder.None s

/-! ## Notions used to state the properties of the evaluator -/

/-- The methods a class defines itself. -/
def Class.methods_ : Class → List Method
  | .mk _ methods_ _ => methods_

/-- The chain of a class: the class itself, then its parent, then the parent of the
parent, and so on. -/
def Class.chain : Class → List Class
  | .mk class_name_ methods_ none => [.mk class_name_ methods_ none]
  | .mk class_name_ methods_ (some parent_) =>
    .mk class_name_ methods_ (some parent_) :: parent_.chain

/-- The method lookup as the spec words it: the method `name` of the first class of the
chain that defines one. -/
def nearestMethod (chain : List Class) (name : String) : Option Method :=
  chain.findSome? fun c => findMethod c.methods_ name

/-- A place for a statement inside nested `Compound` and `IfElse` nodes: in a `Compound`
between the statements before and after it, in the first branch of an `IfElse`, or in
its second branch. -/
inductive Place where
  | here
  | inCompound (before : List Statement) (inner : Place) (after : List Statement)
  | inThen (condition_ : Statement) (inner : Place) (else_body_ : Option Statement)
  | inElse (condition_ if_body_ : Statement) (inner : Place)

/-- The statement with `s` put at the place. -/
def Place.fill : Place → Statement → Statement
  | .here, s => s
  | .inCompound before inner after, s => .Compound (before ++ inner.fill s :: after)
  | .inThen condition_ inner else_body_, s => .IfElse condition_ (inner.fill s) else_body_
  | .inElse condition_ if_body_ inner, s => .IfElse condition_ if_body_ (some (inner.fill s))

/-- The number of nodes around the place. -/
def Place.depth : Place → Nat
  | .here => 0
  | .inCompound _ inner _ => inner.depth + 1
  | .inThen _ inner _ => inner.depth + 1
  | .inElse _ _ inner => inner.depth + 1

/-- Execution from `closure`, `context` arrives at the place with `closure1`, `context1`:
the statements before it in every `Compound` on the way end normally (so no `return`
was executed before), and every condition on the way ends normally with the truth value
that selects the branch of the place.  The statement at the place runs with budget `n`. -/
def Place.reaches (n : Nat) : Place → Closure → Context → Closure → Context → Prop
  | .here, closure, context, closure1, context1 => closure1 = closure ∧ context1 = context
  | .inCompound before inner _, closure, context, closure1, context1 =>
    ∃ value c x, executeAll (Execute (n + inner.depth)) before closure context = .ok value (c, x) ∧
      inner.reaches n c x closure1 context1
  | .inThen condition_ inner _, closure, context, closure1, context1 =>
    ∃ value c x, Execute (n + inner.depth) condition_ closure context = .ok value (c, x) ∧
      IsTrue value = true ∧ inner.reaches n c x closure1 context1
  | .inElse condition_ _ inner, closure, context, closure1, context1 =>
    ∃ value c x, Execute (n + inner.depth) condition_ closure context = .ok value (c, x) ∧
      IsTrue value = false ∧ inner.reaches n c x closure1 context1

/-- The text `Print::Execute` writes for the value of one argument, and the text
`Stringify::Execute` takes for it: `None` for an empty holder, else what the method
`Print` of the object writes. -/
def rendering (exec : Statement → Closure → Context → Exec ObjectHolder (Closure × Context))
    (budget : Nat) (holder : ObjectHolder) (context : Context) : Exec String Context :=
  match holder with
  | .None => .ok "None" context
  | _ => Object.Print exec budget holder context

/-- The arguments `args`, executed left to right from `closure` and the fields `fields`,
end normally one after the other, and so does the rendering of the value of every
argument.  The pair at the place of an argument in `pieces` holds the text that executing
the argument and rendering its value wrote to the output themselves (empty when they
write nothing), whatever was written before, and the rendering of the value; and
`closure1`, `fields1` are the state after the last argument. -/
def Renderings (exec : Statement → Closure → Context → Exec ObjectHolder (Closure × Context))
    (budget : Nat) : List Statement → Closure → List (Nat × Closure) → List (String × String) →
      Closure → List (Nat × Closure) → Prop
  | [], closure, fields, pieces, closure1, fields1 =>
    pieces = [] ∧ closure1 = closure ∧ fields1 = fields
  | arg :: rest, closure, fields, pieces, closure1, fields1 =>
    ∃ holder closure0 fields0 written0 text written1 fields2 pieces1,
      (∀ out, exec arg closure ⟨out, fields⟩ =
        .ok holder (closure0, ⟨out ++ written0, fields0⟩)) ∧
      (∀ out, rendering exec budget holder ⟨out, fields0⟩ =
        .ok text ⟨out ++ written1, fields2⟩) ∧
      pieces = (written0 ++ written1, text) :: pieces1 ∧
      Renderings exec budget rest closure0 fields2 pieces1 closure1 fields1

/-- The text the method `Print` writes for a number, a string or a boolean, and `None`
for an empty holder. -/
def plainText : ObjectHolder → String
  | .Number value => printNumber value
  | .String value => printString value
  | .Bool value => if value then "True" else "False"
  | _ => "None"

/-- The value is an empty holder, a number, a string or a boolean. -/
def IsPlain : ObjectHolder → Bool
  | .None => true
  | .Number _ => true
  | .String _ => true
  | .Bool _ => true
  | _ => false

/-! ## Notions used to state the properties of the token sequence as a whole -/

/-- The states of the lexer at the head of the loop of the constructor run on `input`:
the initial state, and the state after every round
`auto token = FindNextToken(); tokens_.push_back(token);` that is entered with `input_`
true. -/
inductive Lexer.Reachable (input : List Char) : Lexer → Prop where
  | init : Lexer.Reachable input (Lexer.init input)
  | round (lx l1 : Lexer) (t : Token) : Lexer.Reachable input lx → lx.input_.toBool = true →
      Lexer.FindNextToken (Lexer.budget input) lx = .ok (t, l1) →
      Lexer.Reachable input { l1 with tokens_ := l1.tokens_ ++ [t] }

/-- Every prefix of the tokens without `Eof` holds at least as many `Indent` as `Dedent`
tokens. -/
def Nested (ts : List Token) : Prop :=
  ∀ p, p <+: ts → Token.Eof ∉ p → p.count Token.Dedent ≤ p.count Token.Indent

/-- The structural tokens: `Newline`, `Indent`, `Dedent` and `Eof`. -/
def Structural : Token → Bool
  | .Newline => true
  | .Indent => true
  | .Dedent => true
  | .Eof => true
  | _ => false

/-- The neighbour relation "no `Indent` or `Dedent` directly behind a token that is not
structural". -/
def NoDentAfterWord (a b : Token) : Prop :=
  Structural a = false → b ≠ Token.Indent ∧ b ≠ Token.Dedent

/-- The neighbour relation "no `Newline` directly behind an `Indent` or `Dedent`". -/
def NoNewlineAfterDent (a b : Token) : Prop :=
  a = Token.Indent ∨ a = Token.Dedent → b ≠ Token.Newline

/-- At the start of a line the tokens are empty or end in `Newline`. -/
def Lexer.LineStart (lx : Lexer) : Prop :=
  lx.is_new_line_ = true → lx.tokens_ = [] ∨ lx.tokens_.getLast? = some Token.Newline

/-- The tokens the end-of-file branch of `FindNextToken` leaves in `tokens_` when it
starts with the tokens `body` and pushes `k` times `Dedent`: a `Newline` is added unless
the tokens are empty or end in `Newline`, `Dedent` or `Indent`. -/
def flushed (body : List Token) (k : Nat) : List Token :=
  if body ++ List.replicate k Token.Dedent ≠ [] ∧
      (body ++ List.replicate k Token.Dedent).getLast? ≠ some Token.Newline ∧
      (body ++ List.replicate k Token.Dedent).getLast? ≠ some Token.Dedent ∧
      (body ++ List.replicate k Token.Dedent).getLast? ≠ some Token.Indent then
    body ++ List.replicate k Token.Dedent ++ [Token.Newline]
  else body ++ List.replicate k Token.Dedent

/-- Before the end of the input is reached: no `Eof` is among the tokens, no `Indent` or
`Dedent` stands directly behind a token that is not structural, and at the start of a
line the tokens are empty or end in `Newline`. -/
def Lexer.WordInv (lx : Lexer) : Prop :=
  Token.Eof ∉ lx.tokens_ ∧ List.Chain' NoDentAfterWord lx.tokens_ ∧ lx.LineStart

/-- The stream is good and what is left of the input ends with a newline character, or
nothing is left and the lexer stands at the start of a line. -/
def Lexer.BeforeNewline (lx : Lexer) : Prop :=
  lx.input_.eofbit = false ∧ lx.input_.failbit = false ∧
  ((lx.input_.rest ≠ [] ∧ lx.input_.rest.getLast? = some '\n') ∨
   (lx.input_.rest = [] ∧ lx.is_new_line_ = true))

/-- The invariant of the constructor loop behind the separation of the statements: once
`Eof` is pushed, the tokens before the first `Eof` are what the end-of-file branch made
of tokens `body` that satisfy the invariant before the end, only structural tokens
follow, and the stream is no longer good.  With `strict`, for an input that ends with
a newline character, the stream stays before that newline until the end. -/
def Lexer.SepInv (strict : Prop) (lx : Lexer) : Prop :=
  (∃ body k post, lx.tokens_ = flushed body k ++ Token.Eof :: post ∧ Token.Eof ∉ body ∧
    List.Chain' NoDentAfterWord body ∧
    (strict → body = [] ∨ body.getLast? = some Token.Newline) ∧
    (∀ t ∈ post, Structural t = true) ∧
    (lx.input_.eofbit = true ∨ lx.input_.failbit = true)) ∨
  (lx.WordInv ∧ (strict → lx.input_.failbit = true ∨ lx.BeforeNewline))

/-- The line that starts here is not a comment-only line: the first character behind
its leading spaces is not `#`. -/
def NoCommentLine (l : List Char) : Prop :=
  (l.dropWhile (fun c => c == ' ')).head? ≠ some '#'

/-- No line of the input is a comment-only line; the lines are the input itself and
what follows each newline character. -/
def NoCommentLines (input : List Char) : Prop :=
  NoCommentLine input ∧
  ∀ i : Nat, i < input.length → input[i]? = some '\n' → NoCommentLine (input.drop (i + 1))

/-- The condition `NoCommentLines` on what is left of the input: the rest is no
comment-only line if the lexer stands at a line start, and neither is any later line. -/
def LinesInv (lx : Lexer) : Prop :=
  (lx.is_new_line_ = true → NoCommentLine lx.input_.rest) ∧
  ∀ pre suf, lx.input_.rest = pre ++ '\n' :: suf → NoCommentLine suf

/-- No `Newline` stands directly behind an `Indent` or `Dedent`, and when the tokens end
in `Indent` or `Dedent` the lexer stands in the middle of a line, with the stream failed
or before a character that is neither a space, a newline nor `#`. -/
def Lexer.DentInv (lx : Lexer) : Prop :=
  List.Chain' NoNewlineAfterDent lx.tokens_ ∧
  (lx.tokens_.getLast? = some Token.Indent ∨ lx.tokens_.getLast? = some Token.Dedent →
    lx.is_new_line_ = false ∧
    (lx.input_.failbit = true ∨
      ∃ ch r, lx.input_ = ⟨ch :: r, false, false⟩ ∧ ch ≠ ' ' ∧ ch ≠ '\n' ∧ ch ≠ '#'))

instance (l : List Char) : Decidable (NoCommentLine l) := by
  unfold NoCommentLine; infer_instance

instance (input : List Char) : Decidable (NoCommentLines input) := by
  unfold NoCommentLines; infer_instance

/-! ## Notions used to state when the constructor completes with `Eof` -/

/-- What follows the closing quote of a string literal opened with `quote`, or `none`
when the data end inside the literal.  As in the string loop of `FindNextToken`, a
backslash takes the next character with it; `escaped` says that the character before
was such a backslash. -/
def closing (quote : Char) : (escaped : Bool) → List Char → Option (List Char)
  | _, [] => none
  | true, _ :: cs => closing quote false cs
  | false, c :: cs =>
    if c = quote then some cs
    else if c = chBackslash then closing quote true cs
    else closing quote false cs

/-- What reading the literals of an input comes to: all of them are read, a string
literal is not closed, or a number does not fit an `int`. -/
inductive Literals where
  | fine
  | unterminated
  | too_large
deriving DecidableEq, Repr

/-- The literals of the text `r`, read from left to right as `FindNextToken` divides the
text: a comment runs up to the next newline, a string literal up to its closing quote,
a number is a run of digits that starts outside a word, a word is a run of identifier
characters, and every other character stands alone.  The first string literal that is
not closed or number above `INT_MAX` decides.  Every step shortens the text, so `n`
steps are enough for a text of length `n`. -/
def scan : Nat → List Char → Literals
  | 0, _ => .fine
  | _ + 1, [] => .fine
  | n + 1, c :: cs =>
    if c = '#' then scan n (cs.dropWhile (fun d => d != '\n'))
    else if Lexer.IsString c then
      match closing c false cs with
      | none => .unterminated
      | some r => scan n r
    else if Lexer.IsNumber c then
      if (decimalValue (c :: cs.takeWhile Lexer.IsNumber) : Int) ≤ INT_MAX then
        scan n (cs.dropWhile Lexer.IsNumber)
      else .too_large
    else if Lexer.IsId c then scan n (cs.dropWhile Lexer.IsId)
    else scan n cs

/-- The literals of an input: `fine` when every string literal outside a comment is
closed and every number outside comments and string literals fits an `int`. -/
def literals (input : List Char) : Literals := scan input.length input

/-- A text that is not empty and consists of spaces only. -/
def SpacesOnly (l : List Char) : Prop := l ≠ [] ∧ ∀ c ∈ l, c = ' '

/-- The last line of the input is not empty and consists of spaces only: the input
itself, or what follows one of its newline characters, is a run of spaces. -/
def LastLineSpaces (input : List Char) : Prop :=
  SpacesOnly input ∨
  ∃ i : Nat, i < input.length ∧ input[i]? = some '\n' ∧ SpacesOnly (input.drop (i + 1))

/-- The condition that the last line is not a run of spaces, on what is left of the
input: the rest is no run of spaces if the lexer stands at a line start, and neither is
what follows any later newline. -/
def SpacesInv (lx : Lexer) : Prop :=
  (lx.is_new_line_ = true → ¬ SpacesOnly lx.input_.rest) ∧
  ∀ pre suf, lx.input_.rest = pre ++ '\n' :: suf → ¬ SpacesOnly suf

instance (l : List Char) : Decidable (SpacesOnly l) := by
  unfold SpacesOnly; infer_instance

instance (input : List Char) : Decidable (LastLineSpaces input) := by
  unfold LastLineSpaces; infer_instance

/-- What one pass of `FindNextToken` from the lexer `lx` does to the literals that are
left, `res` being its outcome: `std::out_of_range` comes from a number that is too
large; a pass that leaves the stream usable leaves the same literals to read; and a pass
that leaves the stream failed has met no number that is too large, returns a token other
than `Eof` only inside a string literal that is not closed or on a line of spaces only,
and else had only fine literals left. -/
def Lexer.LiteralsStep (lx : Lexer) (res : Outcome Flow) : Prop :=
  (res = .out_of_range → literals lx.input_.rest = .too_large) ∧
  ∀ flow, res = .ok flow →
    (flow.lexer.input_.failbit = false →
      literals flow.lexer.input_.rest = literals lx.input_.rest ∧
      (flow.lexer.input_.eofbit = true → flow.lexer.input_.rest = [])) ∧
    (flow.lexer.input_.failbit = true →
      literals lx.input_.rest ≠ .too_large ∧
      (∀ t l1, flow = .ret t l1 → t ≠ Token.Eof →
        literals lx.input_.rest = .unterminated ∨
        (lx.is_new_line_ = true ∧ SpacesOnly lx.input_.rest)) ∧
      ((∀ t l1, flow = .ret t l1 → t = Token.Eof) → literals lx.input_.rest = .fine))

/-- The invariant of the constructor loop behind the end of the token sequence, for an
input with the literals `v`: while the stream has not failed, `eofbit` is set only at
the end of the data, the literals that are left are `v`, and under the condition
`noSpaces` no line start that is left is followed by spaces only; a pass that starts
over with a failed stream had only fine literals left. -/
def Lexer.LiteralsInv (noSpaces : Prop) (v : Literals) (lx : Lexer) : Prop :=
  (lx.input_.failbit = false ∧ (lx.input_.eofbit = true → lx.input_.rest = []) ∧
    (noSpaces → SpacesInv lx) ∧ literals lx.input_.rest = v) ∨
  (lx.input_.failbit = true ∧ v = .fine)

/-! ## Facts about the stream -/

@[simp] theorem IStream.peek_good_cons (c : Char) (cs : List Char) :
    IStream.peek ⟨c :: cs, false, false⟩ = (some c, ⟨c :: cs, false, false⟩) := rfl

@[simp] theorem IStream.peek_good_nil :
    IStream.peek ⟨[], false, false⟩ = (none, ⟨[], true, false⟩) := rfl

@[simp] theorem IStream.peek_eof (r : List Char) (f : Bool) :
    IStream.peek ⟨r, true, f⟩ = (none, ⟨r, true, true⟩) := rfl

@[simp] theorem IStream.peek_fail (r : List Char) (e : Bool) :
    IStream.peek ⟨r, e, true⟩ = (none, ⟨r, e, true⟩) := by
  cases e <;> rfl

@[simp] theorem IStream.get_good_cons (c : Char) (cs : List Char) :
    IStream.get ⟨c :: cs, false, false⟩ = (some c, ⟨cs, false, false⟩) := rfl

@[simp] theorem IStream.get_good_nil :
    IStream.get ⟨[], false, false⟩ = (none, ⟨[], true, true⟩) := rfl

@[simp] theorem IStream.get_eof (r : List Char) (f : Bool) :
    IStream.get ⟨r, true, f⟩ = (none, ⟨r, true, true⟩) := rfl

@[simp] theorem IStream.get_fail (r : List Char) (e : Bool) :
    IStream.get ⟨r, e, true⟩ = (none, ⟨r, e, true⟩) := by
  cases e <;> rfl

@[simp] theorem Outcome.bind_ok {α β : Type} (a : α) (f : α → Outcome β) :
    (Outcome.ok a).bind f = f a := rfl

@[simp] theorem Outcome.bind_out_of_range {α β : Type} (f : α → Outcome β) :
    (Outcome.out_of_range : Outcome α).bind f = .out_of_range := rfl

@[simp] theorem Outcome.bind_exhausted {α β : Type} (f : α → Outcome β) :
    (Outcome.exhausted : Outcome α).bind f = .exhausted := rfl

theorem Lexer.countSpaces_good (n : Nat) (r : List Char) (k : Int) (h : r.length < n) :
    Lexer.countSpaces n ⟨r, false, false⟩ k =
      .ok (k + (r.takeWhile (fun c => c == ' ')).length,
           IStream.upTo (r.dropWhile (fun c => c == ' '))) := by
  induction n generalizing r k with
  | zero => omega
  | succ n ih =>
    cases r with
    | nil => simp [Lexer.countSpaces, IStream.toBool, IStream.upTo]
    | cons c cs =>
      by_cases hc : c = ' '
      · subst hc
        simp only [List.length_cons] at h
        simp [Lexer.countSpaces, IStream.toBool, ih cs (k + 1) (by omega)]
        omega
      · simp [Lexer.countSpaces, IStream.toBool, hc, IStream.upTo]

theorem Lexer.readWhile_good (pred : Char → Bool) (n : Nat) (r w : List Char) (h : r.length < n) :
    Lexer.readWhile pred n ⟨r, false, false⟩ w =
      .ok (w ++ r.takeWhile pred, IStream.upTo (r.dropWhile pred)) := by
  induction n generalizing r w with
  | zero => omega
  | succ n ih =>
    cases r with
    | nil => simp [Lexer.readWhile, onPeek, IStream.upTo]
    | cons c cs =>
      by_cases hc : pred c = true
      · simp only [List.length_cons] at h
        simp [Lexer.readWhile, onPeek, hc, toChar, ih cs _ (by omega)]
      · simp [Lexer.readWhile, onPeek, hc, IStream.upTo]

theorem Lexer.skipComment_good (n : Nat) (r : List Char) (h : r.length + 1 < n) :
    Lexer.skipComment n ⟨r, false, false⟩ = .ok (IStream.afterComment r) := by
  induction n generalizing r with
  | zero => omega
  | succ n ih =>
    cases r with
    | nil =>
      cases n with
      | zero => omega
      | succ n => simp [Lexer.skipComment, IStream.toBool, IStream.afterComment]
    | cons c cs =>
      by_cases hc : c = '\n'
      · subst hc
        simp [Lexer.skipComment, IStream.toBool, IStream.afterComment]
      · simp only [List.length_cons] at h
        simp [Lexer.skipComment, IStream.toBool, hc, ih cs (by omega), IStream.afterComment]


theorem Lexer.stringEscape_good (r str : List Char) :
    ((Lexer.stringEscape ⟨r, false, false⟩ str).2 = ⟨[], true, true⟩) ∨
    (∃ r1, (Lexer.stringEscape ⟨r, false, false⟩ str).2 = ⟨r1, false, false⟩ ∧
      r1 <:+ r ∧ r1.length ≤ r.length) := by
  cases r with
  | nil => left; simp [Lexer.stringEscape]
  | cons c cs =>
    right
    unfold Lexer.stringEscape
    simp only [IStream.peek_good_cons, IStream.get_good_cons]
    refine ⟨cs, ?_, List.suffix_cons c cs, by simp⟩
    split_ifs <;> rfl

theorem Lexer.stringBody_good (c : Char) (cs str : List Char) :
    ((Lexer.stringBody ⟨c :: cs, false, false⟩ str).2 = ⟨[], true, true⟩) ∨
    (∃ r1, (Lexer.stringBody ⟨c :: cs, false, false⟩ str).2 = ⟨r1, false, false⟩ ∧
      r1 <:+ cs) := by
  unfold Lexer.stringBody
  simp only [IStream.peek_good_cons, IStream.get_good_cons]
  split_ifs with h
  · rcases Lexer.stringEscape_good cs str with h1 | ⟨r1, h1, h2, _⟩
    · left; exact h1
    · right; exact ⟨r1, h1, h2⟩
  · right; exact ⟨cs, rfl, List.suffix_refl cs⟩

theorem Lexer.readString_good (quote : Char) (n : Nat) (r str : List Char)
    (h : r.length + 1 < n) :
    ∃ str1 s1, Lexer.readString quote n ⟨r, false, false⟩ str = .ok (str1, s1) ∧
      ((∃ r1, s1 = ⟨quote :: r1, false, false⟩ ∧ (quote :: r1) <:+ r) ∨ s1 = ⟨[], true, true⟩) := by
  induction n generalizing r str with
  | zero => omega
  | succ n ih =>
    cases r with
    | nil =>
      cases n with
      | zero => omega
      | succ n =>
        refine ⟨str ++ [Char.ofNat 255], ⟨[], true, true⟩, ?_, Or.inr rfl⟩
        simp [Lexer.readString, IStream.toBool, Lexer.stringBody, toChar]
    | cons c cs =>
      simp only [List.length_cons] at h
      by_cases hc : c = quote
      · subst hc
        exact ⟨str, ⟨c :: cs, false, false⟩, by simp [Lexer.readString, IStream.toBool],
          Or.inl ⟨cs, rfl, List.suffix_refl _⟩⟩
      · have hstep : Lexer.readString quote (n + 1) ⟨c :: cs, false, false⟩ str =
            Lexer.readString quote n (Lexer.stringBody ⟨c :: cs, false, false⟩ str).2
              (Lexer.stringBody ⟨c :: cs, false, false⟩ str).1 := by
          simp [Lexer.readString, IStream.toBool, hc]
        rw [hstep]
        rcases Lexer.stringBody_good c cs str with h1 | ⟨r1, h1, h2⟩
        · rw [h1]
          cases n with
          | zero => omega
          | succ n =>
            exact ⟨(Lexer.stringBody ⟨c :: cs, false, false⟩ str).1, ⟨[], true, true⟩,
              by simp [Lexer.readString, IStream.toBool], Or.inr rfl⟩
        · rw [h1]
          have hlen : r1.length ≤ cs.length := h2.length_le
          obtain ⟨str1, s1, e1, e2⟩ := ih r1 (Lexer.stringBody ⟨c :: cs, false, false⟩ str).1
            (by omega)
          refine ⟨str1, s1, e1, ?_⟩
          rcases e2 with ⟨r2, e3, e4⟩ | e3
          · exact Or.inl ⟨r2, e3, e4.trans (h2.trans (List.suffix_cons c cs))⟩
          · exact Or.inr e3

/-! ## One pass of `FindNextToken` in closed form -/

theorem Lexer.findMain_failed (lx : Lexer) (r : List Char) (e : Bool)
    (h : lx.input_ = ⟨r, e, true⟩) :
    Lexer.findMain lx = .ok (.ret (Token.Char (Char.ofNat 255)) lx) := by
  obtain ⟨s, toks, ind, nl⟩ := lx
  simp only at h
  subst h
  simp [Lexer.findMain, toChar, Lexer.IsString, Lexer.IsNumber, onPeek, Lexer.findSymbol,
    chQuote, chDQuote]

theorem Lexer.findMain_good (lx : Lexer) (c : Char) (cs : List Char)
    (h : lx.input_ = ⟨c :: cs, false, false⟩) :
    Lexer.findMain lx =
      if c = ' ' then
        .ok (.again { lx with input_ := IStream.upTo (cs.dropWhile (fun c => c == ' ')) })
      else if c = '#' then .ok (.again { lx with input_ := IStream.afterComment cs })
      else if Lexer.IsString c then
        (Lexer.readString c (cs.length + 3) ⟨cs, false, false⟩ []).bind fun r =>
          .ok (.ret (Token.String (String.mk r.1)) { lx with input_ := r.2.get.2 })
      else if Lexer.IsNumber c then
        (stoi (c :: cs.takeWhile Lexer.IsNumber)).bind fun v =>
          .ok (.ret (Token.Number v)
            { lx with input_ := IStream.upTo (cs.dropWhile Lexer.IsNumber) })
      else if c = '\n' then
        if lx.tokens_ = [] ∨ lx.tokens_.getLast? = some Token.Newline then
          .ok (.again { lx with input_ := ⟨cs, false, false⟩, is_new_line_ := true })
        else .ok (.ret Token.Newline { lx with input_ := ⟨cs, false, false⟩, is_new_line_ := true })
      else if Lexer.IsId c then
        match Lexer.keywords_.lookup (String.mk (c :: cs.takeWhile Lexer.IsId)) with
        | some kw => .ok (.ret kw { lx with input_ := IStream.upTo (cs.dropWhile Lexer.IsId) })
        | none =>
          .ok (.ret (Token.Id (String.mk (c :: cs.takeWhile Lexer.IsId)))
            { lx with input_ := IStream.upTo (cs.dropWhile Lexer.IsId) })
      else
        .ok (.ret (Lexer.findSymbol ⟨c :: cs, false, false⟩).1
          { lx with input_ := (Lexer.findSymbol ⟨c :: cs, false, false⟩).2 }) := by
  obtain ⟨s, toks, ind, nl⟩ := lx
  simp only at h
  subst h
  unfold Lexer.findMain
  simp only [IStream.peek_good_cons, IStream.get_good_cons, toChar, List.length_cons]
  by_cases h1 : c = ' '
  · rw [Lexer.countSpaces_good _ _ _ (by omega)]
    simp [h1]
  by_cases h2 : c = '#'
  · rw [Lexer.skipComment_good _ _ (by omega)]
    simp [h2]
  by_cases h3 : Lexer.IsString c = true
  · simp [h1, h2, h3]
  by_cases h4 : Lexer.IsNumber c = true
  · rw [Lexer.readWhile_good _ _ _ _ (by omega)]
    simp [h1, h2, h3, h4]
  by_cases h5 : c = '\n'
  · subst h5
    simp only [h1, h2, h3, h4, if_false, if_true]
    by_cases h6 : toks = []
    · simp [h6]
    · by_cases h7 : toks.getLast? = some Token.Newline <;> simp [h6, h7]
  by_cases h6 : Lexer.IsId c = true
  · rw [Lexer.readWhile_good Lexer.IsId (cs.length + 1 + 2) (c :: cs) []
      (by simp only [List.length_cons]; omega)]
    simp [h1, h2, h3, h4, h5, h6, onPeek, List.takeWhile_cons, List.dropWhile_cons]
  · simp [h1, h2, h3, h4, h5, h6, onPeek]

@[simp] theorem IStream.upTo_nil : IStream.upTo [] = ⟨[], true, false⟩ := rfl

@[simp] theorem IStream.upTo_cons (c : Char) (cs : List Char) :
    IStream.upTo (c :: cs) = ⟨c :: cs, false, false⟩ := rfl

theorem Lexer.findIndent_good (lx : Lexer) (r : List Char)
    (h : lx.input_ = ⟨r, false, false⟩) (hnl : lx.is_new_line_ = true) :
    Lexer.findIndent lx =
      if (r.dropWhile (fun c => c == ' ')).head? = some '\n' then
        .ok (.again { lx with input_ := ⟨r.dropWhile (fun c => c == ' '), false, false⟩,
                              is_new_line_ := false })
      else
        .ok (Lexer.indentStep
          { lx with input_ := (IStream.upTo (r.dropWhile (fun c => c == ' '))).peek.2,
                    is_new_line_ := false }
          (r.takeWhile (fun c => c == ' ')).length) := by
  obtain ⟨s, toks, ind, nl⟩ := lx
  simp only at h hnl
  subst h hnl
  unfold Lexer.findIndent
  simp only [if_true]
  rw [Lexer.countSpaces_good _ _ _ (by omega)]
  cases hd : List.dropWhile (fun c => c == ' ') r with
  | nil => simp
  | cons d ds =>
    by_cases h1 : d = '\n'
    · simp [h1]
    · simp [h1]

theorem Lexer.findStep_notgood (lx : Lexer) (r : List Char) (e f : Bool)
    (h : lx.input_ = ⟨r, e, f⟩) (hef : e = true ∨ f = true) :
    Lexer.findStep lx = .ok (.ret Token.Eof (Lexer.atEof { lx with input_ := ⟨r, e, true⟩ })) := by
  obtain ⟨s, toks, ind, nl⟩ := lx
  simp only at h
  subst h
  rcases hef with rfl | rfl
  · simp [Lexer.findStep, Lexer.IsEof]
  · simp [Lexer.findStep, Lexer.IsEof]

theorem Lexer.findStep_nil (lx : Lexer) (h : lx.input_ = ⟨[], false, false⟩) :
    Lexer.findStep lx = .ok (.ret Token.Eof (Lexer.atEof { lx with input_ := ⟨[], true, false⟩ })) := by
  obtain ⟨s, toks, ind, nl⟩ := lx
  simp only at h
  subst h
  simp [Lexer.findStep, Lexer.IsEof]

theorem Lexer.findStep_good (lx : Lexer) (c : Char) (cs : List Char)
    (h : lx.input_ = ⟨c :: cs, false, false⟩) :
    Lexer.findStep lx =
      (Lexer.findIndent lx).bind fun
        | .next lx1 => Lexer.findMain lx1
        | flow => .ok flow := by
  obtain ⟨s, toks, ind, nl⟩ := lx
  simp only at h
  subst h
  simp [Lexer.findStep, Lexer.IsEof]

theorem List.dropWhile_space_head (r : List Char) :
    (r.dropWhile (fun c => c == ' ')).head? ≠ some ' ' := by
  induction r with
  | nil => simp
  | cons c cs ih =>
    by_cases h : c = ' '
    · simpa [List.dropWhile_cons, h] using ih
    · simp [List.dropWhile_cons, h]

theorem List.takeWhile_space_eq (r : List Char) :
    r.takeWhile (fun c => c == ' ') = List.replicate (r.takeWhile (fun c => c == ' ')).length ' ' := by
  induction r with
  | nil => simp
  | cons c cs ih =>
    by_cases h : c = ' '
    · simp only [List.takeWhile_cons, h, beq_self_eq_true, if_true, List.length_cons,
        List.replicate_succ]
      rw [← ih]
    · simp [List.takeWhile_cons, h]

theorem List.space_split (r : List Char) :
    r = List.replicate (r.takeWhile (fun c => c == ' ')).length ' ' ++
      r.dropWhile (fun c => c == ' ') := by
  rw [← List.takeWhile_space_eq]
  exact (List.takeWhile_append_dropWhile _ r).symm

/-- Case analysis of one pass of `FindNextToken`: every pass is one of the listed
cases, given by the state of the stream and the characters at its front. -/
theorem Lexer.findStep_cases (P : Lexer → Outcome Flow → Prop)
    (eofA : ∀ (lx : Lexer) r e f, lx.input_ = ⟨r, e, f⟩ → (e = true ∨ f = true) →
      P lx (.ok (.ret Token.Eof (Lexer.atEof { lx with input_ := ⟨r, e, true⟩ }))))
    (eofB : ∀ (lx : Lexer), lx.input_ = ⟨[], false, false⟩ →
      P lx (.ok (.ret Token.Eof (Lexer.atEof { lx with input_ := ⟨[], true, false⟩ }))))
    (blank : ∀ (lx : Lexer) (k : Nat) cs,
      lx.input_ = ⟨List.replicate k ' ' ++ '\n' :: cs, false, false⟩ → lx.is_new_line_ = true →
      P lx (.ok (.again { lx with input_ := ⟨'\n' :: cs, false, false⟩, is_new_line_ := false })))
    (indent : ∀ (lx : Lexer) (k : Nat) r1,
      lx.input_ = ⟨List.replicate k ' ' ++ r1, false, false⟩ → 0 < k + r1.length →
      lx.is_new_line_ = true → r1.head? ≠ some ' ' → r1.head? ≠ some '\n' →
      (k : Int) ≠ lx.indent_ →
      P lx (.ok (Lexer.indentStep
        { lx with input_ := (IStream.upTo r1).peek.2, is_new_line_ := false } k)))
    (lineEnd : ∀ (lx : Lexer) (k : Nat),
      lx.input_ = ⟨List.replicate k ' ', false, false⟩ → 0 < k →
      lx.is_new_line_ = true → (k : Int) = lx.indent_ →
      P lx (.ok (.ret (Token.Char (Char.ofNat 255))
        { lx with input_ := ⟨[], true, true⟩, is_new_line_ := false })))
    (spaces : ∀ (lx : Lexer) cs,
      lx.input_ = ⟨' ' :: cs, false, false⟩ → lx.is_new_line_ = false →
      P lx (.ok (.again { lx with input_ := IStream.upTo (cs.dropWhile (fun c => c == ' ')) })))
    (comment : ∀ (lx : Lexer) (k : Nat) c cs,
      lx.input_ = ⟨List.replicate k ' ' ++ c :: cs, false, false⟩ → lx.AtMain k c → c = '#' →
      P lx (.ok (.again { lx with input_ := IStream.afterComment cs, is_new_line_ := false })))
    (string : ∀ (lx : Lexer) (k : Nat) c cs (str : List Char) (s1 : IStream),
      lx.input_ = ⟨List.replicate k ' ' ++ c :: cs, false, false⟩ → lx.AtMain k c →
      Lexer.IsString c = true →
      ((∃ r1, s1 = ⟨c :: r1, false, false⟩ ∧ (c :: r1) <:+ cs) ∨ s1 = ⟨[], true, true⟩) →
      P lx (.ok (.ret (Token.String (String.mk str))
        { lx with input_ := s1.get.2, is_new_line_ := false })))
    (number : ∀ (lx : Lexer) (k : Nat) c cs,
      lx.input_ = ⟨List.replicate k ' ' ++ c :: cs, false, false⟩ → lx.AtMain k c →
      Lexer.IsNumber c = true →
      P lx ((stoi (c :: cs.takeWhile Lexer.IsNumber)).bind fun v =>
        .ok (.ret (Token.Number v)
          { lx with input_ := IStream.upTo (cs.dropWhile Lexer.IsNumber),
                    is_new_line_ := false })))
    (newlineSkip : ∀ (lx : Lexer) cs,
      lx.input_ = ⟨'\n' :: cs, false, false⟩ → lx.is_new_line_ = false →
      (lx.tokens_ = [] ∨ lx.tokens_.getLast? = some Token.Newline) →
      P lx (.ok (.again { lx with input_ := ⟨cs, false, false⟩, is_new_line_ := true })))
    (newline : ∀ (lx : Lexer) cs,
      lx.input_ = ⟨'\n' :: cs, false, false⟩ → lx.is_new_line_ = false →
      lx.tokens_ ≠ [] → lx.tokens_.getLast? ≠ some Token.Newline →
      P lx (.ok (.ret Token.Newline
        { lx with input_ := ⟨cs, false, false⟩, is_new_line_ := true })))
    (word : ∀ (lx : Lexer) (k : Nat) c cs,
      lx.input_ = ⟨List.replicate k ' ' ++ c :: cs, false, false⟩ → lx.AtMain k c →
      Lexer.IsId c = true → Lexer.IsNumber c = false →
      P lx (.ok (.ret
        ((Lexer.keywords_.lookup (String.mk (c :: cs.takeWhile Lexer.IsId))).getD
          (Token.Id (String.mk (c :: cs.takeWhile Lexer.IsId))))
        { lx with input_ := IStream.upTo (cs.dropWhile Lexer.IsId), is_new_line_ := false })))
    (symbol : ∀ (lx : Lexer) (k : Nat) c cs,
      lx.input_ = ⟨List.replicate k ' ' ++ c :: cs, false, false⟩ → lx.AtMain k c →
      c ≠ ' ' → c ≠ '#' → Lexer.IsString c = false → Lexer.IsNumber c = false → c ≠ '\n' →
      Lexer.IsId c = false →
      P lx (.ok (.ret (Lexer.findSymbol ⟨c :: cs, false, false⟩).1
        { lx with input_ := (Lexer.findSymbol ⟨c :: cs, false, false⟩).2,
                  is_new_line_ := false })))
    (lx : Lexer) : P lx (Lexer.findStep lx) := by
  -- the main part, entered with the stream at `c :: cs`
  have main : ∀ (lx : Lexer) (k : Nat) c cs,
      lx.input_ = ⟨List.replicate k ' ' ++ c :: cs, false, false⟩ → lx.AtMain k c →
      P lx (Lexer.findMain { lx with input_ := ⟨c :: cs, false, false⟩, is_new_line_ := false }) := by
    intro lx k c cs hs hm
    rw [Lexer.findMain_good _ c cs rfl]
    have hk0 : lx.is_new_line_ = false → k = 0 := by
      intro h
      rcases hm with ⟨h1, _⟩ | ⟨_, h2⟩
      · rw [h] at h1; cases h1
      · exact h2
    by_cases h1 : c = ' '
    · have hnl : lx.is_new_line_ = false := by
        rcases hm with ⟨_, _, h2, _⟩ | ⟨h2, _⟩
        · exact absurd h1 h2
        · exact h2
      have hk := hk0 hnl
      subst hk
      subst h1
      have := spaces lx cs (by simpa using hs) hnl
      simp only [if_true]
      obtain ⟨s, toks, ind, nl⟩ := lx
      simp only at hnl
      subst hnl
      exact this
    by_cases h2 : c = '#'
    · simp only [h1, h2, if_false, if_true]
      exact comment lx k c cs hs hm h2
    by_cases h3 : Lexer.IsString c = true
    · simp only [h1, h2, h3, if_false, if_true]
      obtain ⟨str1, s1, e1, e2⟩ := Lexer.readString_good c (cs.length + 3) cs [] (by omega)
      rw [e1]
      exact string lx k c cs str1 s1 hs hm h3 e2
    by_cases h4 : Lexer.IsNumber c = true
    · simp only [h1, h2, h3, h4, if_false, if_true]
      exact number lx k c cs hs hm h4
    by_cases h5 : c = '\n'
    · have hnl : lx.is_new_line_ = false := by
        rcases hm with ⟨_, _, _, h2⟩ | ⟨h2, _⟩
        · exact absurd h5 h2
        · exact h2
      have hk := hk0 hnl
      subst hk
      subst h5
      simp only [h1, h2, h3, h4, if_false, if_true]
      by_cases h6 : lx.tokens_ = [] ∨ lx.tokens_.getLast? = some Token.Newline
      · simp only [h6, if_true]
        exact newlineSkip lx cs (by simpa using hs) hnl h6
      · simp only [h6, if_false]
        push_neg at h6
        exact newline lx cs (by simpa using hs) hnl h6.1 h6.2
    by_cases h6 : Lexer.IsId c = true
    · simp only [h1, h2, h3, h4, h5, h6, if_false, if_true]
      have := word lx k c cs hs hm h6 (by simpa using h4)
      cases hl : Lexer.keywords_.lookup (String.mk (c :: cs.takeWhile Lexer.IsId)) with
      | none => simpa [hl] using this
      | some kw => simpa [hl] using this
    · simp only [h1, h2, h3, h4, h5, h6, if_false]
      exact symbol lx k c cs hs hm h1 h2 (by simpa using h3) (by simpa using h4) h5
        (by simpa using h6)
  obtain ⟨⟨r, e, f⟩, toks, ind, nl⟩ := lx
  by_cases hg : e = true ∨ f = true
  · rw [Lexer.findStep_notgood _ r e f rfl hg]
    exact eofA _ r e f rfl hg
  · push_neg at hg
    obtain ⟨he, hf⟩ := hg
    simp only [Bool.not_eq_true] at he hf
    subst he hf
    cases r with
    | nil => rw [Lexer.findStep_nil _ rfl]; exact eofB _ rfl
    | cons c cs =>
      rw [Lexer.findStep_good _ c cs rfl]
      cases nl with
      | false =>
        simp only [Lexer.findIndent, Bool.false_eq_true, if_false, Outcome.bind_ok]
        exact main ⟨⟨c :: cs, false, false⟩, toks, ind, false⟩ 0 c cs (by simp)
          (Or.inr ⟨rfl, rfl⟩)
      | true =>
        rw [Lexer.findIndent_good _ (c :: cs) rfl rfl]
        have hsplit := List.space_split (c :: cs)
        have hhead := List.dropWhile_space_head (c :: cs)
        generalize hk : (List.takeWhile (fun c => c == ' ') (c :: cs)).length = k at hsplit ⊢
        generalize hr1 : List.dropWhile (fun c => c == ' ') (c :: cs) = r1 at hsplit hhead ⊢
        by_cases hn : r1.head? = some '\n'
        · simp only [hn, if_true, Outcome.bind_ok]
          cases r1 with
          | nil => simp at hn
          | cons d ds =>
            simp only [List.head?_cons, Option.some.injEq] at hn
            subst hn
            exact blank ⟨⟨c :: cs, false, false⟩, toks, ind, true⟩ k ds (by simp [hsplit]) rfl
        · simp only [hn, if_false, Outcome.bind_ok]
          by_cases hd : (k : Int) = ind
          · -- unchanged indentation: on to the main part
            have hstep : Lexer.indentStep
                { input_ := (IStream.upTo r1).peek.2, tokens_ := toks, indent_ := ind,
                  is_new_line_ := false } k =
                .next { input_ := (IStream.upTo r1).peek.2, tokens_ := toks, indent_ := ind,
                        is_new_line_ := false } := by
              simp [Lexer.indentStep, hd]
            rw [hstep]
            cases r1 with
            | nil =>
              simp only [IStream.upTo_nil, IStream.peek_eof]
              rw [Lexer.findMain_failed _ [] true rfl]
              have hk0 : 0 < k := by
                rcases Nat.eq_zero_or_pos k with h0 | h0
                · rw [h0] at hsplit; simp at hsplit
                · exact h0
              exact lineEnd ⟨⟨c :: cs, false, false⟩, toks, ind, true⟩ k
                (by simp [hsplit]) hk0 rfl hd
            | cons d ds =>
              simp only [IStream.upTo_cons, IStream.peek_good_cons]
              have hd1 : d ≠ ' ' := by
                intro h; apply hhead; simp [h]
              have hd2 : d ≠ '\n' := by
                intro h; apply hn; simp [h]
              exact main ⟨⟨c :: cs, false, false⟩, toks, ind, true⟩ k d ds
                (by simp [hsplit]) (Or.inl ⟨rfl, hd, hd1, hd2⟩)
          · have hI := indent ⟨⟨c :: cs, false, false⟩, toks, ind, true⟩ k r1 (by simp [hsplit])
              (by
                have := congrArg List.length hsplit
                simp at this
                omega) rfl hhead hn hd
            change P _ (Outcome.ok (Lexer.indentStep ⟨(IStream.upTo r1).peek.2, toks, ind, false⟩ k))
              at hI
            have hret : ∃ t lx1,
                Lexer.indentStep ⟨(IStream.upTo r1).peek.2, toks, ind, false⟩ k = .ret t lx1 := by
              unfold Lexer.indentStep
              have hne : (k : Int) - ind ≠ 0 := sub_ne_zero.mpr hd
              simp only [hne, if_false]
              split_ifs
              · exact ⟨_, _, rfl⟩
              · exact ⟨_, _, rfl⟩
            obtain ⟨t, lx1, e⟩ := hret
            rw [e] at hI ⊢
            exact hI

/-! ## Termination -/

@[simp] theorem Lexer.atEof_input (lx : Lexer) : (Lexer.atEof lx).input_ = lx.input_ := rfl

@[simp] theorem Lexer.atEof_new_line (lx : Lexer) :
    (Lexer.atEof lx).is_new_line_ = lx.is_new_line_ := rfl

@[simp] theorem Lexer.atEof_indent (lx : Lexer) : (Lexer.atEof lx).indent_ = lx.indent_ := rfl

theorem Lexer.indentStep_ret (lx : Lexer) (k : Int) (h : k ≠ lx.indent_) :
    ∃ t toks, Lexer.indentStep lx k = .ret t { lx with indent_ := k, tokens_ := toks } ∧
      (t = Token.Indent ∨ t = Token.Dedent) := by
  unfold Lexer.indentStep
  have hne : k - lx.indent_ ≠ 0 := sub_ne_zero.mpr h
  simp only [hne, if_false]
  split_ifs
  · exact ⟨_, _, rfl, Or.inl rfl⟩
  · exact ⟨_, _, rfl, Or.inr rfl⟩

theorem Lexer.findSymbol_stream (c : Char) (cs : List Char) :
    (Lexer.findSymbol ⟨c :: cs, false, false⟩).2 = IStream.upTo cs ∨
    (Lexer.findSymbol ⟨c :: cs, false, false⟩).2 = ⟨cs, false, false⟩ ∨
    (∃ cs1, cs = '=' :: cs1 ∧ (Lexer.findSymbol ⟨c :: cs, false, false⟩).2 = ⟨cs1, false, false⟩) := by
  unfold Lexer.findSymbol
  simp only [IStream.get_good_cons, toChar]
  cases cs with
  | nil => simp; split_ifs <;> simp
  | cons d ds =>
    by_cases hd : d = '='
    · subst hd
      simp only [IStream.peek_good_cons, IStream.get_good_cons, if_true]
      split_ifs <;> simp
    · simp only [IStream.peek_good_cons, IStream.get_good_cons]
      split_ifs <;> simp_all

theorem Lexer.findStep_progress (lx : Lexer) : Lexer.Progress lx (Lexer.findStep lx) := by
  refine Lexer.findStep_cases Lexer.Progress ?_ ?_ ?_ ?_ ?_ ?_ ?_ ?_ ?_ ?_ ?_ ?_ ?_ lx
  · -- eofA
    intro lx r e f hs hef
    simp only [Lexer.Progress, Flow.lexer, Lexer.measure, Lexer.atEof_input,
      Lexer.atEof_new_line, hs, IStream.rank]
    refine ⟨by simp, by simp, ?_, by simp⟩
    intro hf
    subst hf
    rcases hef with rfl | h
    · simp
    · cases h
  · -- eofB
    intro lx hs
    simp only [Lexer.Progress, Flow.lexer, Lexer.measure, Lexer.atEof_input,
      Lexer.atEof_new_line, hs, IStream.rank]
    simp
  · -- blank
    intro lx k cs hs hnl
    simp only [Lexer.Progress, Flow.lexer, Lexer.measure, hs, hnl, IStream.rank]
    simp
    omega
  · -- indent
    intro lx k r1 hs hpos hnl h1 h2 hd
    obtain ⟨t, toks, e, _⟩ := Lexer.indentStep_ret
      { lx with input_ := (IStream.upTo r1).peek.2, is_new_line_ := false } k hd
    rw [e]
    simp only [Lexer.Progress, Flow.lexer, Lexer.measure, hs, hnl, IStream.rank]
    cases r1 with
    | nil => simp
    | cons d ds => simp; omega
  · -- lineEnd
    intro lx k hs hk hnl hd
    simp only [Lexer.Progress, Flow.lexer, Lexer.measure, hs, hnl, IStream.rank]
    simp
  · -- spaces
    intro lx cs hs hnl
    have := (List.dropWhile_suffix (fun c => c == ' ') (l := cs)).length_le
    simp only [Lexer.Progress, Flow.lexer, Lexer.measure, hs, hnl, IStream.rank, IStream.upTo]
    simp
    split_ifs <;> omega
  · -- comment
    intro lx k c cs hs hm hc
    have := (List.dropWhile_suffix (fun c => c != '\n') (l := cs)).length_le
    simp only [Lexer.Progress, Flow.lexer, Lexer.measure, hs, IStream.rank, IStream.afterComment]
    simp
    split_ifs <;> simp <;> omega
  · -- string
    intro lx k c cs str s1 hs hm hc h
    simp only [Lexer.Progress, Flow.lexer, Lexer.measure, hs, IStream.rank]
    rcases h with ⟨r1, rfl, hsuf⟩ | rfl
    · have := hsuf.length_le
      simp at this
      simp
      split_ifs <;> omega
    · simp
  · -- number
    intro lx k c cs hs hm hc
    have := (List.dropWhile_suffix Lexer.IsNumber (l := cs)).length_le
    cases hv : stoi (c :: cs.takeWhile Lexer.IsNumber) with
    | exhausted => simp [stoi] at hv; split_ifs at hv
    | out_of_range => simp [Lexer.Progress]
    | ok v =>
      simp only [Outcome.bind_ok, Lexer.Progress, Flow.lexer, Lexer.measure, hs, IStream.rank,
        IStream.upTo]
      simp
      split_ifs <;> omega
  · -- newlineSkip
    intro lx cs hs hnl ht
    simp only [Lexer.Progress, Flow.lexer, Lexer.measure, hs, hnl, IStream.rank]
    simp
    omega
  · -- newline
    intro lx cs hs hnl ht1 ht2
    simp only [Lexer.Progress, Flow.lexer, Lexer.measure, hs, hnl, IStream.rank]
    simp
    omega
  · -- word
    intro lx k c cs hs hm hc hn
    have := (List.dropWhile_suffix Lexer.IsId (l := cs)).length_le
    simp only [Lexer.Progress, Flow.lexer, Lexer.measure, hs, IStream.rank, IStream.upTo]
    simp
    split_ifs <;> omega
  · -- symbol
    intro lx k c cs hs hm h1 h2 h3 h4 h5 h6
    simp only [Lexer.Progress, Flow.lexer, Lexer.measure, hs, IStream.rank]
    rcases Lexer.findSymbol_stream c cs with h | h | ⟨cs1, rfl, h⟩
    · rw [h]; simp [IStream.upTo]; split_ifs <;> omega
    · rw [h]; simp; split_ifs <;> omega
    · rw [h]; simp; split_ifs <;> omega

theorem Lexer.findStep_ne_next (lx l : Lexer) : Lexer.findStep lx ≠ .ok (.next l) := by
  intro h
  have := Lexer.findStep_progress lx
  rw [h] at this
  exact this.1 l rfl

/-- A property of the result of `FindNextToken` follows from the passes: the passes
that end in `return FindNextToken();` keep `Inv`, a pass that returns a token from a
lexer with `Inv` establishes `Post`. -/
theorem Lexer.FindNextToken_rule (Inv : Lexer → Prop) (Post : Token → Lexer → Prop)
    (again : ∀ lx lx1, Inv lx → Lexer.findStep lx = .ok (.again lx1) → Inv lx1)
    (ret : ∀ lx t lx1, Inv lx → Lexer.findStep lx = .ok (.ret t lx1) → Post t lx1) :
    ∀ n lx t lx1, Inv lx → Lexer.FindNextToken n lx = .ok (t, lx1) → Post t lx1 := by
  intro n
  induction n with
  | zero => intro lx t lx1 _ h; simp [Lexer.FindNextToken] at h
  | succ n ih =>
    intro lx t lx1 hinv h
    unfold Lexer.FindNextToken at h
    cases hstep : Lexer.findStep lx with
    | exhausted => rw [hstep] at h; simp at h
    | out_of_range => rw [hstep] at h; simp at h
    | ok flow =>
      rw [hstep] at h
      cases flow with
      | ret t2 lx2 =>
        simp only [Outcome.bind_ok, Outcome.ok.injEq, Prod.mk.injEq] at h
        obtain ⟨rfl, rfl⟩ := h
        exact ret lx _ _ hinv hstep
      | again lx2 =>
        simp only [Outcome.bind_ok] at h
        exact ih lx2 t lx1 (again lx lx2 hinv hstep) h
      | next lx2 => exact absurd hstep (Lexer.findStep_ne_next lx lx2)

theorem Lexer.FindNextToken_progress (n : Nat) (lx : Lexer) (h : lx.measure < n) :
    Lexer.FindNextToken n lx ≠ .exhausted ∧
    ∀ t lx1, Lexer.FindNextToken n lx = .ok (t, lx1) →
      lx1.measure ≤ lx.measure ∧ (lx.input_.failbit = false → lx1.measure < lx.measure) := by
  induction n generalizing lx with
  | zero => omega
  | succ n ih =>
    unfold Lexer.FindNextToken
    have hp := Lexer.findStep_progress lx
    cases hstep : Lexer.findStep lx with
    | exhausted => rw [hstep] at hp; exact absurd hp (by simp [Lexer.Progress])
    | out_of_range => simp
    | ok flow =>
      rw [hstep] at hp
      obtain ⟨hp1, hp2, hp3, hp4⟩ := hp
      cases flow with
      | ret t2 lx2 =>
        simp only [Outcome.bind_ok, ne_eq, not_false_eq_true, Outcome.ok.injEq, Prod.mk.injEq,
          true_and, reduceCtorEq]
        rintro t lx1 ⟨rfl, rfl⟩
        exact ⟨hp2, hp3⟩
      | again lx2 =>
        simp only [Outcome.bind_ok]
        have hf := hp4 lx2 rfl
        have hlt := hp3 hf
        simp only [Flow.lexer] at hlt hp2
        obtain ⟨i1, i2⟩ := ih lx2 (by omega)
        refine ⟨i1, ?_⟩
        intro t lx1 e
        obtain ⟨j1, _⟩ := i2 t lx1 e
        exact ⟨by omega, fun _ => by omega⟩
      | next lx2 => exact absurd rfl (hp1 lx2)

theorem Lexer.run_total (b n : Nat) (lx : Lexer) (hb : lx.measure < b) (hn : lx.measure < n) :
    Lexer.run b n lx ≠ .exhausted := by
  induction n generalizing lx with
  | zero => omega
  | succ n ih =>
    unfold Lexer.run
    by_cases hf : lx.input_.toBool = true
    · simp only [hf, if_true]
      obtain ⟨p1, p2⟩ := Lexer.FindNextToken_progress b lx hb
      cases hr : Lexer.FindNextToken b lx with
      | exhausted => exact absurd hr p1
      | out_of_range => simp
      | ok r =>
        obtain ⟨t, lx1⟩ := r
        simp only [Outcome.bind_ok]
        have hfb : lx.input_.failbit = false := by
          simpa [IStream.toBool] using hf
        obtain ⟨_, q⟩ := p2 t lx1 hr
        have := q hfb
        have e : Lexer.measure { lx1 with tokens_ := lx1.tokens_ ++ [t] } = lx1.measure := rfl
        apply ih
        · rw [e]; omega
        · rw [e]; omega
    · simp [hf]

/-- The constructor terminates: the budget it hands out is never used up. -/
theorem Lexer.new_total (input : List Char) : Lexer.new input ≠ .exhausted := by
  apply Lexer.run_total <;>
    simp [Lexer.init, Lexer.measure, Lexer.budget, IStream.rank]

/-- A property of the lexer the constructor leaves behind follows from the calls of
`FindNextToken`: it holds at the start and every round of the loop keeps it. -/
theorem Lexer.run_rule (Inv : Lexer → Prop) (b : Nat)
    (step : ∀ lx t lx1, Inv lx → lx.input_.failbit = false →
      Lexer.FindNextToken b lx = .ok (t, lx1) →
      Inv { lx1 with tokens_ := lx1.tokens_ ++ [t] }) :
    ∀ n lx lx1, Inv lx → Lexer.run b n lx = .ok lx1 → Inv lx1 ∧ lx1.input_.failbit = true := by
  intro n
  induction n with
  | zero => intro lx lx1 _ h; simp [Lexer.run] at h
  | succ n ih =>
    intro lx lx1 hinv h
    unfold Lexer.run at h
    by_cases hf : lx.input_.toBool = true
    · simp only [hf, if_true] at h
      have hfb : lx.input_.failbit = false := by
        simpa [IStream.toBool] using hf
      cases hr : Lexer.FindNextToken b lx with
      | exhausted => rw [hr] at h; simp at h
      | out_of_range => rw [hr] at h; simp at h
      | ok r =>
        obtain ⟨t, lx2⟩ := r
        rw [hr] at h
        simp only [Outcome.bind_ok] at h
        exact ih _ lx1 (step lx t lx2 hinv hfb hr) h
    · simp only [hf, Bool.false_eq_true, if_false, Outcome.ok.injEq] at h
      subst h
      exact ⟨hinv, by simpa [IStream.toBool] using hf⟩

/-! ## No two adjacent `Newline` tokens -/

theorem noAdjacentNewlines_iff (ts : List Token) :
    NoAdjacentNewlines ts ↔ List.Chain' NotBothNewline ts := by
  induction ts with
  | nil => simp [NoAdjacentNewlines]
  | cons a as ih =>
    cases as with
    | nil =>
      simp only [List.chain'_singleton, iff_true]
      intro i h
      cases i <;> simp
    | cons b bs =>
      rw [List.chain'_cons, ← ih]
      constructor
      · intro h
        refine ⟨?_, ?_⟩
        · rintro ⟨rfl, rfl⟩
          exact h 0 (by simp) (by simp)
        · intro i hi
          have := h (i + 1) (by simpa using hi)
          simpa using this
      · rintro ⟨h1, h2⟩ i hi
        cases i with
        | zero =>
          simp only [List.getElem?_cons_zero, Option.some.injEq] at hi
          simp only [zero_add, List.getElem?_cons_succ, List.getElem?_cons_zero, ne_eq,
            Option.some.injEq]
          intro hb
          exact h1 ⟨hi, hb⟩
        | succ i =>
          have := h2 i (by simpa using hi)
          simpa using this

theorem chain_push (ts : List Token) (t : Token) (h : List.Chain' NotBothNewline ts)
    (ht : t = Token.Newline → ts.getLast? ≠ some Token.Newline) :
    List.Chain' NotBothNewline (ts ++ [t]) := by
  rw [List.chain'_append]
  refine ⟨h, List.chain'_singleton t, ?_⟩
  intro x hx y hy
  simp only [List.head?_cons, Option.mem_def, Option.some.injEq] at hy
  subst hy
  rintro ⟨rfl, rfl⟩
  exact ht rfl hx

theorem pushLoop_chain (cond : Int → Bool) (next : Int → Int) (t : Token) (n : Nat) (i : Int)
    (toks : List Token) (ht : t ≠ Token.Newline) (h : List.Chain' NotBothNewline toks) :
    List.Chain' NotBothNewline (pushLoop cond next t n i toks) := by
  induction n generalizing i toks with
  | zero => exact h
  | succ n ih =>
    unfold pushLoop
    split_ifs
    · exact ih _ _ (chain_push toks t h (fun e => absurd e ht))
    · exact h

theorem Lexer.atEof_chain (lx : Lexer) (h : List.Chain' NotBothNewline lx.tokens_) :
    List.Chain' NotBothNewline ((Lexer.atEof lx).tokens_ ++ [Token.Eof]) := by
  apply chain_push _ _ _ (by simp)
  unfold Lexer.atEof
  have h1 : List.Chain' NotBothNewline
      (if lx.indent_ > 0 then
        pushLoop (fun i => i > 0) (fun i => i - 2) Token.Dedent lx.indent_.toNat lx.indent_
          lx.tokens_
      else lx.tokens_) := by
    split_ifs
    · exact pushLoop_chain _ _ _ _ _ _ (by simp) h
    · exact h
  have key : ∀ toks1 : List Token, List.Chain' NotBothNewline toks1 →
      List.Chain' NotBothNewline
        (if ¬ toks1 = [] then
          if toks1.getLast? ≠ some Token.Newline ∧ toks1.getLast? ≠ some Token.Dedent
              ∧ toks1.getLast? ≠ some Token.Indent then
            toks1 ++ [Token.Newline]
          else toks1
        else toks1) := by
    intro toks1 h2
    by_cases c1 : toks1 = []
    · simp [c1]
    · simp only [c1, not_false_eq_true, if_true]
      split_ifs with c2
      · exact chain_push _ _ h2 (fun _ => c2.1)
      · exact h2
  exact key _ h1

theorem Lexer.indentStep_chain (lx : Lexer) (k : Int)
    (h : List.Chain' NotBothNewline lx.tokens_) :
    List.Chain' NotBothNewline (Lexer.indentStep lx k).pushed := by
  unfold Lexer.indentStep
  simp only
  split_ifs
  · exact h
  · exact chain_push _ _ (pushLoop_chain _ _ _ _ _ _ (by simp) h) (by simp)
  · exact chain_push _ _ (pushLoop_chain _ _ _ _ _ _ (by simp) h) (by simp)

theorem Lexer.keyword_ne_newline (w : String) :
    (Lexer.keywords_.lookup w).getD (Token.Id w) ≠ Token.Newline := by
  simp only [Lexer.keywords_, List.lookup]
  repeat' split
  all_goals simp

theorem Lexer.findSymbol_ne_newline (s : IStream) : (Lexer.findSymbol s).1 ≠ Token.Newline := by
  unfold Lexer.findSymbol
  simp only
  split_ifs <;> simp

theorem Lexer.findStep_chain (lx : Lexer) :
    ∀ flow, Lexer.findStep lx = .ok flow → List.Chain' NotBothNewline lx.tokens_ →
      List.Chain' NotBothNewline flow.pushed := by
  refine Lexer.findStep_cases
    (fun lx r => ∀ flow, r = .ok flow → List.Chain' NotBothNewline lx.tokens_ →
      List.Chain' NotBothNewline flow.pushed) ?_ ?_ ?_ ?_ ?_ ?_ ?_ ?_ ?_ ?_ ?_ ?_ ?_ lx
  · rintro lx r e f - - flow ⟨rfl⟩ h
    exact Lexer.atEof_chain _ h
  · rintro lx - flow ⟨rfl⟩ h
    exact Lexer.atEof_chain _ h
  · rintro lx k cs - - flow ⟨rfl⟩ h
    exact h
  · rintro lx k r1 - - - - - - flow ⟨rfl⟩ h
    exact Lexer.indentStep_chain _ _ h
  · rintro lx k - - - - flow ⟨rfl⟩ h
    exact chain_push _ _ h (by simp)
  · rintro lx cs - - flow ⟨rfl⟩ h
    exact h
  · rintro lx k c cs - - - flow ⟨rfl⟩ h
    exact h
  · rintro lx k c cs str s1 - - - - flow ⟨rfl⟩ h
    exact chain_push _ _ h (by simp)
  · rintro lx k c cs - - - flow hf h
    cases hv : stoi (c :: cs.takeWhile Lexer.IsNumber) with
    | exhausted => rw [hv] at hf; simp at hf
    | out_of_range => rw [hv] at hf; simp at hf
    | ok v =>
      rw [hv] at hf
      simp only [Outcome.bind_ok, Outcome.ok.injEq] at hf
      subst hf
      exact chain_push _ _ h (by simp)
  · rintro lx cs - - - flow ⟨rfl⟩ h
    exact h
  · rintro lx cs - - - ht flow ⟨rfl⟩ h
    exact chain_push _ _ h (fun _ => ht)
  · rintro lx k c cs - - - - flow ⟨rfl⟩ h
    exact chain_push _ _ h (fun e => absurd e (Lexer.keyword_ne_newline _))
  · rintro lx k c cs - - - - - - - - flow ⟨rfl⟩ h
    exact chain_push _ _ h (fun e => absurd e (Lexer.findSymbol_ne_newline _))

theorem Lexer.findStep_again_tokens (lx lx1 : Lexer) (h : Lexer.findStep lx = .ok (.again lx1)) :
    lx1.tokens_ = lx.tokens_ ∧ lx1.indent_ = lx.indent_ := by
  revert lx1
  refine Lexer.findStep_cases
    (fun lx r => ∀ lx1, r = .ok (.again lx1) → lx1.tokens_ = lx.tokens_ ∧ lx1.indent_ = lx.indent_)
    ?_ ?_ ?_ ?_ ?_ ?_ ?_ ?_ ?_ ?_ ?_ ?_ ?_ lx
  · rintro lx r e f - - lx1 h; simp at h
  · rintro lx - lx1 h; simp at h
  · rintro lx k cs - - lx1 h
    simp only [Outcome.ok.injEq, Flow.again.injEq] at h
    subst h; exact ⟨rfl, rfl⟩
  · rintro lx k r1 - - - - - hd lx1 h
    obtain ⟨t, toks, e, _⟩ := Lexer.indentStep_ret
      { lx with input_ := (IStream.upTo r1).peek.2, is_new_line_ := false } k hd
    rw [e] at h; simp at h
  · rintro lx k - - - - lx1 h; simp at h
  · rintro lx cs - - lx1 h
    simp only [Outcome.ok.injEq, Flow.again.injEq] at h
    subst h; exact ⟨rfl, rfl⟩
  · rintro lx k c cs - - - lx1 h
    simp only [Outcome.ok.injEq, Flow.again.injEq] at h
    subst h; exact ⟨rfl, rfl⟩
  · rintro lx k c cs str s1 - - - - lx1 h; simp at h
  · rintro lx k c cs - - - lx1 h
    cases hv : stoi (c :: cs.takeWhile Lexer.IsNumber) with
    | exhausted => rw [hv] at h; simp at h
    | out_of_range => rw [hv] at h; simp at h
    | ok v => rw [hv] at h; simp at h
  · rintro lx cs - - - lx1 h
    simp only [Outcome.ok.injEq, Flow.again.injEq] at h
    subst h; exact ⟨rfl, rfl⟩
  · rintro lx cs - - - - lx1 h; simp at h
  · rintro lx k c cs - - - - lx1 h; simp at h
  · rintro lx k c cs - - - - - - - - lx1 h; simp at h

theorem Lexer.FindNextToken_chain (n : Nat) (lx lx1 : Lexer) (t : Token)
    (h : List.Chain' NotBothNewline lx.tokens_)
    (hr : Lexer.FindNextToken n lx = .ok (t, lx1)) :
    List.Chain' NotBothNewline (lx1.tokens_ ++ [t]) := by
  refine Lexer.FindNextToken_rule (fun l => List.Chain' NotBothNewline l.tokens_)
    (fun t l => List.Chain' NotBothNewline (l.tokens_ ++ [t])) ?_ ?_ n lx t lx1 h hr
  · intro l l1 hl hs
    rw [(Lexer.findStep_again_tokens l l1 hs).1]
    exact hl
  · intro l t l1 hl hs
    exact Lexer.findStep_chain l _ hs hl

theorem Lexer.tokens_chain (input : List Char) (ts : List Token)
    (h : Lexer.tokens input = .ok ts) : List.Chain' NotBothNewline ts := by
  unfold Lexer.tokens at h
  cases hn : Lexer.new input with
  | exhausted => rw [hn] at h; simp at h
  | out_of_range => rw [hn] at h; simp at h
  | ok lx =>
    rw [hn] at h
    simp only [Outcome.bind_ok, Outcome.ok.injEq] at h
    subst h
    refine (Lexer.run_rule (fun l => List.Chain' NotBothNewline l.tokens_) _ ?_ _ _ lx ?_ hn).1
    · intro l t l1 hl _ hr
      exact Lexer.FindNextToken_chain _ l l1 t hl hr
    · simp [Lexer.init]

/-! ## The stream only moves forward -/

theorem Lexer.indentStep_lexer (lx : Lexer) (k : Int) :
    (Lexer.indentStep lx k).lexer.input_ = lx.input_ ∧
    (Lexer.indentStep lx k).lexer.is_new_line_ = lx.is_new_line_ ∧
    (Lexer.indentStep lx k).lexer.indent_ = k := by
  unfold Lexer.indentStep
  simp only
  split_ifs <;> exact ⟨rfl, rfl, rfl⟩

theorem IStream.upTo_peek_rest (r : List Char) : (IStream.upTo r).peek.2.rest = r := by
  cases r <;> rfl

theorem Lexer.findStep_stream (lx : Lexer) :
    ∀ flow, Lexer.findStep lx = .ok flow →
      flow.lexer.input_.rest <:+ lx.input_.rest ∧
      (flow.lexer.is_new_line_ = true →
        (flow.lexer.input_.rest = lx.input_.rest ∧ lx.is_new_line_ = true) ∨
        lx.input_.rest = '\n' :: flow.lexer.input_.rest) := by
  refine Lexer.findStep_cases
    (fun lx r => ∀ flow, r = .ok flow →
      flow.lexer.input_.rest <:+ lx.input_.rest ∧
      (flow.lexer.is_new_line_ = true →
        (flow.lexer.input_.rest = lx.input_.rest ∧ lx.is_new_line_ = true) ∨
        lx.input_.rest = '\n' :: flow.lexer.input_.rest))
    ?_ ?_ ?_ ?_ ?_ ?_ ?_ ?_ ?_ ?_ ?_ ?_ ?_ lx
  · rintro lx r e f hs - flow ⟨rfl⟩
    simp only [Flow.lexer, Lexer.atEof_input, Lexer.atEof_new_line, hs]
    exact ⟨List.suffix_refl _, fun h => Or.inl ⟨by simp, h⟩⟩
  · rintro lx hs flow ⟨rfl⟩
    simp only [Flow.lexer, Lexer.atEof_input, Lexer.atEof_new_line, hs]
    exact ⟨List.suffix_refl _, fun h => Or.inl ⟨by simp, h⟩⟩
  · rintro lx k cs hs - flow ⟨rfl⟩
    simp only [Flow.lexer, hs]
    exact ⟨List.suffix_append _ _, by simp⟩
  · rintro lx k r1 hs - - - - - flow ⟨rfl⟩
    obtain ⟨e1, e2, _⟩ := Lexer.indentStep_lexer
      { lx with input_ := (IStream.upTo r1).peek.2, is_new_line_ := false } k
    rw [e1, e2, hs]
    simp only [IStream.upTo_peek_rest]
    exact ⟨List.suffix_append _ _, by simp⟩
  · rintro lx k hs - - - flow ⟨rfl⟩
    simp only [Flow.lexer, hs]
    exact ⟨List.nil_suffix, by simp⟩
  · rintro lx cs hs hnl flow ⟨rfl⟩
    simp only [Flow.lexer, hs, IStream.upTo]
    refine ⟨(List.dropWhile_suffix _).trans (List.suffix_cons _ _), ?_⟩
    intro h
    rw [hnl] at h
    cases h
  · rintro lx k c cs hs - - flow ⟨rfl⟩
    simp only [Flow.lexer, hs, IStream.afterComment]
    refine ⟨?_, by simp⟩
    split_ifs
    · exact List.nil_suffix
    · exact (List.dropWhile_suffix _).trans
        ((List.suffix_cons _ _).trans (List.suffix_append _ _))
  · rintro lx k c cs str s1 hs - - h flow ⟨rfl⟩
    simp only [Flow.lexer, hs]
    refine ⟨?_, by simp⟩
    rcases h with ⟨r1, rfl, hsuf⟩ | rfl
    · simp only [IStream.get_good_cons]
      exact (List.suffix_cons _ _).trans
        (hsuf.trans ((List.suffix_cons _ _).trans (List.suffix_append _ _)))
    · exact List.nil_suffix
  · rintro lx k c cs hs - - flow hf
    cases hv : stoi (c :: cs.takeWhile Lexer.IsNumber) with
    | exhausted => rw [hv] at hf; simp at hf
    | out_of_range => rw [hv] at hf; simp at hf
    | ok v =>
      rw [hv] at hf
      simp only [Outcome.bind_ok, Outcome.ok.injEq] at hf
      subst hf
      simp only [Flow.lexer, hs, IStream.upTo]
      exact ⟨(List.dropWhile_suffix _).trans
        ((List.suffix_cons _ _).trans (List.suffix_append _ _)), by simp⟩
  · rintro lx cs hs - - flow ⟨rfl⟩
    simp only [Flow.lexer, hs]
    exact ⟨List.suffix_cons _ _, fun _ => Or.inr (by simp)⟩
  · rintro lx cs hs - - - flow ⟨rfl⟩
    simp only [Flow.lexer, hs]
    exact ⟨List.suffix_cons _ _, fun _ => Or.inr (by simp)⟩
  · rintro lx k c cs hs - - - flow ⟨rfl⟩
    simp only [Flow.lexer, hs, IStream.upTo]
    exact ⟨(List.dropWhile_suffix _).trans
      ((List.suffix_cons _ _).trans (List.suffix_append _ _)), by simp⟩
  · rintro lx k c cs hs - - - - - - - flow ⟨rfl⟩
    simp only [Flow.lexer, hs]
    refine ⟨?_, by simp⟩
    have base : cs <:+ List.replicate k ' ' ++ c :: cs :=
      (List.suffix_cons _ _).trans (List.suffix_append _ _)
    rcases Lexer.findSymbol_stream c cs with h | h | ⟨cs1, rfl, h⟩
    · rw [h]; exact base
    · rw [h]; exact base
    · rw [h]; exact (List.suffix_cons _ _).trans base

/-! ## The counting loops in closed form -/

theorem pushLoop_up (cond : Int → Bool) (t : Token) (hi : Int)
    (hcond : ∀ j, cond j = true ↔ j < hi) (n : Nat) (i : Int) (toks : List Token)
    (hn : ((hi - i + 1) / 2).toNat ≤ n) :
    pushLoop cond (fun i => i + 2) t n i toks =
      toks ++ List.replicate ((hi - i + 1) / 2).toNat t := by
  induction n generalizing i toks with
  | zero =>
    have : ((hi - i + 1) / 2).toNat = 0 := by omega
    simp [pushLoop, this]
  | succ n ih =>
    unfold pushLoop
    by_cases hc : i < hi
    · simp only [(hcond i).mpr hc, if_true]
      rw [ih (i + 2) _ (by omega)]
      have : ((hi - i + 1) / 2).toNat = ((hi - (i + 2) + 1) / 2).toNat + 1 := by omega
      rw [this, List.replicate_succ]
      simp
    · have hc2 : cond i = false := by
        cases h : cond i
        · rfl
        · exact absurd ((hcond i).mp h) hc
      have : ((hi - i + 1) / 2).toNat = 0 := by omega
      simp [hc2, this]

theorem pushLoop_down (t : Token) (n : Nat) (i : Int) (toks : List Token)
    (hn : ((i + 1) / 2).toNat ≤ n) :
    pushLoop (fun i => i > 0) (fun i => i - 2) t n i toks =
      toks ++ List.replicate ((i + 1) / 2).toNat t := by
  induction n generalizing i toks with
  | zero =>
    have : ((i + 1) / 2).toNat = 0 := by omega
    simp [pushLoop, this]
  | succ n ih =>
    unfold pushLoop
    by_cases hc : i > 0
    · simp only [hc, decide_True, if_true]
      rw [ih (i - 2) _ (by omega)]
      have : ((i + 1) / 2).toNat = ((i - 2 + 1) / 2).toNat + 1 := by omega
      rw [this, List.replicate_succ]
      simp
    · have : ((i + 1) / 2).toNat = 0 := by omega
      simp [hc, this]

/-! ## What a pass does to the tokens -/

theorem List.takeWhile_space_replicate (k : Nat) (r : List Char) (h : r.head? ≠ some ' ') :
    (List.replicate k ' ' ++ r).takeWhile (fun c => c == ' ') = List.replicate k ' ' ∧
    (List.replicate k ' ' ++ r).dropWhile (fun c => c == ' ') = r := by
  induction k with
  | zero =>
    cases r with
    | nil => simp
    | cons d ds =>
      have : d ≠ ' ' := by intro e; apply h; simp [e]
      simp [List.takeWhile_cons, List.dropWhile_cons, this]
  | succ k ih =>
    simp only [List.replicate_succ, List.cons_append, List.takeWhile_cons, List.dropWhile_cons,
      beq_self_eq_true, if_true]
    exact ⟨by rw [ih.1], ih.2⟩

theorem Lexer.atEof_tokens (lx : Lexer) :
    (Lexer.atEof lx).tokens_ =
      if lx.tokens_ ++ List.replicate (dedentsAtEof lx.indent_) Token.Dedent ≠ [] ∧
          (lx.tokens_ ++ List.replicate (dedentsAtEof lx.indent_) Token.Dedent).getLast? ≠
            some Token.Newline ∧
          (lx.tokens_ ++ List.replicate (dedentsAtEof lx.indent_) Token.Dedent).getLast? ≠
            some Token.Dedent ∧
          (lx.tokens_ ++ List.replicate (dedentsAtEof lx.indent_) Token.Dedent).getLast? ≠
            some Token.Indent then
        lx.tokens_ ++ List.replicate (dedentsAtEof lx.indent_) Token.Dedent ++ [Token.Newline]
      else lx.tokens_ ++ List.replicate (dedentsAtEof lx.indent_) Token.Dedent := by
  have h1 : (if lx.indent_ > 0 then
        pushLoop (fun i => i > 0) (fun i => i - 2) Token.Dedent lx.indent_.toNat lx.indent_
          lx.tokens_
      else lx.tokens_) = lx.tokens_ ++ List.replicate (dedentsAtEof lx.indent_) Token.Dedent := by
    unfold dedentsAtEof
    split_ifs with h
    · exact pushLoop_down _ _ _ _ (by omega)
    · have : ((lx.indent_ + 1) / 2).toNat = 0 := by omega
      simp [this]
  unfold Lexer.atEof
  simp only [h1]
  split_ifs <;> simp_all

theorem Lexer.indentStep_tokens (lx : Lexer) (k : Int) (t : Token) (l1 : Lexer)
    (h : Lexer.indentStep lx k = .ret t l1) :
    l1.indent_ = k ∧
    ((t = Token.Indent ∧ lx.indent_ < k ∧
      l1.tokens_ = lx.tokens_ ++ List.replicate ((k - lx.indent_ - 1) / 2).toNat Token.Indent) ∨
     (t = Token.Dedent ∧ k < lx.indent_ ∧
      l1.tokens_ = lx.tokens_ ++ List.replicate ((lx.indent_ - k - 1) / 2).toNat Token.Dedent)) := by
  unfold Lexer.indentStep at h
  simp only at h
  split_ifs at h with h1 h2
  · simp only [Flow.ret.injEq] at h
    obtain ⟨rfl, rfl⟩ := h
    refine ⟨rfl, Or.inl ⟨rfl, by omega, ?_⟩⟩
    simp only
    rw [pushLoop_up _ _ (k - lx.indent_ - 2) (by intro j; simp) _ _ _ (by omega)]
    congr 2
    omega
  · simp only [Flow.ret.injEq] at h
    obtain ⟨rfl, rfl⟩ := h
    refine ⟨rfl, Or.inr ⟨rfl, by omega, ?_⟩⟩
    simp only
    rw [pushLoop_up _ _ (-2) (by intro j; simp; omega) _ _ _ (by omega)]
    congr 2
    omega

theorem Lexer.keyword_plain (w : String) :
    (Lexer.keywords_.lookup w).getD (Token.Id w) ≠ Token.Eof ∧
    (Lexer.keywords_.lookup w).getD (Token.Id w) ≠ Token.Indent ∧
    (Lexer.keywords_.lookup w).getD (Token.Id w) ≠ Token.Dedent := by
  simp only [Lexer.keywords_, List.lookup]
  repeat' split
  all_goals simp

theorem Lexer.findSymbol_plain (s : IStream) :
    (Lexer.findSymbol s).1 ≠ Token.Eof ∧ (Lexer.findSymbol s).1 ≠ Token.Indent ∧
    (Lexer.findSymbol s).1 ≠ Token.Dedent := by
  unfold Lexer.findSymbol
  simp only
  split_ifs <;> simp

theorem Lexer.findStep_tokens (lx : Lexer) :
    ∀ t l1, Lexer.findStep lx = .ok (.ret t l1) → Lexer.TokenStep lx t l1 := by
  refine Lexer.findStep_cases
    (fun lx r => ∀ t l1, r = .ok (.ret t l1) → Lexer.TokenStep lx t l1)
    ?_ ?_ ?_ ?_ ?_ ?_ ?_ ?_ ?_ ?_ ?_ ?_ ?_ lx
  · rintro lx r e f - - t l1 h
    simp only [Outcome.ok.injEq, Flow.ret.injEq] at h
    obtain ⟨rfl, rfl⟩ := h
    exact Or.inl ⟨rfl, rfl, rfl⟩
  · rintro lx - t l1 h
    simp only [Outcome.ok.injEq, Flow.ret.injEq] at h
    obtain ⟨rfl, rfl⟩ := h
    exact Or.inl ⟨rfl, rfl, rfl⟩
  · rintro lx k cs - - t l1 h; simp at h
  · rintro lx k r1 hs - hnl h1 h2 - t l1 h
    simp only [Outcome.ok.injEq] at h
    obtain ⟨e1, e2⟩ := Lexer.indentStep_tokens _ _ _ _ h
    obtain ⟨q1, q2⟩ := List.takeWhile_space_replicate k r1 h1
    have hk : (leadingSpaces lx.input_.rest : Int) = k := by
      simp [leadingSpaces, hs, q1]
    have hd : (lx.input_.rest.dropWhile (fun c => c == ' ')).head? ≠ some '\n' := by
      rw [hs]; simp only; rw [q2]; exact h2
    rcases e2 with ⟨rfl, e3, e4⟩ | ⟨rfl, e3, e4⟩
    · right; left
      simp only at e3 e4
      exact ⟨rfl, hnl, by omega, by omega, hd, by rw [e4, e1]⟩
    · right; right; left
      simp only at e3 e4
      exact ⟨rfl, hnl, by omega, by omega, hd, by rw [e4, e1]⟩
  · rintro lx k - - - - t l1 h
    simp only [Outcome.ok.injEq, Flow.ret.injEq] at h
    obtain ⟨rfl, rfl⟩ := h
    exact Or.inr (Or.inr (Or.inr ⟨by simp, by simp, by simp, rfl, rfl⟩))
  · rintro lx cs - - t l1 h; simp at h
  · rintro lx k c cs - - - t l1 h; simp at h
  · rintro lx k c cs str s1 - - - - t l1 h
    simp only [Outcome.ok.injEq, Flow.ret.injEq] at h
    obtain ⟨rfl, rfl⟩ := h
    exact Or.inr (Or.inr (Or.inr ⟨by simp, by simp, by simp, rfl, rfl⟩))
  · rintro lx k c cs - - - t l1 h
    cases hv : stoi (c :: cs.takeWhile Lexer.IsNumber) with
    | exhausted => rw [hv] at h; simp at h
    | out_of_range => rw [hv] at h; simp at h
    | ok v =>
      rw [hv] at h
      simp only [Outcome.bind_ok, Outcome.ok.injEq, Flow.ret.injEq] at h
      obtain ⟨rfl, rfl⟩ := h
      exact Or.inr (Or.inr (Or.inr ⟨by simp, by simp, by simp, rfl, rfl⟩))
  · rintro lx cs - - - t l1 h; simp at h
  · rintro lx cs - - - - t l1 h
    simp only [Outcome.ok.injEq, Flow.ret.injEq] at h
    obtain ⟨rfl, rfl⟩ := h
    exact Or.inr (Or.inr (Or.inr ⟨by simp, by simp, by simp, rfl, rfl⟩))
  · rintro lx k c cs - - - - t l1 h
    simp only [Outcome.ok.injEq, Flow.ret.injEq] at h
    obtain ⟨rfl, rfl⟩ := h
    obtain ⟨p1, p2, p3⟩ := Lexer.keyword_plain (String.mk (c :: cs.takeWhile Lexer.IsId))
    exact Or.inr (Or.inr (Or.inr ⟨p1, p2, p3, rfl, rfl⟩))
  · rintro lx k c cs - - - - - - - - t l1 h
    simp only [Outcome.ok.injEq, Flow.ret.injEq] at h
    obtain ⟨rfl, rfl⟩ := h
    obtain ⟨p1, p2, p3⟩ := Lexer.findSymbol_plain ⟨c :: cs, false, false⟩
    exact Or.inr (Or.inr (Or.inr ⟨p1, p2, p3, rfl, rfl⟩))

/-! ## Balance of `Indent` and `Dedent` on evenly indented input -/

theorem lineInv_step (lx : Lexer) (flow : Flow) (h : Lexer.findStep lx = .ok flow)
    (hl : LineInv lx) : LineInv flow.lexer := by
  obtain ⟨⟨p, hp⟩, h2⟩ := Lexer.findStep_stream lx flow h
  refine ⟨?_, ?_⟩
  · intro hnl
    rcases h2 hnl with ⟨e1, e2⟩ | e1
    · rw [e1]; exact hl.1 e2
    · exact hl.2 [] _ (by simpa using e1)
  · intro pre suf e
    apply hl.2 (p ++ pre) suf
    rw [← hp, e]
    simp

theorem Lexer.FindNextToken_tokenStep (n : Nat) (lx l1 : Lexer) (t : Token)
    (h : Lexer.FindNextToken n lx = .ok (t, l1)) :
    ∃ l0, l0.tokens_ = lx.tokens_ ∧ l0.indent_ = lx.indent_ ∧ (LineInv lx → LineInv l0) ∧
      Lexer.findStep l0 = .ok (.ret t l1) := by
  refine Lexer.FindNextToken_rule
    (fun l => l.tokens_ = lx.tokens_ ∧ l.indent_ = lx.indent_ ∧ (LineInv lx → LineInv l))
    (fun t l1 => ∃ l0, l0.tokens_ = lx.tokens_ ∧ l0.indent_ = lx.indent_ ∧
      (LineInv lx → LineInv l0) ∧ Lexer.findStep l0 = .ok (.ret t l1))
    ?_ ?_ n lx t l1 ⟨rfl, rfl, id⟩ h
  · rintro l l1 ⟨h1, h2, h3⟩ hs
    obtain ⟨e1, e2⟩ := Lexer.findStep_again_tokens l l1 hs
    exact ⟨e1.trans h1, e2.trans h2, fun hl => lineInv_step l _ hs (h3 hl)⟩
  · rintro l t l1 ⟨h1, h2, h3⟩ hs
    exact ⟨l, h1, h2, h3, hs⟩

theorem Lexer.tokenStep_grow (l0 l1 : Lexer) (t : Token) (h : Lexer.TokenStep l0 t l1) :
    ∃ ext, l1.tokens_ = l0.tokens_ ++ ext := by
  rcases h with ⟨-, -, e⟩ | ⟨-, -, -, -, -, e⟩ | ⟨-, -, -, -, -, e⟩ | ⟨-, -, -, -, e⟩
  · rw [e, Lexer.atEof_tokens]
    split_ifs
    · exact ⟨_, List.append_assoc _ _ _⟩
    · exact ⟨_, rfl⟩
  · exact ⟨_, e⟩
  · exact ⟨_, e⟩
  · exact ⟨[], by simp [e]⟩

theorem Lexer.tokenStep_balance (l0 l1 : Lexer) (t : Token) (h : Lexer.TokenStep l0 t l1)
    (hno : Token.Eof ∉ l0.tokens_) (hb : l0.Balanced) (hl : LineInv l0) :
    Token.Eof ∉ l1.tokens_ ∧
    ((t = Token.Eof ∧ l1.tokens_.count Token.Indent = l1.tokens_.count Token.Dedent) ∨
     (t ≠ Token.Eof ∧ Lexer.Balanced { l1 with tokens_ := l1.tokens_ ++ [t] })) := by
  obtain ⟨hb1, hb2⟩ := hb
  rcases h with ⟨rfl, e1, e⟩ | ⟨rfl, hnl, hlt, hk, hd, e⟩ | ⟨rfl, hnl, hlt, hk, hd, e⟩ |
    ⟨n1, n2, n3, e1, e⟩
  · have hm : ((dedentsAtEof l0.indent_ : Nat) : Int) * 2 = l0.indent_ := by
      unfold dedentsAtEof; omega
    rw [e, Lexer.atEof_tokens]
    split_ifs
    · refine ⟨by simp [hno], Or.inl ⟨rfl, ?_⟩⟩
      simp [List.count_append, List.count_replicate]
      omega
    · refine ⟨by simp [hno], Or.inl ⟨rfl, ?_⟩⟩
      simp [List.count_append, List.count_replicate]
      omega
  · have hev : leadingSpaces l0.input_.rest % 2 = 0 := hl.1 hnl hd
    refine ⟨by simp [e, hno], Or.inr ⟨by simp, ?_, by simp only; omega⟩⟩
    simp only [e, List.count_append, List.count_replicate]
    simp
    omega
  · have hev : leadingSpaces l0.input_.rest % 2 = 0 := hl.1 hnl hd
    refine ⟨by simp [e, hno], Or.inr ⟨by simp, ?_, by simp only; omega⟩⟩
    simp only [e, List.count_append, List.count_replicate]
    simp
    omega
  · refine ⟨by simp [e, hno], Or.inr ⟨n1, ?_, by simp only; omega⟩⟩
    simp only [e, e1, List.count_append]
    have c1 : List.count Token.Indent [t] = 0 := by
      simp [List.count_singleton]; exact fun h => n2 h
    have c2 : List.count Token.Dedent [t] = 0 := by
      simp [List.count_singleton]; exact fun h => n3 h
    rw [c1, c2]
    simpa using hb1

theorem Lexer.balanceInv_step (b : Nat) (lx l1 : Lexer) (t : Token) (hinv : lx.BalanceInv)
    (h : Lexer.FindNextToken b lx = .ok (t, l1)) :
    Lexer.BalanceInv { l1 with tokens_ := l1.tokens_ ++ [t] } := by
  obtain ⟨l0, e1, e2, hl0, hs⟩ := Lexer.FindNextToken_tokenStep b lx l1 t h
  have hts := Lexer.findStep_tokens l0 t l1 hs
  rcases hinv with ⟨pre, post, hp, hpre, hc⟩ | ⟨hno, hb, hl⟩
  · obtain ⟨ext, hext⟩ := Lexer.tokenStep_grow l0 l1 t hts
    left
    refine ⟨pre, post ++ ext ++ [t], ?_, hpre, hc⟩
    simp only [hext, e1, hp]
    simp
  · have hb0 : l0.Balanced := by
      unfold Lexer.Balanced at hb ⊢
      rw [e1, e2]; exact hb
    obtain ⟨q1, q2⟩ := Lexer.tokenStep_balance l0 l1 t hts (by rw [e1]; exact hno) hb0 (hl0 hl)
    rcases q2 with ⟨rfl, hc⟩ | ⟨hne, hbal⟩
    · left
      exact ⟨l1.tokens_, [], rfl, q1, hc⟩
    · right
      refine ⟨?_, hbal, lineInv_step l0 _ hs (hl0 hl)⟩
      simp only [List.mem_append, List.mem_singleton, not_or]
      exact ⟨q1, fun e => hne e.symm⟩

theorem evenIndented_lineInv (input : List Char) (h : EvenIndented input) :
    LineInv (Lexer.init input) := by
  refine ⟨fun _ => h.1, ?_⟩
  intro pre suf e
  simp only [Lexer.init] at e
  have h1 := h.2 pre.length (by rw [e]; simp)
    (by rw [e, List.getElem?_append_right (le_refl _)]; simp)
  rw [e] at h1
  simpa using h1

theorem List.first_split_unique (a : Token) (p1 q1 p2 q2 : List Token)
    (h : p1 ++ a :: q1 = p2 ++ a :: q2) (h1 : a ∉ p1) (h2 : a ∉ p2) : p1 = p2 := by
  induction p1 generalizing p2 with
  | nil =>
    cases p2 with
    | nil => rfl
    | cons x xs =>
      simp only [List.nil_append, List.cons_append, List.cons.injEq] at h
      exact absurd (h.1 ▸ List.mem_cons_self _ _) h2
  | cons y ys ih =>
    cases p2 with
    | nil =>
      simp only [List.nil_append, List.cons_append, List.cons.injEq] at h
      exact absurd (h.1 ▸ List.mem_cons_self _ _) h1
    | cons x xs =>
      simp only [List.cons_append, List.cons.injEq] at h
      rw [h.1, ih xs h.2 (fun m => h1 (List.mem_cons_of_mem _ m))
        (fun m => h2 (List.mem_cons_of_mem _ m))]

theorem Lexer.tokens_balanced (input : List Char) (ts : List Token)
    (he : EvenIndented input) (h : Lexer.tokens input = .ok ts)
    (pre post : List Token) (hs : ts = pre ++ Token.Eof :: post) (hpre : Token.Eof ∉ pre) :
    pre.count Token.Indent = pre.count Token.Dedent := by
  unfold Lexer.tokens at h
  cases hn : Lexer.new input with
  | exhausted => rw [hn] at h; simp at h
  | out_of_range => rw [hn] at h; simp at h
  | ok lx =>
    rw [hn] at h
    simp only [Outcome.bind_ok, Outcome.ok.injEq] at h
    subst h
    have hinv := (Lexer.run_rule Lexer.BalanceInv _
      (fun l t l1 hl _ hr => Lexer.balanceInv_step _ l l1 t hl hr) _ _ lx
      (Or.inr ⟨by simp [Lexer.init], by simp [Lexer.Balanced, Lexer.init],
        evenIndented_lineInv input he⟩) hn).1
    rcases hinv with ⟨p, q, hp, hp1, hc⟩ | ⟨hno, -, -⟩
    · rw [hs] at hp
      rw [List.first_split_unique _ _ _ _ _ hp hpre hp1]
      exact hc
    · rw [hs] at hno
      simp at hno

/-! ## What the constructor leaves behind -/

theorem Lexer.FindNextToken_suffix (n : Nat) (lx l1 : Lexer) (t : Token)
    (h : Lexer.FindNextToken n lx = .ok (t, l1)) : l1.input_.rest <:+ lx.input_.rest := by
  refine Lexer.FindNextToken_rule (fun l => l.input_.rest <:+ lx.input_.rest)
    (fun _ l => l.input_.rest <:+ lx.input_.rest) ?_ ?_ n lx t l1 (List.suffix_refl _) h
  · intro l l2 hl hs
    exact ((Lexer.findStep_stream l _ hs).1).trans hl
  · intro l t l2 hl hs
    exact ((Lexer.findStep_stream l _ hs).1).trans hl

theorem Lexer.new_tokens_ne_nil (input : List Char) (lx : Lexer)
    (h : Lexer.new input = .ok lx) : lx.tokens_ ≠ [] := by
  have := Lexer.run_rule (fun l => l.input_.failbit = true → l.tokens_ ≠ []) _
    (fun l t l1 _ _ _ _ => by simp) _ _ lx (by simp [Lexer.init]) h
  exact this.1 this.2

/-! ## Method lookup -/
@[simp] theorem Class.methods_mk (n : String) (ms : List Method) (p : Option Class) :
    (Class.mk n ms p).methods_ = ms := rfl

theorem Class.GetMethod_eq_nearest : ∀ (c : Class) (name : String),
    c.GetMethod name = nearestMethod c.chain name
  | .mk _ ms none, name => by
    simp only [Class.GetMethod, Class.chain, nearestMethod, List.findSome?, Class.methods_mk]
    cases findMethod ms name <;> rfl
  | .mk _ ms (some p), name => by
    have ih := Class.GetMethod_eq_nearest p name
    simp only [Class.GetMethod, Class.chain, nearestMethod, List.findSome?, Class.methods_mk]
    cases findMethod ms name with
    | none => simpa [nearestMethod] using ih
    | some m => rfl

theorem findMethod_eq_none (ms : List Method) (name : String) :
    findMethod ms name = none ↔ ∀ m ∈ ms, m.name ≠ name := by
  simp [findMethod, List.find?_eq_none]

theorem nearestMethod_eq_none (chain : List Class) (name : String) :
    nearestMethod chain name = none ↔ ∀ k ∈ chain, ∀ m ∈ k.methods_, m.name ≠ name := by
  simp only [nearestMethod, List.findSome?_eq_none_iff, findMethod_eq_none]

theorem nearestMethod_split (pre post : List Class) (k : Class) (name : String) (m : Method)
    (hpre : ∀ k1 ∈ pre, ∀ m1 ∈ k1.methods_, m1.name ≠ name)
    (hk : findMethod k.methods_ name = some m) :
    nearestMethod (pre ++ k :: post) name = some m := by
  induction pre with
  | nil => simp [nearestMethod, List.findSome?, hk]
  | cons a as ih =>
    have ha : findMethod a.methods_ name = none :=
      (findMethod_eq_none _ _).mpr (hpre a (List.mem_cons_self _ _))
    have := ih (fun k1 h1 => hpre k1 (List.mem_cons_of_mem _ h1))
    simpa [nearestMethod, List.findSome?, ha] using this

/-! ## Non-local return -/

theorem executeAll_append
    (exec : Statement → Closure → Context → Exec ObjectHolder (Closure × Context))
    (xs ys : List Statement) (closure : Closure) (context : Context) :
    executeAll exec (xs ++ ys) closure context =
      (executeAll exec xs closure context).andThen id fun _ s => executeAll exec ys s.1 s.2 := by
  induction xs generalizing closure context with
  | nil => simp [executeAll, Exec.andThen]
  | cons x xs ih =>
    simp only [List.cons_append, executeAll]
    cases exec x closure context with
    | ok v s => simp only [Exec.andThen]; exact ih s.1 s.2
    | returning v s => rfl
    | runtime_error w => rfl
    | undefined => rfl
    | timeout => rfl

/-- A `return` raised at a place inside `Compound` and `IfElse` nodes leaves the whole
statement as the same `return`, with the state it was raised in. -/
theorem Place.returning_propagates (place : Place) (n : Nat) (s : Statement)
    (closure : Closure) (context : Context) (closure1 : Closure) (context1 : Context)
    (value : ObjectHolder) (state : Closure × Context)
    (hreach : place.reaches n closure context closure1 context1)
    (hs : Execute n s closure1 context1 = .returning value state) :
    Execute (n + place.depth) (place.fill s) closure context = .returning value state := by
  induction place generalizing closure context with
  | here =>
    obtain ⟨rfl, rfl⟩ := hreach
    simpa [Place.fill, Place.depth] using hs
  | inCompound before inner after ih =>
    obtain ⟨v, c, x, h1, h2⟩ := hreach
    have hin := ih c x h2
    show Execute (n + inner.depth + 1) (.Compound (before ++ inner.fill s :: after))
      closure context = _
    simp only [Execute]
    rw [executeAll_append, h1]
    simp only [Exec.andThen, executeAll, hin, id]
  | inThen condition_ inner else_body_ ih =>
    obtain ⟨v, c, x, h1, h2, h3⟩ := hreach
    have hin := ih c x h3
    show Execute (n + inner.depth + 1) (.IfElse condition_ (inner.fill s) else_body_)
      closure context = _
    simp only [Execute, h1, Exec.andThen, h2, if_true, hin]
  | inElse condition_ if_body_ inner ih =>
    obtain ⟨v, c, x, h1, h2, h3⟩ := hreach
    have hin := ih c x h3
    show Execute (n + inner.depth + 1) (.IfElse condition_ if_body_ (some (inner.fill s)))
      closure context = _
    simp only [Execute, h1, Exec.andThen, h2, Bool.false_eq_true, if_false, hin]

/-! ## Closures of calls -/

theorem Closure.lookup_set_self (closure : Closure) (name : String) (value : ObjectHolder) :
    (closure.set name value).lookup name = some value := by
  induction closure with
  | nil => simp [Closure.set, List.lookup]
  | cons e rest ih =>
    obtain ⟨k, v⟩ := e
    by_cases h : k = name
    · subst h; simp [Closure.set, List.lookup]
    · have h2 : (name == k) = false := by simpa using fun e => h e.symm
      simp [Closure.set, h, List.lookup, h2, ih]

theorem Closure.lookup_set_other (closure : Closure) (name other : String) (value : ObjectHolder)
    (h : other ≠ name) : (closure.set name value).lookup other = closure.lookup other := by
  induction closure with
  | nil =>
    have h2 : (other == name) = false := by simpa using h
    simp [Closure.set, List.lookup, h2]
  | cons e rest ih =>
    obtain ⟨k, v⟩ := e
    by_cases hk : k = name
    · subst hk
      have h2 : (other == k) = false := by simpa using h
      simp [Closure.set, List.lookup, h2]
    · by_cases ho : other = k
      · subst ho; simp [Closure.set, hk, List.lookup]
      · have h2 : (other == k) = false := by simpa using ho
        simp [Closure.set, hk, List.lookup, h2, ih]

theorem bindParams_lookup (params : List String) :
    ∀ (closure : Closure) (args : List ObjectHolder), params.Nodup → params.length = args.length →
      (∀ name, name ∉ params → (bindParams closure params args).lookup name = closure.lookup name) ∧
      (∀ i : Nat, ∀ h : i < params.length,
        (bindParams closure params args).lookup params[i] = args[i]?) := by
  induction params with
  | nil => intro closure args _ _; cases args <;> simp [bindParams]
  | cons p ps ih =>
    intro closure args hnd hlen
    cases args with
    | nil => simp at hlen
    | cons a as =>
      simp only [List.length_cons, add_left_inj] at hlen
      obtain ⟨hp, hps⟩ := List.nodup_cons.mp hnd
      obtain ⟨i1, i2⟩ := ih (closure.set p a) as hps hlen
      simp only [bindParams]
      refine ⟨?_, ?_⟩
      · intro name hname
        simp only [List.mem_cons, not_or] at hname
        rw [i1 name hname.2, Closure.lookup_set_other _ _ _ _ hname.1]
      · intro i hi
        cases i with
        | zero =>
          simp only [List.getElem_cons_zero, List.getElem?_cons_zero]
          rw [i1 p hp, Closure.lookup_set_self]
        | succ i =>
          simp only [List.getElem_cons_succ, List.getElem?_cons_succ]
          exact i2 i (by simpa using hi)

theorem ClassInstance.HasMethod_iff (self : ClassInstance) (method : String) (argc : Nat) :
    self.HasMethod method argc = true ↔
      ∃ m, self.class_.GetMethod method = some m ∧ m.formal_params.length = argc := by
  unfold ClassInstance.HasMethod
  cases self.class_.GetMethod method with
  | none => simp
  | some m => by_cases h : m.formal_params.length = argc <;> simp [h]

/-! ## Calls -/

theorem ClassInstance.Call_of_not_has
    (exec : Statement → Closure → Context → Exec ObjectHolder (Closure × Context))
    (self : ClassInstance) (method : String) (actual_args : List ObjectHolder)
    (context : Context) (h : self.HasMethod method actual_args.length = false) :
    self.Call exec method actual_args context =
      .runtime_error
        (self.class_.GetName ++ " does not have method " ++ method ++ "or method is incorrect") := by
  simp [ClassInstance.Call, h]

theorem ClassInstance.Call_of_method
    (exec : Statement → Closure → Context → Exec ObjectHolder (Closure × Context))
    (self : ClassInstance) (method : String) (actual_args : List ObjectHolder)
    (context : Context) (m : Method) (hm : self.class_.GetMethod method = some m)
    (hlen : m.formal_params.length = actual_args.length) :
    self.Call exec method actual_args context =
      (exec m.body
        (bindParams [("self", ObjectHolder.ClassInstance self)] m.formal_params actual_args)
        context).andThen (fun s => s.2) fun value s => .ok value s.2 := by
  have h : self.HasMethod method actual_args.length = true :=
    (ClassInstance.HasMethod_iff self method actual_args.length).mpr ⟨m, hm, hlen⟩
  simp [ClassInstance.Call, h, hm]

/-! ## Printing -/

theorem String.intercalate_go_append (a b s : String) (ts : List String) :
    String.intercalate.go (a ++ b) s ts = a ++ String.intercalate.go b s ts := by
  induction ts generalizing b with
  | nil => simp [String.intercalate.go]
  | cons t ts ih =>
    simp only [String.intercalate.go]
    rw [← ih]
    simp [String.append_assoc]

/-- One round of the loop of `Print::Execute`. -/
theorem printArgs_cons
    (exec : Statement → Closure → Context → Exec ObjectHolder (Closure × Context))
    (budget : Nat) (arg : Statement) (rest : List Statement) (first : Bool)
    (closure closure0 : Closure) (context context0 context2 : Context) (holder : ObjectHolder)
    (text : String)
    (he : exec arg closure
        (if first then context else { context with output := context.output ++ " " }) =
      .ok holder (closure0, context0))
    (hr : rendering exec budget holder context0 = .ok text context2) :
    printArgs exec budget (arg :: rest) first closure context =
      printArgs exec budget rest false closure0
        { context2 with output := context2.output ++ text } := by
  cases holder with
  | None =>
    simp only [rendering, Exec.ok.injEq] at hr
    obtain ⟨rfl, rfl⟩ := hr
    simp only [printArgs, he, Exec.andThen, id]
  | Number v =>
    simp only [rendering] at hr
    simp only [printArgs, he, Exec.andThen, id, hr]
  | String v =>
    simp only [rendering] at hr
    simp only [printArgs, he, Exec.andThen, id, hr]
  | Bool v =>
    simp only [rendering] at hr
    simp only [printArgs, he, Exec.andThen, id, hr]
  | Class v =>
    simp only [rendering] at hr
    simp only [printArgs, he, Exec.andThen, id, hr]
  | ClassInstance v =>
    simp only [rendering] at hr
    simp only [printArgs, he, Exec.andThen, id, hr]

/-- The rounds of the loop of `Print::Execute` after the first one. -/
theorem printArgs_rendered
    (exec : Statement → Closure → Context → Exec ObjectHolder (Closure × Context))
    (budget : Nat) (args : List Statement) :
    ∀ (closure : Closure) (out : String) (fields : List (Nat × Closure))
      (pieces : List (String × String)) (closure1 : Closure) (fields1 : List (Nat × Closure)),
      Renderings exec budget args closure fields pieces closure1 fields1 →
      printArgs exec budget args false closure ⟨out, fields⟩ =
        .ok .None (closure1,
          ⟨String.intercalate.go out " " (pieces.map fun p => p.1 ++ p.2) ++ "\n", fields1⟩) := by
  induction args with
  | nil =>
    intro closure out fields pieces closure1 fields1 h
    obtain ⟨rfl, rfl, rfl⟩ := h
    simp [printArgs, String.intercalate.go]
  | cons arg rest ih =>
    intro closure out fields pieces closure1 fields1 h
    obtain ⟨holder, closure0, fields0, written0, text, written1, fields2, pieces1, he, hr, rfl,
      hrest⟩ := h
    rw [printArgs_cons exec budget arg rest false closure closure0 ⟨out, fields⟩
      ⟨out ++ " " ++ written0, fields0⟩ ⟨out ++ " " ++ written0 ++ written1, fields2⟩ holder text
      (he (out ++ " ")) (hr (out ++ " " ++ written0))]
    rw [ih closure0 (out ++ " " ++ written0 ++ written1 ++ text) fields2 pieces1 closure1 fields1
      hrest]
    simp [String.intercalate.go, String.append_assoc]

/-- The loop of `Print::Execute`. -/
theorem printArgs_renderings
    (exec : Statement → Closure → Context → Exec ObjectHolder (Closure × Context))
    (budget : Nat) (args : List Statement) (closure : Closure) (context : Context)
    (pieces : List (String × String)) (closure1 : Closure) (fields1 : List (Nat × Closure))
    (h : Renderings exec budget args closure context.fields pieces closure1 fields1) :
    printArgs exec budget args true closure context =
      .ok .None (closure1,
        ⟨context.output ++ " ".intercalate (pieces.map fun p => p.1 ++ p.2) ++ "\n",
          fields1⟩) := by
  cases args with
  | nil =>
    obtain ⟨rfl, rfl, rfl⟩ := h
    simp [printArgs, String.intercalate]
  | cons arg rest =>
    obtain ⟨holder, closure0, fields0, written0, text, written1, fields2, pieces1, he, hr, rfl,
      hrest⟩ := h
    rw [printArgs_cons exec budget arg rest true closure closure0 context
      ⟨context.output ++ written0, fields0⟩ ⟨context.output ++ written0 ++ written1, fields2⟩
      holder text (he context.output) (hr (context.output ++ written0))]
    rw [printArgs_rendered exec budget rest closure0
      (context.output ++ written0 ++ written1 ++ text) fields2 pieces1 closure1 fields1 hrest]
    simp only [List.map_cons, String.intercalate, ← String.intercalate_go_append,
      String.append_assoc]

/-- Arguments that write nothing themselves leave just the renderings. -/
theorem List.map_pieces_silent (pieces : List (String × String))
    (h : ∀ p ∈ pieces, p.1 = "") :
    (pieces.map fun p => p.1 ++ p.2) = pieces.map Prod.snd := by
  induction pieces with
  | nil => rfl
  | cons p ps ih =>
    have h1 : p.1 = "" := h p (List.mem_cons_self _ _)
    simp only [List.map_cons, h1, String.empty_append]
    rw [ih (fun q hq => h q (List.mem_cons_of_mem _ hq))]

/-- No node is executed without budget. -/
theorem Execute_ok_pos (n : Nat) (s : Statement) (closure : Closure) (context : Context)
    (value : ObjectHolder) (state : Closure × Context)
    (h : Execute n s closure context = .ok value state) : 0 < n := by
  cases n with
  | zero => simp [Execute] at h
  | succ n => exact Nat.succ_pos n

/-! ## The indentation block at the start of a line -/

theorem Lexer.findStep_line_start (lx : Lexer) (c : Nat) (ch : Char) (r : List Char)
    (hnl : lx.is_new_line_ = true)
    (hin : lx.input_ = ⟨List.replicate c ' ' ++ ch :: r, false, false⟩)
    (h1 : ch ≠ ' ') (h2 : ch ≠ '\n') :
    Lexer.findStep lx =
      (Outcome.ok (Lexer.indentStep
        { lx with input_ := ⟨ch :: r, false, false⟩, is_new_line_ := false } c)).bind fun
        | .next lx1 => Lexer.findMain lx1
        | flow => .ok flow := by
  obtain ⟨c0, cs, e⟩ : ∃ c0 cs, List.replicate c ' ' ++ ch :: r = c0 :: cs := by
    cases c with
    | zero => exact ⟨ch, r, by simp⟩
    | succ k => exact ⟨' ', List.replicate k ' ' ++ ch :: r, by simp [List.replicate_succ]⟩
  have hh : (ch :: r).head? ≠ some ' ' := by simpa using h1
  obtain ⟨q1, q2⟩ := List.takeWhile_space_replicate c (ch :: r) hh
  rw [Lexer.findStep_good lx c0 cs (by rw [hin, e]), Lexer.findIndent_good lx _ hin hnl]
  rw [q1, q2]
  simp [h2]

/-- The block "find indent and dedent" at a change of indentation, with the token it
returns added to the tokens it pushes. -/
theorem Lexer.indentStep_count (lx : Lexer) (k : Int) :
    (lx.indent_ < k → ∃ l1, Lexer.indentStep lx k = .ret Token.Indent l1 ∧ l1.indent_ = k ∧
      l1.input_ = lx.input_ ∧ l1.is_new_line_ = lx.is_new_line_ ∧
      l1.tokens_ ++ [Token.Indent] =
        lx.tokens_ ++ List.replicate ((k - lx.indent_ + 1) / 2).toNat Token.Indent) ∧
    (k < lx.indent_ → ∃ l1, Lexer.indentStep lx k = .ret Token.Dedent l1 ∧ l1.indent_ = k ∧
      l1.input_ = lx.input_ ∧ l1.is_new_line_ = lx.is_new_line_ ∧
      l1.tokens_ ++ [Token.Dedent] =
        lx.tokens_ ++ List.replicate ((lx.indent_ - k + 1) / 2).toNat Token.Dedent) ∧
    (lx.indent_ = k → Lexer.indentStep lx k = .next lx) := by
  refine ⟨?_, ?_, ?_⟩
  · intro h
    obtain ⟨t, toks, e, -⟩ := Lexer.indentStep_ret lx k (by omega)
    obtain ⟨e1, e2⟩ := Lexer.indentStep_tokens lx k t _ e
    rcases e2 with ⟨rfl, -, e4⟩ | ⟨-, e3, -⟩
    · refine ⟨_, e, rfl, rfl, rfl, ?_⟩
      rw [e4, List.append_assoc]
      congr 1
      have hn : ((k - lx.indent_ + 1) / 2).toNat = ((k - lx.indent_ - 1) / 2).toNat + 1 := by
        omega
      rw [hn, List.replicate_succ']
    · omega
  · intro h
    obtain ⟨t, toks, e, -⟩ := Lexer.indentStep_ret lx k (by omega)
    obtain ⟨e1, e2⟩ := Lexer.indentStep_tokens lx k t _ e
    rcases e2 with ⟨-, e3, -⟩ | ⟨rfl, -, e4⟩
    · omega
    · refine ⟨_, e, rfl, rfl, rfl, ?_⟩
      rw [e4, List.append_assoc]
      congr 1
      have hn : ((lx.indent_ - k + 1) / 2).toNat = ((lx.indent_ - k - 1) / 2).toNat + 1 := by
        omega
      rw [hn, List.replicate_succ']
  · intro h
    subst h
    simp [Lexer.indentStep]

/-! ## Indentation tokens nest -/

theorem nested_append (a b : List Token) (h : Nested a)
    (hb : Token.Eof ∉ a → b.count Token.Dedent + a.count Token.Dedent ≤ a.count Token.Indent) :
    Nested (a ++ b) := by
  intro p hp hno
  obtain ⟨q, hq⟩ := hp
  rcases List.append_eq_append_iff.mp hq with ⟨a1, ha, -⟩ | ⟨r, rfl, hr⟩
  · exact h p ⟨a1, ha.symm⟩ hno
  · have hna : Token.Eof ∉ a := fun m => hno (List.mem_append_left _ m)
    have h2 := hb hna
    have h3 : r.count Token.Dedent ≤ b.count Token.Dedent :=
      (List.IsPrefix.sublist ⟨q, hr.symm⟩).count_le _
    simp only [List.count_append]
    omega

theorem nested_append_of_eof (a b : List Token) (h : Nested a) (he : Token.Eof ∈ a) :
    Nested (a ++ b) :=
  nested_append a b h (fun hno => absurd he hno)

theorem Lexer.nested_step (b : Nat) (lx l1 : Lexer) (t : Token) (hinv : lx.BalanceInv)
    (hn : Nested lx.tokens_) (h : Lexer.FindNextToken b lx = .ok (t, l1)) :
    Nested (l1.tokens_ ++ [t]) := by
  obtain ⟨l0, e1, e2, hl0, hs⟩ := Lexer.FindNextToken_tokenStep b lx l1 t h
  have hts := Lexer.findStep_tokens l0 t l1 hs
  rcases hinv with ⟨pre, post, hp, -, -⟩ | ⟨hno, ⟨hb1, hb2⟩, hl⟩
  · obtain ⟨ext, hext⟩ := Lexer.tokenStep_grow l0 l1 t hts
    rw [hext, e1, List.append_assoc]
    exact nested_append_of_eof _ _ hn (by rw [hp]; simp)
  · have hl1 := hl0 hl
    rcases hts with ⟨rfl, -, e⟩ | ⟨rfl, hnl, hlt, hk, hd, e⟩ | ⟨rfl, hnl, hlt, hk, hd, e⟩ |
      ⟨n1, n2, n3, -, e⟩
    · have hm : ((dedentsAtEof l0.indent_ : Nat) : Int) * 2 = l0.indent_ := by
        unfold dedentsAtEof; omega
      rw [e, Lexer.atEof_tokens, e1]
      split_ifs
      · rw [List.append_assoc, List.append_assoc]
        refine nested_append _ _ hn (fun _ => ?_)
        simp [List.count_append, List.count_replicate]
        omega
      · rw [List.append_assoc]
        refine nested_append _ _ hn (fun _ => ?_)
        simp [List.count_append, List.count_replicate]
        omega
    · rw [e, e1, List.append_assoc]
      refine nested_append _ _ hn (fun _ => ?_)
      simp [List.count_append, List.count_replicate]
      omega
    · have hev : leadingSpaces l0.input_.rest % 2 = 0 := hl1.1 hnl hd
      rw [e, e1, List.append_assoc]
      refine nested_append _ _ hn (fun _ => ?_)
      simp [List.count_append, List.count_replicate]
      omega
    · rw [e, e1]
      refine nested_append _ _ hn (fun _ => ?_)
      have c2 : List.count Token.Dedent [t] = 0 := by
        simp [List.count_singleton]; exact fun h => n3 h
      rw [c2]
      omega

theorem Lexer.Reachable.balanceInv (input : List Char) (he : EvenIndented input) (lx : Lexer)
    (h : Lexer.Reachable input lx) : lx.BalanceInv ∧ Nested lx.tokens_ := by
  induction h with
  | init =>
    refine ⟨Or.inr ⟨by simp [Lexer.init], by simp [Lexer.Balanced, Lexer.init],
      evenIndented_lineInv input he⟩, ?_⟩
    intro p hp _
    have : p = [] := by simpa [Lexer.init] using hp
    subst this
    simp
  | round lx l1 t _ _ hr ih =>
    exact ⟨Lexer.balanceInv_step _ lx l1 t ih.1 hr, Lexer.nested_step _ lx l1 t ih.1 ih.2 hr⟩

theorem Lexer.tokens_nested (input : List Char) (ts : List Token)
    (he : EvenIndented input) (h : Lexer.tokens input = .ok ts) : Nested ts := by
  unfold Lexer.tokens at h
  cases hn : Lexer.new input with
  | exhausted => rw [hn] at h; simp at h
  | out_of_range => rw [hn] at h; simp at h
  | ok lx =>
    rw [hn] at h
    simp only [Outcome.bind_ok, Outcome.ok.injEq] at h
    subst h
    exact (Lexer.run_rule (fun l => l.BalanceInv ∧ Nested l.tokens_) _
      (fun l t l1 hl _ hr =>
        ⟨Lexer.balanceInv_step _ l l1 t hl.1 hr, Lexer.nested_step _ l l1 t hl.1 hl.2 hr⟩)
      _ _ lx
      ⟨Or.inr ⟨by simp [Lexer.init], by simp [Lexer.Balanced, Lexer.init],
        evenIndented_lineInv input he⟩,
       (Lexer.Reachable.balanceInv input he _ Lexer.Reachable.init).2⟩ hn).1.2

/-! ## The shape of a pass -/

theorem structural_of_ne (t : Token) (h1 : t ≠ Token.Newline) (h2 : t ≠ Token.Indent)
    (h3 : t ≠ Token.Dedent) (h4 : t ≠ Token.Eof) : Structural t = false := by
  cases t <;> simp_all [Structural]

theorem structural_cases (t : Token) (h : Structural t = true) :
    t = Token.Newline ∨ t = Token.Indent ∨ t = Token.Dedent ∨ t = Token.Eof := by
  cases t <;> simp_all [Structural]

/-- What a pass that returns a token has done: `Eof` comes from a stream at its end and
with the tokens of the end-of-file branch; `Indent` and `Dedent` come at the start of a
line, behind pushed tokens of the same kind, and leave the stream failed or before a
character that is neither a space nor a newline; `Newline` comes in the middle of a line
at a newline character, behind tokens that do not end in `Newline`; every other token
leaves the tokens as they are. -/
theorem Lexer.findStep_ret_shape (lx : Lexer) :
    ∀ t l1, Lexer.findStep lx = .ok (.ret t l1) →
      (t = Token.Eof ∧ l1.tokens_ = (Lexer.atEof lx).tokens_ ∧
        l1.is_new_line_ = lx.is_new_line_ ∧
        (l1.input_.eofbit = true ∨ l1.input_.failbit = true) ∧
        (lx.input_.eofbit = true ∨ lx.input_.failbit = true ∨ lx.input_.rest = [])) ∨
      ((t = Token.Indent ∨ t = Token.Dedent) ∧ lx.is_new_line_ = true ∧
        (∃ m, l1.tokens_ = lx.tokens_ ++ List.replicate m t) ∧ l1.is_new_line_ = false ∧
        l1.input_.rest = lx.input_.rest.dropWhile (fun c => c == ' ') ∧
        (l1.input_.failbit = true ∨
          ∃ ch r, l1.input_ = ⟨ch :: r, false, false⟩ ∧ ch ≠ ' ' ∧ ch ≠ '\n')) ∨
      (t = Token.Newline ∧ l1.tokens_ = lx.tokens_ ∧ lx.tokens_ ≠ [] ∧
        lx.tokens_.getLast? ≠ some Token.Newline ∧ lx.is_new_line_ = false ∧
        (∃ cs, lx.input_ = ⟨'\n' :: cs, false, false⟩) ∧ l1.is_new_line_ = true) ∨
      (Structural t = false ∧ l1.tokens_ = lx.tokens_ ∧ l1.is_new_line_ = false) := by
  refine Lexer.findStep_cases
    (fun lx res => ∀ t l1, res = .ok (.ret t l1) →
      (t = Token.Eof ∧ l1.tokens_ = (Lexer.atEof lx).tokens_ ∧
        l1.is_new_line_ = lx.is_new_line_ ∧
        (l1.input_.eofbit = true ∨ l1.input_.failbit = true) ∧
        (lx.input_.eofbit = true ∨ lx.input_.failbit = true ∨ lx.input_.rest = [])) ∨
      ((t = Token.Indent ∨ t = Token.Dedent) ∧ lx.is_new_line_ = true ∧
        (∃ m, l1.tokens_ = lx.tokens_ ++ List.replicate m t) ∧ l1.is_new_line_ = false ∧
        l1.input_.rest = lx.input_.rest.dropWhile (fun c => c == ' ') ∧
        (l1.input_.failbit = true ∨
          ∃ ch r, l1.input_ = ⟨ch :: r, false, false⟩ ∧ ch ≠ ' ' ∧ ch ≠ '\n')) ∨
      (t = Token.Newline ∧ l1.tokens_ = lx.tokens_ ∧ lx.tokens_ ≠ [] ∧
        lx.tokens_.getLast? ≠ some Token.Newline ∧ lx.is_new_line_ = false ∧
        (∃ cs, lx.input_ = ⟨'\n' :: cs, false, false⟩) ∧ l1.is_new_line_ = true) ∨
      (Structural t = false ∧ l1.tokens_ = lx.tokens_ ∧ l1.is_new_line_ = false))
    ?_ ?_ ?_ ?_ ?_ ?_ ?_ ?_ ?_ ?_ ?_ ?_ ?_ lx
  · rintro lx r e f hs hef t l1 h
    simp only [Outcome.ok.injEq, Flow.ret.injEq] at h
    obtain ⟨rfl, rfl⟩ := h
    refine Or.inl ⟨rfl, rfl, rfl, Or.inr rfl, ?_⟩
    rw [hs]
    rcases hef with rfl | rfl
    · exact Or.inl rfl
    · exact Or.inr (Or.inl rfl)
  · rintro lx hs t l1 h
    simp only [Outcome.ok.injEq, Flow.ret.injEq] at h
    obtain ⟨rfl, rfl⟩ := h
    refine Or.inl ⟨rfl, rfl, rfl, Or.inl rfl, ?_⟩
    rw [hs]
    exact Or.inr (Or.inr rfl)
  · rintro lx k cs - - t l1 h; simp at h
  · rintro lx k r1 hs hpos hnl h1 h2 hd t l1 h
    simp only [Outcome.ok.injEq] at h
    obtain ⟨e1, e2⟩ := Lexer.indentStep_tokens _ _ _ _ h
    obtain ⟨q1, q2, -⟩ := Lexer.indentStep_lexer
      { lx with input_ := (IStream.upTo r1).peek.2, is_new_line_ := false } k
    rw [h] at q1 q2
    simp only [Flow.lexer] at q1 q2
    refine Or.inr (Or.inl ⟨?_, hnl, ?_, q2, ?_, ?_⟩)
    · rcases e2 with ⟨rfl, -⟩ | ⟨rfl, -⟩
      · exact Or.inl rfl
      · exact Or.inr rfl
    · rcases e2 with ⟨rfl, -, e4⟩ | ⟨rfl, -, e4⟩
      · exact ⟨_, e4⟩
      · exact ⟨_, e4⟩
    · rw [q1, hs]
      simp only [IStream.upTo_peek_rest]
      exact (List.takeWhile_space_replicate k r1 h1).2.symm
    · rw [q1]
      cases r1 with
      | nil => left; rfl
      | cons ch r =>
        right
        refine ⟨ch, r, rfl, ?_, ?_⟩
        · intro e; exact h1 (by simp [e])
        · intro e; exact h2 (by simp [e])
  · rintro lx k - - - - t l1 h
    simp only [Outcome.ok.injEq, Flow.ret.injEq] at h
    obtain ⟨rfl, rfl⟩ := h
    exact Or.inr (Or.inr (Or.inr ⟨rfl, rfl, rfl⟩))
  · rintro lx cs - - t l1 h; simp at h
  · rintro lx k c cs - - - t l1 h; simp at h
  · rintro lx k c cs str s1 - - - - t l1 h
    simp only [Outcome.ok.injEq, Flow.ret.injEq] at h
    obtain ⟨rfl, rfl⟩ := h
    exact Or.inr (Or.inr (Or.inr ⟨rfl, rfl, rfl⟩))
  · rintro lx k c cs - - - t l1 h
    cases hv : stoi (c :: cs.takeWhile Lexer.IsNumber) with
    | exhausted => rw [hv] at h; simp at h
    | out_of_range => rw [hv] at h; simp at h
    | ok v =>
      rw [hv] at h
      simp only [Outcome.bind_ok, Outcome.ok.injEq, Flow.ret.injEq] at h
      obtain ⟨rfl, rfl⟩ := h
      exact Or.inr (Or.inr (Or.inr ⟨rfl, rfl, rfl⟩))
  · rintro lx cs - - - t l1 h; simp at h
  · rintro lx cs hs hnl hne hl t l1 h
    simp only [Outcome.ok.injEq, Flow.ret.injEq] at h
    obtain ⟨rfl, rfl⟩ := h
    exact Or.inr (Or.inr (Or.inl ⟨rfl, rfl, hne, hl, hnl, ⟨cs, hs⟩, rfl⟩))
  · rintro lx k c cs - - - - t l1 h
    simp only [Outcome.ok.injEq, Flow.ret.injEq] at h
    obtain ⟨rfl, rfl⟩ := h
    obtain ⟨p1, p2, p3⟩ := Lexer.keyword_plain (String.mk (c :: cs.takeWhile Lexer.IsId))
    exact Or.inr (Or.inr (Or.inr
      ⟨structural_of_ne _ (Lexer.keyword_ne_newline _) p2 p3 p1, rfl, rfl⟩))
  · rintro lx k c cs - - - - - - - - t l1 h
    simp only [Outcome.ok.injEq, Flow.ret.injEq] at h
    obtain ⟨rfl, rfl⟩ := h
    obtain ⟨p1, p2, p3⟩ := Lexer.findSymbol_plain ⟨c :: cs, false, false⟩
    exact Or.inr (Or.inr (Or.inr
      ⟨structural_of_ne _ (Lexer.findSymbol_ne_newline _) p2 p3 p1, rfl, rfl⟩))

/-- What a pass that ends in `return FindNextToken();` has done: it leaves the tokens as
they are; it started at the start of a line or before a space, a `#` or a newline; and
it leaves the lexer at the start of a line only behind no token or a `Newline`. -/
theorem Lexer.findStep_again_shape (lx : Lexer) :
    ∀ l1, Lexer.findStep lx = .ok (.again l1) →
      l1.tokens_ = lx.tokens_ ∧
      (lx.is_new_line_ = true ∨
        ∃ c cs, lx.input_ = ⟨c :: cs, false, false⟩ ∧ (c = ' ' ∨ c = '#' ∨ c = '\n')) ∧
      (l1.is_new_line_ = true →
        lx.tokens_ = [] ∨ lx.tokens_.getLast? = some Token.Newline) := by
  refine Lexer.findStep_cases
    (fun lx res => ∀ l1, res = .ok (.again l1) →
      l1.tokens_ = lx.tokens_ ∧
      (lx.is_new_line_ = true ∨
        ∃ c cs, lx.input_ = ⟨c :: cs, false, false⟩ ∧ (c = ' ' ∨ c = '#' ∨ c = '\n')) ∧
      (l1.is_new_line_ = true →
        lx.tokens_ = [] ∨ lx.tokens_.getLast? = some Token.Newline))
    ?_ ?_ ?_ ?_ ?_ ?_ ?_ ?_ ?_ ?_ ?_ ?_ ?_ lx
  · rintro lx r e f - - l1 h; simp at h
  · rintro lx - l1 h; simp at h
  · rintro lx k cs - hnl l1 h
    simp only [Outcome.ok.injEq, Flow.again.injEq] at h
    subst h
    exact ⟨rfl, Or.inl hnl, fun e => by simp at e⟩
  · rintro lx k r1 - - - - - hd l1 h
    obtain ⟨t, toks, e, _⟩ := Lexer.indentStep_ret
      { lx with input_ := (IStream.upTo r1).peek.2, is_new_line_ := false } k hd
    rw [e] at h; simp at h
  · rintro lx k - - - - l1 h; simp at h
  · rintro lx cs hs hnl l1 h
    simp only [Outcome.ok.injEq, Flow.again.injEq] at h
    subst h
    exact ⟨rfl, Or.inr ⟨' ', cs, hs, Or.inl rfl⟩, fun e => by simp [hnl] at e⟩
  · rintro lx k c cs hs hm hc l1 h
    simp only [Outcome.ok.injEq, Flow.again.injEq] at h
    subst h
    refine ⟨rfl, ?_, fun e => by simp at e⟩
    rcases hm with ⟨hnl, -⟩ | ⟨-, rfl⟩
    · exact Or.inl hnl
    · exact Or.inr ⟨c, cs, by simpa using hs, Or.inr (Or.inl hc)⟩
  · rintro lx k c cs str s1 - - - - l1 h; simp at h
  · rintro lx k c cs - - - l1 h
    cases hv : stoi (c :: cs.takeWhile Lexer.IsNumber) with
    | exhausted => rw [hv] at h; simp at h
    | out_of_range => rw [hv] at h; simp at h
    | ok v => rw [hv] at h; simp at h
  · rintro lx cs hs - ht l1 h
    simp only [Outcome.ok.injEq, Flow.again.injEq] at h
    subst h
    exact ⟨rfl, Or.inr ⟨'\n', cs, hs, Or.inr (Or.inr rfl)⟩, fun _ => ht⟩
  · rintro lx cs - - - - l1 h; simp at h
  · rintro lx k c cs - - - - l1 h; simp at h
  · rintro lx k c cs - - - - - - - - l1 h; simp at h

/-! ## No indentation token directly behind a word -/

theorem chain_push_rel {R : Token → Token → Prop} (l : List Token) (b : Token)
    (h : List.Chain' R l) (hb : ∀ a, l.getLast? = some a → R a b) :
    List.Chain' R (l ++ [b]) := by
  refine List.Chain'.append h (List.chain'_singleton b) ?_
  intro x hx y hy
  simp only [List.head?_cons, Option.mem_def, Option.some.injEq] at hy
  subst hy
  exact hb x hx

theorem chain_append_replicate {R : Token → Token → Prop} (l : List Token) (t : Token)
    (m : Nat) (h : List.Chain' R l) (ht : R t t) (hb : ∀ a, l.getLast? = some a → R a t) :
    List.Chain' R (l ++ List.replicate m t) := by
  induction m with
  | zero => simpa using h
  | succ m ih =>
    rw [List.replicate_succ', ← List.append_assoc]
    refine chain_push_rel _ _ ih ?_
    intro a ha
    cases m with
    | zero => exact hb a (by simpa using ha)
    | succ j =>
      rw [List.replicate_succ', ← List.append_assoc, List.getLast?_append] at ha
      simp at ha
      subst ha
      exact ht

theorem Lexer.atEof_flushed (lx : Lexer) :
    (Lexer.atEof lx).tokens_ = flushed lx.tokens_ (dedentsAtEof lx.indent_) := by
  rw [Lexer.atEof_tokens]
  rfl

theorem flushed_eq (body : List Token) (k : Nat) :
    ∃ nl, (nl = [] ∨ nl = [Token.Newline]) ∧
      flushed body k = body ++ List.replicate k Token.Dedent ++ nl := by
  unfold flushed
  split_ifs
  · exact ⟨[Token.Newline], Or.inr rfl, rfl⟩
  · exact ⟨[], Or.inl rfl, by simp⟩

theorem Lexer.wordInv_again (lx l1 : Lexer) (hw : lx.WordInv)
    (h : Lexer.findStep lx = .ok (.again l1)) : l1.WordInv := by
  obtain ⟨e, -, hl⟩ := Lexer.findStep_again_shape lx l1 h
  obtain ⟨h1, h2, -⟩ := hw
  refine ⟨by rw [e]; exact h1, by rw [e]; exact h2, ?_⟩
  intro hn
  rw [e]
  exact hl hn

theorem Lexer.wordInv_ret (lx l1 : Lexer) (t : Token) (hw : lx.WordInv)
    (h : Lexer.findStep lx = .ok (.ret t l1)) (ht : t ≠ Token.Eof) :
    Lexer.WordInv { l1 with tokens_ := l1.tokens_ ++ [t] } := by
  obtain ⟨h1, h2, h3⟩ := hw
  rcases Lexer.findStep_ret_shape lx t l1 h with
    ⟨rfl, -⟩ | ⟨hd, hnl, ⟨m, e⟩, hf, -⟩ | ⟨rfl, e, -, -, -, -, -⟩ | ⟨hp, e, hf⟩
  · exact absurd rfl ht
  · have hrel : NoDentAfterWord t t := by
      intro hs
      rcases hd with rfl | rfl <;> simp [Structural] at hs
    have hlast : ∀ a, lx.tokens_.getLast? = some a → NoDentAfterWord a t := by
      intro a ha hs
      rcases h3 hnl with e0 | e0
      · rw [e0] at ha; simp at ha
      · rw [e0] at ha
        simp only [Option.some.injEq] at ha
        subst ha
        simp [Structural] at hs
    refine ⟨?_, ?_, ?_⟩
    · simp only [e, List.mem_append, List.mem_replicate, List.mem_singleton, not_or]
      exact ⟨⟨h1, fun x => ht x.2.symm⟩, fun x => ht x.symm⟩
    · simp only [e]
      rw [List.append_assoc, ← List.replicate_succ']
      exact chain_append_replicate _ _ _ h2 hrel hlast
    · intro hn
      simp only at hn
      rw [hf] at hn
      cases hn
  · refine ⟨?_, ?_, ?_⟩
    · simp only [e, List.mem_append, List.mem_singleton, not_or]
      exact ⟨h1, by simp⟩
    · simp only [e]
      exact chain_push_rel _ _ h2 (fun a _ _ => by simp)
    · intro _
      right
      simp
  · refine ⟨?_, ?_, ?_⟩
    · simp only [e, List.mem_append, List.mem_singleton, not_or]
      exact ⟨h1, fun x => ht x.symm⟩
    · simp only [e]
      refine chain_push_rel _ _ h2 (fun a _ _ => ⟨?_, ?_⟩)
      · rintro rfl; simp [Structural] at hp
      · rintro rfl; simp [Structural] at hp
    · intro hn
      simp only at hn
      rw [hf] at hn
      cases hn

/-! ## An input that ends with a newline -/

theorem List.getLast?_tail_of_ne {x a : Char} {l : List Char}
    (h : (a :: l).getLast? = some x) (ha : a ≠ x) : l ≠ [] ∧ l.getLast? = some x := by
  cases l with
  | nil => simp at h; exact absurd h ha
  | cons b bs => exact ⟨by simp, by simpa [List.getLast?_cons_cons] using h⟩

theorem List.getLast?_cons_of_ne_nil {x a : Char} {l : List Char}
    (h : (a :: l).getLast? = some x) (hl : l ≠ []) : l.getLast? = some x := by
  cases l with
  | nil => exact absurd rfl hl
  | cons b bs => simpa [List.getLast?_cons_cons] using h

theorem List.getLast?_dropWhile {x : Char} (p : Char → Bool) (l : List Char)
    (h : l.getLast? = some x) (hp : p x = false) :
    l.dropWhile p ≠ [] ∧ (l.dropWhile p).getLast? = some x := by
  induction l with
  | nil => simp at h
  | cons a l ih =>
    by_cases ha : p a = true
    · have hax : a ≠ x := by
        rintro rfl
        rw [hp] at ha
        cases ha
      obtain ⟨-, h2⟩ := List.getLast?_tail_of_ne h hax
      simpa [List.dropWhile_cons, ha] using ih h2
    · simp [List.dropWhile_cons, ha, h]

theorem List.getLast?_spaces_append {l : List Char} (k : Nat)
    (h : (List.replicate k ' ' ++ l).getLast? = some '\n') :
    l ≠ [] ∧ l.getLast? = some '\n' := by
  induction k with
  | zero => 
    refine ⟨?_, by simpa using h⟩
    rintro rfl
    simp at h
  | succ k ih =>
    rw [List.replicate_succ, List.cons_append] at h
    exact ih (List.getLast?_tail_of_ne h (by decide)).2

theorem List.getLast?_suffix {x : Char} {l1 l2 : List Char} (h : l1 <:+ l2) (hne : l1 ≠ [])
    (hl : l2.getLast? = some x) : l1.getLast? = some x := by
  obtain ⟨p, rfl⟩ := h
  rwa [List.getLast?_append_of_ne_nil _ hne] at hl

theorem IStream.upTo_of_ne_nil (r : List Char) (h : r ≠ []) :
    IStream.upTo r = ⟨r, false, false⟩ := by
  cases r with
  | nil => exact absurd rfl h
  | cons c cs => rfl

/-- A pass over an input that ends with a newline character leaves the stream before
that newline, unless it returns `Eof` or fails inside a string literal. -/
theorem Lexer.beforeNewline_step (lx : Lexer) :
    lx.BeforeNewline →
      (∀ l1, Lexer.findStep lx = .ok (.again l1) → l1.BeforeNewline) ∧
      (∀ t l1, Lexer.findStep lx = .ok (.ret t l1) →
        t = Token.Eof ∨ l1.input_.failbit = true ∨ l1.BeforeNewline) := by
  refine Lexer.findStep_cases
    (fun lx res => lx.BeforeNewline →
      (∀ l1, res = .ok (.again l1) → l1.BeforeNewline) ∧
      (∀ t l1, res = .ok (.ret t l1) →
        t = Token.Eof ∨ l1.input_.failbit = true ∨ l1.BeforeNewline))
    ?_ ?_ ?_ ?_ ?_ ?_ ?_ ?_ ?_ ?_ ?_ ?_ ?_ lx
  · rintro lx r e f - - -
    refine ⟨fun l1 h => by simp at h, fun t l1 h => ?_⟩
    simp only [Outcome.ok.injEq, Flow.ret.injEq] at h
    exact Or.inl h.1.symm
  · rintro lx - -
    refine ⟨fun l1 h => by simp at h, fun t l1 h => ?_⟩
    simp only [Outcome.ok.injEq, Flow.ret.injEq] at h
    exact Or.inl h.1.symm
  · rintro lx k cs hs - ⟨-, -, hb⟩
    refine ⟨fun l1 h => ?_, fun t l1 h => by simp at h⟩
    simp only [Outcome.ok.injEq, Flow.again.injEq] at h
    subst h
    rw [hs] at hb
    rcases hb with ⟨-, hb⟩ | ⟨hb, -⟩
    · exact ⟨rfl, rfl, Or.inl ⟨by simp, (List.getLast?_spaces_append k hb).2⟩⟩
    · simp at hb
  · rintro lx k r1 hs hpos - - - hd ⟨-, -, hb⟩
    obtain ⟨q1, q2, -⟩ := Lexer.indentStep_lexer
      { lx with input_ := (IStream.upTo r1).peek.2, is_new_line_ := false } k
    obtain ⟨t0, toks, e, -⟩ := Lexer.indentStep_ret
      { lx with input_ := (IStream.upTo r1).peek.2, is_new_line_ := false } k hd
    refine ⟨fun l1 h => by rw [e] at h; simp at h, fun t l1 h => ?_⟩
    simp only [Outcome.ok.injEq] at h
    rw [h] at q1 q2
    simp only [Flow.lexer] at q1 q2
    rw [hs] at hb
    rcases hb with ⟨-, hb⟩ | ⟨hb, -⟩
    · obtain ⟨n1, n2⟩ := List.getLast?_spaces_append k hb
      right; right
      cases r1 with
      | nil => exact absurd rfl n1
      | cons c cs =>
        have e3 : l1.input_ = ⟨c :: cs, false, false⟩ := by rw [q1]; rfl
        exact ⟨by rw [e3], by rw [e3], Or.inl ⟨by rw [e3]; simp, by rw [e3]; exact n2⟩⟩
    · simp only [List.append_eq_nil, List.replicate_eq_nil_iff] at hb
      obtain ⟨rfl, rfl⟩ := hb
      simp at hpos
  · rintro lx k hs hk - - ⟨-, -, hb⟩
    rw [hs] at hb
    rcases hb with ⟨-, hb⟩ | ⟨hb, -⟩
    · have := List.getLast?_spaces_append (l := []) k (by simpa using hb)
      exact absurd rfl this.1
    · simp only [List.replicate_eq_nil_iff] at hb
      omega
  · rintro lx cs hs - ⟨-, -, hb⟩
    refine ⟨fun l1 h => ?_, fun t l1 h => by simp at h⟩
    simp only [Outcome.ok.injEq, Flow.again.injEq] at h
    subst h
    rw [hs] at hb
    rcases hb with ⟨-, hb⟩ | ⟨hb, -⟩
    · obtain ⟨-, n2⟩ := List.getLast?_tail_of_ne hb (by decide)
      obtain ⟨m1, m2⟩ := List.getLast?_dropWhile (fun c => c == ' ') cs n2 (by decide)
      refine ⟨?_, ?_, Or.inl ⟨?_, ?_⟩⟩ <;> simp only [IStream.upTo_of_ne_nil _ m1]
      · exact m1
      · exact m2
    · simp at hb
  · rintro lx k c cs hs - hc ⟨-, -, hb⟩
    refine ⟨fun l1 h => ?_, fun t l1 h => by simp at h⟩
    simp only [Outcome.ok.injEq, Flow.again.injEq] at h
    subst h
    rw [hs] at hb
    rcases hb with ⟨-, hb⟩ | ⟨hb, -⟩
    · obtain ⟨-, n2⟩ := List.getLast?_spaces_append k hb
      obtain ⟨-, n3⟩ := List.getLast?_tail_of_ne n2 (by rw [hc]; decide)
      obtain ⟨m1, m2⟩ := List.getLast?_dropWhile (fun c => c != '\n') cs n3 (by decide)
      have e3 : IStream.afterComment cs = ⟨cs.dropWhile (fun c => c != '\n'), false, false⟩ := by
        unfold IStream.afterComment
        rw [if_neg m1]
      refine ⟨?_, ?_, Or.inl ⟨?_, ?_⟩⟩ <;> simp only [e3]
      · exact m1
      · exact m2
    · simp at hb
  · rintro lx k c cs str s1 hs - hc hs1 ⟨-, -, hb⟩
    refine ⟨fun l1 h => by simp at h, fun t l1 h => ?_⟩
    simp only [Outcome.ok.injEq, Flow.ret.injEq] at h
    obtain ⟨-, rfl⟩ := h
    right
    rw [hs] at hb
    rcases hb with ⟨-, hb⟩ | ⟨hb, -⟩
    · obtain ⟨-, n2⟩ := List.getLast?_spaces_append k hb
      have hcn : c ≠ '\n' := by
        rintro rfl
        simp [Lexer.IsString, chQuote, chDQuote] at hc
      obtain ⟨n4, n3⟩ := List.getLast?_tail_of_ne n2 hcn
      rcases hs1 with ⟨r1, rfl, hsuf⟩ | rfl
      · have n5 := List.getLast?_suffix hsuf (by simp) n3
        obtain ⟨n6, n7⟩ := List.getLast?_tail_of_ne n5 hcn
        right
        exact ⟨rfl, rfl, Or.inl ⟨n6, n7⟩⟩
      · left; rfl
    · simp at hb
  · rintro lx k c cs hs - hc ⟨-, -, hb⟩
    refine ⟨fun l1 h => ?_, fun t l1 h => ?_⟩
    · cases hv : stoi (c :: cs.takeWhile Lexer.IsNumber) with
      | exhausted => rw [hv] at h; simp at h
      | out_of_range => rw [hv] at h; simp at h
      | ok v => rw [hv] at h; simp at h
    · cases hv : stoi (c :: cs.takeWhile Lexer.IsNumber) with
      | exhausted => rw [hv] at h; simp at h
      | out_of_range => rw [hv] at h; simp at h
      | ok v =>
        rw [hv] at h
        simp only [Outcome.bind_ok, Outcome.ok.injEq, Flow.ret.injEq] at h
        obtain ⟨-, rfl⟩ := h
        right; right
        rw [hs] at hb
        rcases hb with ⟨-, hb⟩ | ⟨hb, -⟩
        · obtain ⟨-, n2⟩ := List.getLast?_spaces_append k hb
          have hcn : c ≠ '\n' := by
            rintro rfl
            simp [Lexer.IsNumber] at hc
          obtain ⟨-, n3⟩ := List.getLast?_tail_of_ne n2 hcn
          obtain ⟨m1, m2⟩ := List.getLast?_dropWhile Lexer.IsNumber cs n3 (by decide)
          refine ⟨?_, ?_, Or.inl ⟨?_, ?_⟩⟩ <;> simp only [IStream.upTo_of_ne_nil _ m1]
          · exact m1
          · exact m2
        · simp at hb
  · rintro lx cs hs - - ⟨-, -, hb⟩
    refine ⟨fun l1 h => ?_, fun t l1 h => by simp at h⟩
    simp only [Outcome.ok.injEq, Flow.again.injEq] at h
    subst h
    rw [hs] at hb
    rcases hb with ⟨-, hb⟩ | ⟨hb, -⟩
    · by_cases hcs : cs = []
      · exact ⟨rfl, rfl, Or.inr ⟨hcs, rfl⟩⟩
      · exact ⟨rfl, rfl, Or.inl ⟨hcs, List.getLast?_cons_of_ne_nil hb hcs⟩⟩
    · simp at hb
  · rintro lx cs hs - - - ⟨-, -, hb⟩
    refine ⟨fun l1 h => by simp at h, fun t l1 h => ?_⟩
    simp only [Outcome.ok.injEq, Flow.ret.injEq] at h
    obtain ⟨-, rfl⟩ := h
    right; right
    rw [hs] at hb
    rcases hb with ⟨-, hb⟩ | ⟨hb, -⟩
    · by_cases hcs : cs = []
      · exact ⟨rfl, rfl, Or.inr ⟨hcs, rfl⟩⟩
      · exact ⟨rfl, rfl, Or.inl ⟨hcs, List.getLast?_cons_of_ne_nil hb hcs⟩⟩
    · simp at hb
  · rintro lx k c cs hs - hc - ⟨-, -, hb⟩
    refine ⟨fun l1 h => by simp at h, fun t l1 h => ?_⟩
    simp only [Outcome.ok.injEq, Flow.ret.injEq] at h
    obtain ⟨-, rfl⟩ := h
    right; right
    rw [hs] at hb
    rcases hb with ⟨-, hb⟩ | ⟨hb, -⟩
    · obtain ⟨-, n2⟩ := List.getLast?_spaces_append k hb
      have hcn : c ≠ '\n' := by
        rintro rfl
        simp [Lexer.IsId] at hc
      obtain ⟨-, n3⟩ := List.getLast?_tail_of_ne n2 hcn
      obtain ⟨m1, m2⟩ := List.getLast?_dropWhile Lexer.IsId cs n3 (by decide)
      refine ⟨?_, ?_, Or.inl ⟨?_, ?_⟩⟩ <;> simp only [IStream.upTo_of_ne_nil _ m1]
      · exact m1
      · exact m2
    · simp at hb
  · rintro lx k c cs hs - - - - - hcn - ⟨-, -, hb⟩
    refine ⟨fun l1 h => by simp at h, fun t l1 h => ?_⟩
    simp only [Outcome.ok.injEq, Flow.ret.injEq] at h
    obtain ⟨-, rfl⟩ := h
    right; right
    rw [hs] at hb
    rcases hb with ⟨-, hb⟩ | ⟨hb, -⟩
    · obtain ⟨-, n2⟩ := List.getLast?_spaces_append k hb
      obtain ⟨n4, n3⟩ := List.getLast?_tail_of_ne n2 hcn
      rcases Lexer.findSymbol_stream c cs with e | e | ⟨cs1, rfl, e⟩
      · refine ⟨?_, ?_, Or.inl ⟨?_, ?_⟩⟩ <;> simp only [e, IStream.upTo_of_ne_nil _ n4]
        · exact n4
        · exact n3
      · refine ⟨?_, ?_, Or.inl ⟨?_, ?_⟩⟩ <;> simp only [e]
        · exact n4
        · exact n3
      · obtain ⟨n6, n7⟩ := List.getLast?_tail_of_ne n3 (by decide)
        refine ⟨?_, ?_, Or.inl ⟨?_, ?_⟩⟩ <;> simp only [e]
        · exact n6
        · exact n7
    · simp at hb

/-! ## The separation invariant of the constructor loop -/

theorem structural_of_mem_flush (k : Nat) (nl : List Token)
    (hnl : nl = [] ∨ nl = [Token.Newline]) :
    ∀ t ∈ List.replicate k Token.Dedent ++ nl, Structural t = true := by
  intro t ht
  rcases List.mem_append.mp ht with h | h
  · rw [(List.mem_replicate.mp h).2]; rfl
  · rcases hnl with rfl | rfl
    · simp at h
    · simp only [List.mem_singleton] at h
      rw [h]; rfl

theorem Lexer.sepInv_step (strict : Prop) (b : Nat) (lx l1 : Lexer) (t : Token)
    (hinv : lx.SepInv strict) (hf : lx.input_.failbit = false)
    (h : Lexer.FindNextToken b lx = .ok (t, l1)) :
    Lexer.SepInv strict { l1 with tokens_ := l1.tokens_ ++ [t] } := by
  rcases hinv with ⟨body, k, post, hp, hb1, hb2, hb3, hb4, hbad⟩ | ⟨hw, hs⟩
  · have hpost := Lexer.FindNextToken_rule
      (fun l => (l.input_.eofbit = true ∨ l.input_.failbit = true) ∧ l.tokens_ = lx.tokens_)
      (fun t l1 => t = Token.Eof ∧ l1.input_.failbit = true ∧
        ∃ l0, l0.tokens_ = lx.tokens_ ∧ l1.tokens_ = (Lexer.atEof l0).tokens_)
      (by
        rintro l l2 ⟨hbad1, -⟩ hs
        rw [Lexer.findStep_notgood l l.input_.rest l.input_.eofbit l.input_.failbit rfl hbad1]
          at hs
        simp at hs)
      (by
        rintro l t2 l2 ⟨hbad1, htok⟩ hs
        rw [Lexer.findStep_notgood l l.input_.rest l.input_.eofbit l.input_.failbit rfl hbad1]
          at hs
        simp only [Outcome.ok.injEq, Flow.ret.injEq] at hs
        obtain ⟨rfl, rfl⟩ := hs
        exact ⟨rfl, rfl, l, htok, rfl⟩)
      b lx t l1 ⟨hbad, rfl⟩ h
    obtain ⟨rfl, hfail, l0, e0, e1⟩ := hpost
    obtain ⟨nl, hnl, e2⟩ := flushed_eq l0.tokens_ (dedentsAtEof l0.indent_)
    left
    refine ⟨body, k, post ++ List.replicate (dedentsAtEof l0.indent_) Token.Dedent ++ nl ++
      [Token.Eof], ?_, hb1, hb2, hb3, ?_, Or.inr hfail⟩
    · rw [e0, hp] at e2
      simp only [e1, Lexer.atEof_flushed, e0, hp, e2]
      simp
    · intro u hu
      simp only [List.append_assoc, List.mem_append, List.mem_singleton] at hu
      rcases hu with hu | hu | hu | hu
      · exact hb4 u hu
      · exact structural_of_mem_flush (dedentsAtEof l0.indent_) nl hnl u
          (List.mem_append_left _ hu)
      · exact structural_of_mem_flush 0 nl hnl u (List.mem_append_right _ hu)
      · rw [hu]; rfl
  · have hs0 : strict → lx.BeforeNewline := by
      intro hst
      rcases hs hst with h1 | h1
      · rw [hf] at h1; cases h1
      · exact h1
    have hpost := Lexer.FindNextToken_rule
      (fun l => l.WordInv ∧ (strict → l.BeforeNewline))
      (fun t l1 => ∃ l0, l0.WordInv ∧ (strict → l0.BeforeNewline) ∧
        Lexer.findStep l0 = .ok (.ret t l1))
      (by
        rintro l l2 ⟨h1, h2⟩ hs
        exact ⟨Lexer.wordInv_again l l2 h1 hs,
          fun hst => (Lexer.beforeNewline_step l (h2 hst)).1 l2 hs⟩)
      (by
        rintro l t2 l2 ⟨h1, h2⟩ hs
        exact ⟨l, h1, h2, hs⟩)
      b lx t l1 ⟨hw, hs0⟩ h
    obtain ⟨l0, hw0, hs1, hstep⟩ := hpost
    by_cases ht : t = Token.Eof
    · subst ht
      rcases Lexer.findStep_ret_shape l0 _ l1 hstep with
        ⟨-, e, -, hbad, hend⟩ | ⟨hd, -⟩ | ⟨hd, -⟩ | ⟨hd, -⟩
      · left
        refine ⟨l0.tokens_, dedentsAtEof l0.indent_, [], ?_, hw0.1, hw0.2.1, ?_, by simp, hbad⟩
        · simp only [e, Lexer.atEof_flushed]
        · intro hst
          obtain ⟨b1, b2, b3⟩ := hs1 hst
          rcases b3 with ⟨b3, -⟩ | ⟨-, b4⟩
          · rcases hend with h1 | h1 | h1
            · rw [b1] at h1; cases h1
            · rw [b2] at h1; cases h1
            · exact absurd h1 b3
          · exact hw0.2.2 b4
      · rcases hd with hd | hd <;> cases hd
      · cases hd
      · simp [Structural] at hd
    · right
      refine ⟨Lexer.wordInv_ret l0 l1 t hw0 hstep ht, fun hst => ?_⟩
      rcases (Lexer.beforeNewline_step l0 (hs1 hst)).2 t l1 hstep with h1 | h1 | h1
      · exact absurd h1 ht
      · exact Or.inl h1
      · exact Or.inr h1

theorem Lexer.tokens_sepInv (input : List Char) (ts : List Token) (strict : Prop)
    (hstrict : strict → input.getLast? = some '\n') (h : Lexer.tokens input = .ok ts) :
    ∃ lx : Lexer, lx.tokens_ = ts ∧ lx.SepInv strict := by
  unfold Lexer.tokens at h
  cases hn : Lexer.new input with
  | exhausted => rw [hn] at h; simp at h
  | out_of_range => rw [hn] at h; simp at h
  | ok lx =>
    rw [hn] at h
    simp only [Outcome.bind_ok, Outcome.ok.injEq] at h
    refine ⟨lx, h, (Lexer.run_rule (Lexer.SepInv strict) _
      (fun l t l1 hl hf hr => Lexer.sepInv_step strict _ l l1 t hl hf hr) _ _ lx ?_ hn).1⟩
    right
    refine ⟨⟨by simp [Lexer.init], by simp [Lexer.init], fun _ => Or.inl rfl⟩, fun hst => ?_⟩
    right
    refine ⟨rfl, rfl, Or.inl ⟨?_, hstrict hst⟩⟩
    intro e
    have := hstrict hst
    simp only [Lexer.init] at e
    rw [e] at this
    simp at this

theorem split_in_body (body tail l1 l2 : List Token) (t : Token)
    (h : l1 ++ t :: l2 = body ++ tail) (ht : Structural t = false)
    (htail : ∀ u ∈ tail, Structural u = true) :
    ∃ l3, body = l1 ++ t :: l3 ∧ l2 = l3 ++ tail := by
  rcases List.append_eq_append_iff.mp h with ⟨a, ha, hb⟩ | ⟨c, hc, hd⟩
  · cases a with
    | nil =>
      simp only [List.nil_append] at hb
      have := htail t (by rw [← hb]; exact List.mem_cons_self _ _)
      rw [ht] at this; cases this
    | cons x xs =>
      simp only [List.cons_append, List.cons.injEq] at hb
      obtain ⟨rfl, rfl⟩ := hb
      exact ⟨xs, ha, rfl⟩
  · have := htail t (by rw [hd]; simp)
    rw [ht] at this; cases this

/-- What follows the last word in the tokens the end-of-file branch leaves behind. -/
theorem flushed_after_word (body : List Token) (k : Nat) (l1 l2 : List Token) (t : Token)
    (hc : List.Chain' NoDentAfterWord body) (hno : Token.Eof ∉ body)
    (h : flushed body k = l1 ++ t :: l2) (ht : Structural t = false)
    (hl2 : ∀ u ∈ l2, Structural u = true) :
    (Token.Newline ∈ l2 ∨ (l2 ≠ [] ∧ ∀ u ∈ l2, u = Token.Dedent)) ∧
    ((body = [] ∨ body.getLast? = some Token.Newline) → Token.Newline ∈ l2) := by
  obtain ⟨nl, hnl, e⟩ := flushed_eq body k
  have e' := e
  rw [h, List.append_assoc] at e
  obtain ⟨l3, hb, hl⟩ := split_in_body body _ l1 l2 t e ht (structural_of_mem_flush k nl hnl)
  cases l3 with
  | cons u l4 =>
    have hu : u = Token.Newline := by
      have hrel : NoDentAfterWord t u := by
        rw [hb] at hc
        have := (List.chain'_append.mp hc).2.1
        exact (List.chain'_cons.mp this).1
      have hs : Structural u = true := hl2 u (by rw [hl]; simp)
      rcases structural_cases u hs with r | r | r | r
      · exact r
      · exact absurd r (hrel ht).1
      · exact absurd r (hrel ht).2
      · exact absurd (by rw [hb, r]; simp) hno
    have hm : Token.Newline ∈ l2 := by rw [hl, hu]; simp
    exact ⟨Or.inl hm, fun _ => hm⟩
  | nil =>
    have hlast : body.getLast? = some t := by rw [hb]; simp
    have htn : t ≠ Token.Newline := by rintro rfl; simp [Structural] at ht
    have hti : t ≠ Token.Indent := by rintro rfl; simp [Structural] at ht
    have htd : t ≠ Token.Dedent := by rintro rfl; simp [Structural] at ht
    refine ⟨?_, ?_⟩
    · simp only [List.nil_append] at hl
      cases k with
      | zero =>
        left
        have : flushed body 0 = body ++ [Token.Newline] := by
          unfold flushed
          simp only [List.replicate_zero, List.append_nil, hlast]
          rw [if_pos]
          refine ⟨by rw [hb]; simp, ?_, ?_, ?_⟩
          · simpa using htn
          · simpa using htd
          · simpa using hti
        rw [this, hb] at h
        simp only [List.append_assoc, List.cons_append, List.nil_append] at h
        have h2 := List.append_cancel_left h
        simp only [List.cons.injEq, true_and] at h2
        rw [← h2]; simp
      | succ j =>
        right
        have : flushed body (j + 1) = body ++ List.replicate (j + 1) Token.Dedent := by
          unfold flushed
          rw [if_neg]
          intro hx
          apply hx.2.2.1
          rw [List.replicate_succ', ← List.append_assoc]
          simp
        rw [this, hb] at h
        simp only [List.append_assoc, List.cons_append, List.nil_append] at h
        have h2 := List.append_cancel_left h
        simp only [List.cons.injEq, true_and] at h2
        rw [← h2]
        refine ⟨by simp, fun u hu => (List.mem_replicate.mp hu).2⟩
    · rintro (hbn | hbn)
      · rw [hbn] at hlast; simp at hlast
      · rw [hbn] at hlast
        simp only [Option.some.injEq] at hlast
        exact absurd hlast.symm htn

theorem not_eof_mem_flushed (body : List Token) (k : Nat) (h : Token.Eof ∉ body) :
    Token.Eof ∉ flushed body k := by
  obtain ⟨nl, hnl, e⟩ := flushed_eq body k
  rw [e]
  intro hm
  rcases List.mem_append.mp hm with hm | hm
  · rcases List.mem_append.mp hm with hm | hm
    · exact h hm
    · have := (List.mem_replicate.mp hm).2
      cases this
  · rcases hnl with rfl | rfl
    · simp at hm
    · simp at hm

/-- The tokens before the first `Eof` are what the end-of-file branch left behind. -/
theorem Lexer.tokens_first_eof (input : List Char) (ts : List Token) (strict : Prop)
    (hstrict : strict → input.getLast? = some '\n') (h : Lexer.tokens input = .ok ts)
    (pre post : List Token) (hs : ts = pre ++ Token.Eof :: post) (hpre : Token.Eof ∉ pre) :
    ∃ body k, pre = flushed body k ∧ Token.Eof ∉ body ∧ List.Chain' NoDentAfterWord body ∧
      (strict → body = [] ∨ body.getLast? = some Token.Newline) ∧
      ∀ t ∈ post, Structural t = true := by
  obtain ⟨lx, rfl, hinv⟩ := Lexer.tokens_sepInv input ts strict hstrict h
  rcases hinv with ⟨body, k, post1, hp, hb1, hb2, hb3, hb4, -⟩ | ⟨⟨hno, -, -⟩, -⟩
  · rw [hs] at hp
    have e := List.first_split_unique _ _ _ _ _ hp hpre (not_eof_mem_flushed body k hb1)
    subst e
    have e2 := List.append_cancel_left hp
    simp only [List.cons.injEq, true_and] at e2
    subst e2
    exact ⟨body, k, rfl, hb1, hb2, hb3, hb4⟩
  · rw [hs] at hno
    simp at hno

/-! ## No newline directly behind an indentation token -/

theorem linesInv_step (lx : Lexer) (flow : Flow) (h : Lexer.findStep lx = .ok flow)
    (hl : LinesInv lx) : LinesInv flow.lexer := by
  obtain ⟨⟨p, hp⟩, h2⟩ := Lexer.findStep_stream lx flow h
  refine ⟨?_, ?_⟩
  · intro hnl
    rcases h2 hnl with ⟨e1, e2⟩ | e1
    · rw [e1]; exact hl.1 e2
    · exact hl.2 [] _ (by simpa using e1)
  · intro pre suf e
    apply hl.2 (p ++ pre) suf
    rw [← hp, e]
    simp

theorem noCommentLines_linesInv (input : List Char) (h : NoCommentLines input) :
    LinesInv (Lexer.init input) := by
  refine ⟨fun _ => h.1, ?_⟩
  intro pre suf e
  simp only [Lexer.init] at e
  have h1 := h.2 pre.length (by rw [e]; simp)
    (by rw [e, List.getElem?_append_right (le_refl _)]; simp)
  rw [e] at h1
  simpa using h1

theorem chain_flushed (body : List Token) (k : Nat)
    (h : List.Chain' NoNewlineAfterDent body) :
    List.Chain' NoNewlineAfterDent (flushed body k ++ [Token.Eof]) := by
  have hx : List.Chain' NoNewlineAfterDent (body ++ List.replicate k Token.Dedent) :=
    chain_append_replicate body Token.Dedent k h (fun _ => by simp) (fun _ _ _ => by simp)
  refine chain_push_rel _ _ ?_ (fun _ _ _ => by simp)
  unfold flushed
  split_ifs with hc
  · refine chain_push_rel _ _ hx ?_
    rintro a ha (rfl | rfl)
    · exact absurd ha hc.2.2.2
    · exact absurd ha hc.2.2.1
  · exact hx

theorem Lexer.dentInv_again (lx l1 : Lexer) (hd : lx.DentInv)
    (h : Lexer.findStep lx = .ok (.again l1)) : l1.DentInv := by
  obtain ⟨e, hstart, -⟩ := Lexer.findStep_again_shape lx l1 h
  obtain ⟨h1, h2⟩ := hd
  refine ⟨by rw [e]; exact h1, ?_⟩
  intro hlast
  rw [e] at hlast
  obtain ⟨q1, q2⟩ := h2 hlast
  exfalso
  rcases hstart with hs | ⟨c, cs, hs, hc⟩
  · rw [q1] at hs; cases hs
  · rcases q2 with q2 | ⟨ch, r, q2, n1, n2, n3⟩
    · rw [hs] at q2; cases q2
    · rw [hs] at q2
      simp only [IStream.mk.injEq, List.cons.injEq, and_true] at q2
      obtain ⟨rfl, -⟩ := q2
      rcases hc with rfl | rfl | rfl
      · exact n1 rfl
      · exact n3 rfl
      · exact n2 rfl

theorem Lexer.dentInv_ret (lx l1 : Lexer) (t : Token) (hd : lx.DentInv) (hl : LinesInv lx)
    (h : Lexer.findStep lx = .ok (.ret t l1)) :
    Lexer.DentInv { l1 with tokens_ := l1.tokens_ ++ [t] } := by
  obtain ⟨h1, h2⟩ := hd
  rcases Lexer.findStep_ret_shape lx t l1 h with
    ⟨rfl, e, -⟩ | ⟨hdent, hnl, ⟨m, e⟩, hf, hrest, hstream⟩ |
    ⟨rfl, e, -, -, hnl, ⟨cs, hin⟩, -⟩ | ⟨hp, e, hf⟩
  · refine ⟨?_, ?_⟩
    · simp only [e, Lexer.atEof_flushed]
      exact chain_flushed _ _ h1
    · intro hlast
      simp at hlast
  · refine ⟨?_, ?_⟩
    · simp only [e]
      rw [List.append_assoc, ← List.replicate_succ']
      refine chain_append_replicate _ _ _ h1 ?_ ?_
      · rintro -; rcases hdent with rfl | rfl <;> simp
      · rintro a - -; rcases hdent with rfl | rfl <;> simp
    · intro _
      refine ⟨hf, ?_⟩
      rcases hstream with hs | ⟨ch, r, hs, n1, n2⟩
      · exact Or.inl hs
      · right
        refine ⟨ch, r, hs, n1, n2, ?_⟩
        rintro rfl
        have := hl.1 hnl
        unfold NoCommentLine at this
        rw [← hrest, hs] at this
        simp at this
  · refine ⟨?_, ?_⟩
    · simp only [e]
      refine chain_push_rel _ _ h1 ?_
      intro a ha hdent
      exfalso
      have hlast : lx.tokens_.getLast? = some Token.Indent ∨
          lx.tokens_.getLast? = some Token.Dedent := by
        rcases hdent with rfl | rfl
        · exact Or.inl ha
        · exact Or.inr ha
      obtain ⟨-, q2⟩ := h2 hlast
      rcases q2 with q2 | ⟨ch, r, q2, -, n2, -⟩
      · rw [hin] at q2; cases q2
      · rw [hin] at q2
        simp only [IStream.mk.injEq, List.cons.injEq, and_true] at q2
        exact n2 q2.1.symm
    · intro hlast
      simp at hlast
  · refine ⟨?_, ?_⟩
    · simp only [e]
      refine chain_push_rel _ _ h1 ?_
      rintro a - - rfl
      simp [Structural] at hp
    · intro hlast
      have hq : (l1.tokens_ ++ [t]).getLast? = some t := by simp
      simp only [hq, Option.some.injEq] at hlast
      rcases hlast with rfl | rfl <;> simp [Structural] at hp

theorem Lexer.dentInv_step (b : Nat) (lx l1 : Lexer) (t : Token)
    (hinv : lx.DentInv ∧ LinesInv lx) (h : Lexer.FindNextToken b lx = .ok (t, l1)) :
    Lexer.DentInv { l1 with tokens_ := l1.tokens_ ++ [t] } ∧
      LinesInv { l1 with tokens_ := l1.tokens_ ++ [t] } :=
  Lexer.FindNextToken_rule (fun l => l.DentInv ∧ LinesInv l)
    (fun t l1 => Lexer.DentInv { l1 with tokens_ := l1.tokens_ ++ [t] } ∧
      LinesInv { l1 with tokens_ := l1.tokens_ ++ [t] })
    (fun l l2 hl hs => ⟨Lexer.dentInv_again l l2 hl.1 hs, linesInv_step l _ hs hl.2⟩)
    (fun l t2 l2 hl hs => ⟨Lexer.dentInv_ret l l2 t2 hl.1 hl.2 hs, linesInv_step l _ hs hl.2⟩)
    b lx t l1 hinv h

theorem Lexer.tokens_no_newline_after_dent (input : List Char) (ts : List Token)
    (hc : NoCommentLines input) (h : Lexer.tokens input = .ok ts) :
    List.Chain' NoNewlineAfterDent ts := by
  unfold Lexer.tokens at h
  cases hn : Lexer.new input with
  | exhausted => rw [hn] at h; simp at h
  | out_of_range => rw [hn] at h; simp at h
  | ok lx =>
    rw [hn] at h
    simp only [Outcome.bind_ok, Outcome.ok.injEq] at h
    subst h
    exact (Lexer.run_rule (fun l => l.DentInv ∧ LinesInv l) _
      (fun l t l1 hl _ hr => Lexer.dentInv_step _ l l1 t hl hr) _ _ lx
      ⟨⟨by simp [Lexer.init], fun hlast => by simp [Lexer.init] at hlast⟩,
        noCommentLines_linesInv input hc⟩ hn).1.1.1

theorem Lexer.tokens_body_tail (input : List Char) (ts : List Token)
    (h : Lexer.tokens input = .ok ts) :
    ∃ body tail, ts = body ++ tail ∧ Token.Eof ∉ body ∧ List.Chain' NoDentAfterWord body ∧
      ∀ t ∈ tail, Structural t = true := by
  obtain ⟨lx, rfl, hinv⟩ := Lexer.tokens_sepInv input ts False (fun hf => hf.elim) h
  rcases hinv with ⟨body, k, post, hp, hb1, hb2, -, hb4, -⟩ | ⟨⟨hno, hc, -⟩, -⟩
  · obtain ⟨nl, hnl, e⟩ := flushed_eq body k
    refine ⟨body, List.replicate k Token.Dedent ++ nl ++ Token.Eof :: post, ?_, hb1, hb2, ?_⟩
    · rw [hp, e]; simp
    · intro t ht
      rcases List.mem_append.mp ht with ht | ht
      · exact structural_of_mem_flush k nl hnl t ht
      · rcases List.mem_cons.mp ht with rfl | ht
        · rfl
        · exact hb4 t ht
  · exact ⟨lx.tokens_, [], by simp, hno, hc, by simp⟩

theorem no_second_newline (x : Token) (l : List Token)
    (hx : x = Token.Newline ∨ x = Token.Indent ∨ x = Token.Dedent)
    (h1 : List.Chain' NotBothNewline (x :: l)) (h2 : List.Chain' NoNewlineAfterDent (x :: l))
    (hall : ∀ t ∈ l, t = Token.Newline ∨ t = Token.Indent ∨ t = Token.Dedent) :
    Token.Newline ∉ l := by
  induction l generalizing x with
  | nil => simp
  | cons y l ih =>
    obtain ⟨r1, c1⟩ := List.chain'_cons.mp h1
    obtain ⟨r2, c2⟩ := List.chain'_cons.mp h2
    have hy : y ≠ Token.Newline := by
      rcases hx with rfl | rfl | rfl
      · exact fun e => r1 ⟨rfl, e⟩
      · exact r2 (Or.inl rfl)
      · exact r2 (Or.inr rfl)
    have hy2 : y = Token.Newline ∨ y = Token.Indent ∨ y = Token.Dedent :=
      hall y (List.mem_cons_self _ _)
    have := ih y hy2 c1 c2 (fun t ht => hall t (List.mem_cons_of_mem _ ht))
    simp only [List.mem_cons, not_or]
    exact ⟨fun e => hy e.symm, this⟩

/-! ## What follows a word -/

/-- One pass of a lexer that stands in the middle of a line, behind a token `a` that is
not structural.  A pass that starts over has skipped spaces only, or a comment up to
the newline at its end (or to the end of the data); a pass that returns a token returns
`Newline`, `Eof`, or a token that is not structural and starts at the first character
left, which is not a space, a newline or `#`.  Behind a comment no pass starts over. -/
theorem Lexer.findStep_after_word (a : Token) (ha : Structural a = false) (lx : Lexer) :
    lx.is_new_line_ = false → lx.tokens_.getLast? = some a →
      (∀ l2, Lexer.findStep lx = .ok (.again l2) → l2.is_new_line_ = false ∧
        ((∃ m, lx.input_.rest = List.replicate m ' ' ++ l2.input_.rest) ∨
          l2.input_.failbit = true ∨ l2.input_.rest.head? = some '\n')) ∧
      (∀ t l2, Lexer.findStep lx = .ok (.ret t l2) →
        t = Token.Newline ∨ t = Token.Eof ∨
        (Structural t = false ∧ ∃ c cs, lx.input_.rest = c :: cs ∧ c ≠ ' ' ∧ c ≠ '\n' ∧
          c ≠ '#' ∧ l2.input_.rest <:+ cs)) ∧
      (lx.input_.failbit = true ∨ lx.input_.rest.head? = some '\n' →
        ∀ l2, Lexer.findStep lx ≠ .ok (.again l2)) := by
  have hane : a ≠ Token.Newline := by rintro rfl; simp [Structural] at ha
  refine Lexer.findStep_cases
    (fun lx res => lx.is_new_line_ = false → lx.tokens_.getLast? = some a →
      (∀ l2, res = .ok (.again l2) → l2.is_new_line_ = false ∧
        ((∃ m, lx.input_.rest = List.replicate m ' ' ++ l2.input_.rest) ∨
          l2.input_.failbit = true ∨ l2.input_.rest.head? = some '\n')) ∧
      (∀ t l2, res = .ok (.ret t l2) →
        t = Token.Newline ∨ t = Token.Eof ∨
        (Structural t = false ∧ ∃ c cs, lx.input_.rest = c :: cs ∧ c ≠ ' ' ∧ c ≠ '\n' ∧
          c ≠ '#' ∧ l2.input_.rest <:+ cs)) ∧
      (lx.input_.failbit = true ∨ lx.input_.rest.head? = some '\n' →
        ∀ l2, res ≠ .ok (.again l2)))
    ?_ ?_ ?_ ?_ ?_ ?_ ?_ ?_ ?_ ?_ ?_ ?_ ?_ lx
  · rintro lx r e f - - - -
    refine ⟨fun l2 h => by simp at h, fun t l2 h => ?_, fun _ l2 h => by simp at h⟩
    simp only [Outcome.ok.injEq, Flow.ret.injEq] at h
    exact Or.inr (Or.inl h.1.symm)
  · rintro lx - - -
    refine ⟨fun l2 h => by simp at h, fun t l2 h => ?_, fun _ l2 h => by simp at h⟩
    simp only [Outcome.ok.injEq, Flow.ret.injEq] at h
    exact Or.inr (Or.inl h.1.symm)
  · rintro lx k cs - hnl hnl2 -
    rw [hnl] at hnl2; cases hnl2
  · rintro lx k r1 - - hnl - - - hnl2 -
    rw [hnl] at hnl2; cases hnl2
  · rintro lx k - - hnl - hnl2 -
    rw [hnl] at hnl2; cases hnl2
  · rintro lx cs hs hnl - -
    refine ⟨fun l2 h => ?_, fun t l2 h => by simp at h, fun hc l2 h => ?_⟩
    · simp only [Outcome.ok.injEq, Flow.again.injEq] at h
      subst h
      refine ⟨hnl, Or.inl ⟨(cs.takeWhile (fun c => c == ' ')).length + 1, ?_⟩⟩
      rw [hs]
      simp only [IStream.upTo]
      rw [List.replicate_succ, List.cons_append, ← List.space_split cs]
    · rw [hs] at hc
      simp at hc
  · rintro lx k c cs hs hm hc hnl -
    have hk : k = 0 := by
      rcases hm with ⟨h1, -⟩ | ⟨-, h2⟩
      · rw [hnl] at h1; cases h1
      · exact h2
    subst hk
    refine ⟨fun l2 h => ?_, fun t l2 h => by simp at h, fun hc2 l2 h => ?_⟩
    · simp only [Outcome.ok.injEq, Flow.again.injEq] at h
      subst h
      refine ⟨rfl, Or.inr ?_⟩
      simp only [IStream.afterComment]
      split_ifs with he
      · exact Or.inl rfl
      · right
        have := List.head_dropWhile_not (fun c => c != '\n') cs he
        simp only [bne_iff_ne, ne_eq, Decidable.not_not, Bool.not_eq_true, bne_eq_false_iff_eq]
          at this
        rw [List.head?_eq_head he, this]
    · rw [hs] at hc2
      simp [hc] at hc2
  · rintro lx k c cs str s1 hs hm hc hs1 hnl -
    have hk : k = 0 := by
      rcases hm with ⟨h1, -⟩ | ⟨-, h2⟩
      · rw [hnl] at h1; cases h1
      · exact h2
    subst hk
    refine ⟨fun l2 h => by simp at h, fun t l2 h => ?_, fun _ l2 h => by simp at h⟩
    simp only [Outcome.ok.injEq, Flow.ret.injEq] at h
    obtain ⟨rfl, rfl⟩ := h
    right; right
    refine ⟨rfl, c, cs, by rw [hs]; simp, ?_, ?_, ?_, ?_⟩
    · rintro rfl; simp [Lexer.IsString, chQuote, chDQuote] at hc
    · rintro rfl; simp [Lexer.IsString, chQuote, chDQuote] at hc
    · rintro rfl; simp [Lexer.IsString, chQuote, chDQuote] at hc
    · rcases hs1 with ⟨r1, rfl, hsuf⟩ | rfl
      · exact (List.suffix_cons c r1).trans hsuf
      · exact List.nil_suffix
  · rintro lx k c cs hs hm hc hnl -
    have hk : k = 0 := by
      rcases hm with ⟨h1, -⟩ | ⟨-, h2⟩
      · rw [hnl] at h1; cases h1
      · exact h2
    subst hk
    refine ⟨fun l2 h => ?_, fun t l2 h => ?_, fun _ l2 h => ?_⟩
    · cases hv : stoi (c :: cs.takeWhile Lexer.IsNumber) with
      | exhausted => rw [hv] at h; simp at h
      | out_of_range => rw [hv] at h; simp at h
      | ok v => rw [hv] at h; simp at h
    · cases hv : stoi (c :: cs.takeWhile Lexer.IsNumber) with
      | exhausted => rw [hv] at h; simp at h
      | out_of_range => rw [hv] at h; simp at h
      | ok v =>
        rw [hv] at h
        simp only [Outcome.bind_ok, Outcome.ok.injEq, Flow.ret.injEq] at h
        obtain ⟨rfl, rfl⟩ := h
        right; right
        refine ⟨rfl, c, cs, by rw [hs]; simp, ?_, ?_, ?_, ?_⟩
        · rintro rfl; simp [Lexer.IsNumber] at hc
        · rintro rfl; simp [Lexer.IsNumber] at hc
        · rintro rfl; simp [Lexer.IsNumber] at hc
        · simp only [IStream.upTo]
          exact List.dropWhile_suffix _
    · cases hv : stoi (c :: cs.takeWhile Lexer.IsNumber) with
      | exhausted => rw [hv] at h; simp at h
      | out_of_range => rw [hv] at h; simp at h
      | ok v => rw [hv] at h; simp at h
  · rintro lx cs - - ht - hlast
    exfalso
    rcases ht with ht | ht
    · rw [ht] at hlast; simp at hlast
    · rw [ht] at hlast
      simp only [Option.some.injEq] at hlast
      exact hane hlast.symm
  · rintro lx cs - - - - - -
    refine ⟨fun l2 h => by simp at h, fun t l2 h => ?_, fun _ l2 h => by simp at h⟩
    simp only [Outcome.ok.injEq, Flow.ret.injEq] at h
    exact Or.inl h.1.symm
  · rintro lx k c cs hs hm hc - hnl -
    have hk : k = 0 := by
      rcases hm with ⟨h1, -⟩ | ⟨-, h2⟩
      · rw [hnl] at h1; cases h1
      · exact h2
    subst hk
    refine ⟨fun l2 h => by simp at h, fun t l2 h => ?_, fun _ l2 h => by simp at h⟩
    simp only [Outcome.ok.injEq, Flow.ret.injEq] at h
    obtain ⟨rfl, rfl⟩ := h
    obtain ⟨p1, p2, p3⟩ := Lexer.keyword_plain (String.mk (c :: cs.takeWhile Lexer.IsId))
    right; right
    refine ⟨structural_of_ne _ (Lexer.keyword_ne_newline _) p2 p3 p1, c, cs,
      by rw [hs]; simp, ?_, ?_, ?_, ?_⟩
    · rintro rfl; simp [Lexer.IsId] at hc
    · rintro rfl; simp [Lexer.IsId] at hc
    · rintro rfl; simp [Lexer.IsId] at hc
    · simp only [IStream.upTo]
      exact List.dropWhile_suffix _
  · rintro lx k c cs hs hm h1 h2 - - h5 - hnl -
    have hk : k = 0 := by
      rcases hm with ⟨h1, -⟩ | ⟨-, h2⟩
      · rw [hnl] at h1; cases h1
      · exact h2
    subst hk
    refine ⟨fun l2 h => by simp at h, fun t l2 h => ?_, fun _ l2 h => by simp at h⟩
    simp only [Outcome.ok.injEq, Flow.ret.injEq] at h
    obtain ⟨rfl, rfl⟩ := h
    obtain ⟨p1, p2, p3⟩ := Lexer.findSymbol_plain ⟨c :: cs, false, false⟩
    right; right
    refine ⟨structural_of_ne _ (Lexer.findSymbol_ne_newline _) p2 p3 p1, c, cs,
      by rw [hs]; simp, h1, h5, h2, ?_⟩
    rcases Lexer.findSymbol_stream c cs with e | e | ⟨cs1, hcs, e⟩
    · simp only [e, IStream.upTo]; exact List.suffix_refl _
    · simp only [e]; exact List.suffix_refl _
    · subst hcs
      rw [e]
      exact List.suffix_cons _ _

/-- The tokens a call of `FindNextToken` pushes before it returns are structural, and
the call pushes none when it returns a token other than `Eof`, `Indent` and `Dedent`. -/
theorem Lexer.FindNextToken_pushed (n : Nat) (lx l1 : Lexer) (t : Token)
    (h : Lexer.FindNextToken n lx = .ok (t, l1)) :
    (∃ pushed, l1.tokens_ = lx.tokens_ ++ pushed ∧ ∀ u ∈ pushed, Structural u = true) ∧
    (t ≠ Token.Eof → t ≠ Token.Indent → t ≠ Token.Dedent → l1.tokens_ = lx.tokens_) := by
  obtain ⟨l0, e1, -, -, hs⟩ := Lexer.FindNextToken_tokenStep n lx l1 t h
  rcases Lexer.findStep_tokens l0 t l1 hs with
    ⟨rfl, -, e⟩ | ⟨rfl, -, -, -, -, e⟩ | ⟨rfl, -, -, -, -, e⟩ | ⟨n1, n2, n3, -, e⟩
  · refine ⟨?_, fun hne => absurd rfl hne⟩
    obtain ⟨nl, hnl, e2⟩ := flushed_eq l0.tokens_ (dedentsAtEof l0.indent_)
    refine ⟨List.replicate (dedentsAtEof l0.indent_) Token.Dedent ++ nl, ?_,
      structural_of_mem_flush _ nl hnl⟩
    rw [e, Lexer.atEof_flushed, e2, e1, List.append_assoc]
  · refine ⟨⟨_, by rw [e, e1], ?_⟩, fun _ hne => absurd rfl hne⟩
    intro u hu
    rw [(List.mem_replicate.mp hu).2]; rfl
  · refine ⟨⟨_, by rw [e, e1], ?_⟩, fun _ _ hne => absurd rfl hne⟩
    intro u hu
    rw [(List.mem_replicate.mp hu).2]; rfl
  · exact ⟨⟨[], by rw [e, e1]; simp, by simp⟩, fun _ _ _ => by rw [e, e1]⟩

/-- The loop of the constructor only adds tokens. -/
theorem Lexer.run_tokens_prefix (b n : Nat) (lx final : Lexer)
    (h : Lexer.run b n lx = .ok final) : lx.tokens_ <+: final.tokens_ :=
  (Lexer.run_rule (fun l => lx.tokens_ <+: l.tokens_) b
    (fun l t l1 hl _ hr => by
      obtain ⟨⟨pushed, e, -⟩, -⟩ := Lexer.FindNextToken_pushed b l l1 t hr
      obtain ⟨q, hq⟩ := hl
      exact ⟨q ++ pushed ++ [t], by simp [e, ← hq]⟩)
    n lx final (List.prefix_refl _) h).1

/-- From every state at the head of the loop the loop runs to the lexer the constructor
leaves behind. -/
theorem Lexer.Reachable.run (input : List Char) (final : Lexer)
    (h : Lexer.new input = .ok final) (lx : Lexer) (hr : Lexer.Reachable input lx) :
    ∃ n, Lexer.run (Lexer.budget input) n lx = .ok final := by
  induction hr with
  | init => exact ⟨_, h⟩
  | round lx l1 t _ hb hf ih =>
    obtain ⟨n, hn⟩ := ih
    cases n with
    | zero => simp [Lexer.run] at hn
    | succ n =>
      refine ⟨n, ?_⟩
      unfold Lexer.run at hn
      simpa [hb, hf] using hn

/-- A state at the head of the loop whose last token is not structural stands in the
middle of a line. -/
theorem Lexer.Reachable.in_line (input : List Char) (lx : Lexer)
    (hr : Lexer.Reachable input lx) (a : Token) (hlast : lx.tokens_.getLast? = some a)
    (ha : Structural a = false) : lx.is_new_line_ = false := by
  cases hr with
  | init => simp [Lexer.init] at hlast
  | round l0 l1 t _ _ hf =>
    have hq : (l1.tokens_ ++ [t]).getLast? = some t := by simp
    simp only [hq, Option.some.injEq] at hlast
    subst hlast
    obtain ⟨l2, -, -, -, hs⟩ := Lexer.FindNextToken_tokenStep _ l0 l1 t hf
    rcases Lexer.findStep_ret_shape l2 t l1 hs with
      ⟨rfl, -⟩ | ⟨rfl | rfl, -⟩ | ⟨rfl, -⟩ | ⟨-, -, e⟩
    · simp [Structural] at ha
    · simp [Structural] at ha
    · simp [Structural] at ha
    · simp [Structural] at ha
    · exact e

/-- The call of `FindNextToken` behind a token `a` that is not structural returns
`Newline`, `Eof`, or a token that is not structural and starts in the same line: only
spaces stand before its first character, which is not a newline or `#`. -/
theorem Lexer.FindNextToken_after_word (n : Nat) (lx l1 : Lexer) (a t : Token)
    (hlast : lx.tokens_.getLast? = some a) (ha : Structural a = false)
    (hnl : lx.is_new_line_ = false) (h : Lexer.FindNextToken n lx = .ok (t, l1)) :
    t = Token.Newline ∨ t = Token.Eof ∨
    (Structural t = false ∧ ∃ k c cs, lx.input_.rest = List.replicate k ' ' ++ c :: cs ∧
      c ≠ ' ' ∧ c ≠ '\n' ∧ c ≠ '#' ∧ l1.input_.rest <:+ cs) := by
  refine Lexer.FindNextToken_rule
    (fun l => l.tokens_ = lx.tokens_ ∧ l.is_new_line_ = false ∧
      ((∃ k, lx.input_.rest = List.replicate k ' ' ++ l.input_.rest) ∨
        l.input_.failbit = true ∨ l.input_.rest.head? = some '\n'))
    (fun t l1 => t = Token.Newline ∨ t = Token.Eof ∨
      (Structural t = false ∧ ∃ k c cs, lx.input_.rest = List.replicate k ' ' ++ c :: cs ∧
        c ≠ ' ' ∧ c ≠ '\n' ∧ c ≠ '#' ∧ l1.input_.rest <:+ cs))
    ?_ ?_ n lx t l1 ⟨rfl, hnl, Or.inl ⟨0, by simp⟩⟩ h
  · rintro l l2 ⟨e, hl, hg⟩ hs
    obtain ⟨h1, -, h3⟩ := Lexer.findStep_after_word a ha l hl (by rw [e]; exact hlast)
    obtain ⟨e2, -, -⟩ := Lexer.findStep_again_shape l l2 hs
    obtain ⟨hl2, hg2⟩ := h1 l2 hs
    refine ⟨by rw [e2, e], hl2, ?_⟩
    rcases hg with ⟨k, hk⟩ | hc
    · rcases hg2 with ⟨m, hm⟩ | hc2
      · left
        refine ⟨k + m, ?_⟩
        rw [hk, hm, List.replicate_add, List.append_assoc]
      · exact Or.inr hc2
    · exact absurd hs (h3 hc l2)
  · rintro l t l2 ⟨e, hl, hg⟩ hs
    obtain ⟨-, h2, -⟩ := Lexer.findStep_after_word a ha l hl (by rw [e]; exact hlast)
    rcases h2 t l2 hs with r | r | ⟨hp, c, cs, hc, c1, c2, c3, hsuf⟩
    · exact Or.inl r
    · exact Or.inr (Or.inl r)
    · rcases hg with ⟨k, hk⟩ | hf | hh
      · exact Or.inr (Or.inr ⟨hp, k, c, cs, by rw [hk, hc], c1, c2, c3, hsuf⟩)
      · exfalso
        have := Lexer.findStep_notgood l l.input_.rest l.input_.eofbit l.input_.failbit rfl
          (Or.inr hf)
        rw [this] at hs
        simp only [Outcome.ok.injEq, Flow.ret.injEq] at hs
        rw [← hs.1] at hp
        simp [Structural] at hp
      · rw [hc] at hh
        simp only [List.head?_cons, Option.some.injEq] at hh
        exact absurd hh c2

/-- Every token of the final sequence that is not structural is the last token of a
state at the head of the loop: the state in which the lexer has just read it. -/
theorem Lexer.run_reaches (input : List Char) (final : Lexer) (p : List Token) (a : Token)
    (ha : Structural a = false) (hp : p ++ [a] <+: final.tokens_) :
    ∀ n lx, Lexer.Reachable input lx → Lexer.run (Lexer.budget input) n lx = .ok final →
      lx.tokens_ <+: p → ∃ l, Lexer.Reachable input l ∧ l.tokens_ = p ++ [a] := by
  intro n
  induction n with
  | zero => intro lx _ h; simp [Lexer.run] at h
  | succ n ih =>
    intro lx hr h hlx
    unfold Lexer.run at h
    by_cases hb : lx.input_.toBool = true
    · simp only [hb, if_true] at h
      cases hf : Lexer.FindNextToken (Lexer.budget input) lx with
      | exhausted => rw [hf] at h; simp at h
      | out_of_range => rw [hf] at h; simp at h
      | ok r =>
        obtain ⟨t, l1⟩ := r
        rw [hf] at h
        simp only [Outcome.bind_ok] at h
        have hr2 := Lexer.Reachable.round lx l1 t hr hb hf
        have hpre := Lexer.run_tokens_prefix _ _ _ _ h
        simp only at hpre
        obtain ⟨⟨pushed, e, hpushed⟩, -⟩ := Lexer.FindNextToken_pushed _ lx l1 t hf
        rcases List.prefix_or_prefix_of_prefix hpre hp with h1 | h1
        · rcases List.prefix_concat_iff.mp h1 with h2 | h2
          · exact ⟨_, hr2, h2⟩
          · exact ih _ hr2 h h2
        · obtain ⟨q, hq⟩ := hlx
          rw [e, ← hq, List.append_assoc, List.append_assoc,
            List.prefix_append_right_inj] at h1
          rcases List.prefix_concat_iff.mp h1 with h2 | h2
          · refine ⟨_, hr2, ?_⟩
            simp only
            rw [e, ← hq, List.append_assoc, List.append_assoc, h2]
          · obtain ⟨q2, hq2⟩ := h2
            have : a ∈ pushed := by rw [← hq2]; simp
            have := hpushed a this
            rw [ha] at this
            cases this
    · simp only [hb, Bool.false_eq_true, if_false, Outcome.ok.injEq] at h
      subst h
      have h1 := hp.length_le
      have h2 := hlx.length_le
      simp at h1
      omega

/-! ## The literals of an input -/

theorem closing_length (quote : Char) (l : List Char) :
    ∀ (escaped : Bool) (r : List Char), closing quote escaped l = some r → r.length < l.length := by
  induction l with
  | nil => intro e r h; cases e <;> simp [closing] at h
  | cons c cs ih =>
    intro e r h
    cases e with
    | true =>
      simp only [closing] at h
      have := ih false r h
      simp only [List.length_cons]
      omega
    | false =>
      simp only [closing] at h
      split_ifs at h with h1 h2
      · simp only [Option.some.injEq] at h
        subst h
        simp
      · have := ih true r h
        simp only [List.length_cons]
        omega
      · have := ih false r h
        simp only [List.length_cons]
        omega

/-- More steps than the text is long do not change the outcome of `scan`. -/
theorem scan_fuel : ∀ (n m : Nat) (l : List Char), l.length ≤ n → l.length ≤ m →
    scan n l = scan m l := by
  intro n
  induction n with
  | zero =>
    intro m l h1 h2
    have : l = [] := List.length_eq_zero.mp (by omega)
    subst this
    cases m <;> rfl
  | succ n ih =>
    intro m l h1 h2
    cases l with
    | nil => cases m <;> rfl
    | cons c cs =>
      cases m with
      | zero => simp at h2
      | succ m =>
        simp only [List.length_cons] at h1 h2
        simp only [scan]
        have hd1 : ∀ p : Char → Bool, (cs.dropWhile p).length ≤ cs.length :=
          fun p => (List.dropWhile_suffix p).length_le
        split_ifs
        · exact ih m _ (by have := hd1 (fun d => d != '\n'); omega)
            (by have := hd1 (fun d => d != '\n'); omega)
        · cases hc : closing c false cs with
          | none => rfl
          | some r =>
            have := closing_length c cs false r hc
            exact ih m r (by omega) (by omega)
        · exact ih m _ (by have := hd1 Lexer.IsNumber; omega)
            (by have := hd1 Lexer.IsNumber; omega)
        · rfl
        · exact ih m _ (by have := hd1 Lexer.IsId; omega) (by have := hd1 Lexer.IsId; omega)
        · exact ih m _ (by omega) (by omega)

theorem literals_nil : literals [] = .fine := rfl

/-- The literals of a text, by its first character. -/
theorem literals_cons (c : Char) (cs : List Char) :
    literals (c :: cs) =
      if c = '#' then literals (cs.dropWhile (fun d => d != '\n'))
      else if Lexer.IsString c then
        match closing c false cs with
        | none => .unterminated
        | some r => literals r
      else if Lexer.IsNumber c then
        if (decimalValue (c :: cs.takeWhile Lexer.IsNumber) : Int) ≤ INT_MAX then
          literals (cs.dropWhile Lexer.IsNumber)
        else .too_large
      else if Lexer.IsId c then literals (cs.dropWhile Lexer.IsId)
      else literals cs := by
  have hd1 : ∀ p : Char → Bool, (cs.dropWhile p).length ≤ cs.length :=
    fun p => (List.dropWhile_suffix p).length_le
  unfold literals
  simp only [List.length_cons, scan]
  split_ifs
  · exact scan_fuel _ _ _ (hd1 _) (le_refl _)
  · cases hc : closing c false cs with
    | none => rfl
    | some r =>
      have := closing_length c cs false r hc
      exact scan_fuel _ _ _ (by omega) (le_refl _)
  · exact scan_fuel _ _ _ (hd1 _) (le_refl _)
  · rfl
  · exact scan_fuel _ _ _ (hd1 _) (le_refl _)
  · rfl

/-- A character that opens no comment, literal or word stands alone. -/
theorem literals_skip (c : Char) (cs : List Char) (h1 : c ≠ '#')
    (h2 : Lexer.IsString c = false) (h3 : Lexer.IsNumber c = false)
    (h4 : Lexer.IsId c = false) : literals (c :: cs) = literals cs := by
  rw [literals_cons]
  simp [h1, h2, h3, h4]

theorem literals_spaces (k : Nat) (r : List Char) :
    literals (List.replicate k ' ' ++ r) = literals r := by
  induction k with
  | zero => simp
  | succ k ih =>
    rw [List.replicate_succ, List.cons_append,
      literals_skip ' ' _ (by decide) (by decide) (by decide) (by decide), ih]

theorem literals_dropWhile_space (r : List Char) :
    literals (r.dropWhile (fun c => c == ' ')) = literals r := by
  conv_rhs => rw [List.space_split r]
  rw [literals_spaces]

theorem spacesOnly_replicate (k : Nat) (hk : 0 < k) : SpacesOnly (List.replicate k ' ') := by
  refine ⟨?_, fun c hc => (List.mem_replicate.mp hc).2⟩
  intro h
  have := congrArg List.length h
  simp at this
  omega

theorem spacesInv_step (lx : Lexer) (flow : Flow) (h : Lexer.findStep lx = .ok flow)
    (hl : SpacesInv lx) : SpacesInv flow.lexer := by
  obtain ⟨⟨p, hp⟩, h2⟩ := Lexer.findStep_stream lx flow h
  refine ⟨?_, ?_⟩
  · intro hnl
    rcases h2 hnl with ⟨e1, e2⟩ | e1
    · rw [e1]; exact hl.1 e2
    · exact hl.2 [] _ (by simpa using e1)
  · intro pre suf e
    apply hl.2 (p ++ pre) suf
    rw [← hp, e]
    simp

theorem spacesInv_init (input : List Char) (h : ¬ LastLineSpaces input) :
    SpacesInv (Lexer.init input) := by
  refine ⟨fun _ hs => h (Or.inl hs), ?_⟩
  intro pre suf e hs
  simp only [Lexer.init] at e
  apply h
  right
  refine ⟨pre.length, by rw [e]; simp, by rw [e, List.getElem?_append_right (le_refl _)]; simp, ?_⟩
  rw [e]
  simpa using hs

theorem Lexer.stringEscape_stream (c : Char) (cs str : List Char) :
    (Lexer.stringEscape ⟨c :: cs, false, false⟩ str).2 = ⟨cs, false, false⟩ := by
  unfold Lexer.stringEscape
  simp only [IStream.peek_good_cons, IStream.get_good_cons]
  split_ifs <;> rfl

theorem Lexer.stringEscape_end (str : List Char) :
    (Lexer.stringEscape ⟨[], false, false⟩ str).2 = ⟨[], true, true⟩ := by
  simp [Lexer.stringEscape]

/-- The string loop stops before the closing quote, or with a failed stream when the
data end inside the literal. -/
theorem Lexer.readString_closing (quote : Char) (hq : quote ≠ chBackslash) (n : Nat) :
    ∀ (r str : List Char), r.length + 1 < n →
      ∃ str1, Lexer.readString quote n ⟨r, false, false⟩ str =
        .ok (str1, match closing quote false r with
          | some r1 => ⟨quote :: r1, false, false⟩
          | none => ⟨[], true, true⟩) := by
  induction n using Nat.strong_induction_on with
  | _ n ih =>
    intro r str h
    obtain ⟨n, rfl⟩ : ∃ m, n = m + 1 := ⟨n - 1, by omega⟩
    cases r with
    | nil =>
      obtain ⟨n, rfl⟩ : ∃ m, n = m + 1 := ⟨n - 1, by simp at h; omega⟩
      exact ⟨str ++ [Char.ofNat 255], by
        simp [Lexer.readString, IStream.toBool, Lexer.stringBody, toChar, closing]⟩
    | cons c cs =>
      simp only [List.length_cons] at h
      by_cases hc : c = quote
      · subst hc
        exact ⟨str, by simp [Lexer.readString, IStream.toBool, closing]⟩
      · have hstep : Lexer.readString quote (n + 1) ⟨c :: cs, false, false⟩ str =
            Lexer.readString quote n (Lexer.stringBody ⟨c :: cs, false, false⟩ str).2
              (Lexer.stringBody ⟨c :: cs, false, false⟩ str).1 := by
          simp [Lexer.readString, IStream.toBool, hc]
        rw [hstep]
        by_cases hb : c = chBackslash
        · subst hb
          cases cs with
          | nil =>
            have e : (Lexer.stringBody ⟨[chBackslash], false, false⟩ str).2 = ⟨[], true, true⟩ := by
              simp [Lexer.stringBody, Lexer.stringEscape_end]
            rw [e]
            obtain ⟨n, rfl⟩ : ∃ m, n = m + 1 := ⟨n - 1, by simp at h; omega⟩
            exact ⟨(Lexer.stringBody ⟨[chBackslash], false, false⟩ str).1, by
              simp [Lexer.readString, IStream.toBool, closing, hc]⟩
          | cons d ds =>
            have e : (Lexer.stringBody ⟨chBackslash :: d :: ds, false, false⟩ str).2 =
                ⟨ds, false, false⟩ := by
              simp [Lexer.stringBody, Lexer.stringEscape_stream]
            rw [e]
            simp only [List.length_cons] at h
            obtain ⟨str1, e1⟩ := ih n (by omega) ds
              (Lexer.stringBody ⟨chBackslash :: d :: ds, false, false⟩ str).1 (by omega)
            refine ⟨str1, ?_⟩
            rw [e1]
            simp [closing, hc]
        · have e : (Lexer.stringBody ⟨c :: cs, false, false⟩ str).2 = ⟨cs, false, false⟩ := by
            simp [Lexer.stringBody, hb]
          rw [e]
          obtain ⟨str1, e1⟩ := ih n (by omega) cs
            (Lexer.stringBody ⟨c :: cs, false, false⟩ str).1 (by omega)
          refine ⟨str1, ?_⟩
          rw [e1]
          simp [closing, hc, hb]

theorem Lexer.isString_ne (c : Char) (h : Lexer.IsString c = true) :
    c ≠ ' ' ∧ c ≠ '#' ∧ c ≠ '\n' ∧ c ≠ chBackslash ∧ Lexer.IsNumber c = false ∧
      Lexer.IsId c = false := by
  simp only [Lexer.IsString, Bool.or_eq_true, beq_iff_eq] at h
  rcases h with rfl | rfl <;> decide

/-- The pass that reads a string literal: the stream is left behind the closing quote,
or failed when the data end inside the literal. -/
theorem Lexer.findStep_string (lx : Lexer) (k : Nat) (c : Char) (cs : List Char)
    (hs : lx.input_ = ⟨List.replicate k ' ' ++ c :: cs, false, false⟩) (hm : lx.AtMain k c)
    (hc : Lexer.IsString c = true) :
    ∃ str, Lexer.findStep lx = .ok (.ret (Token.String (String.mk str))
      { lx with
        input_ := (match closing c false cs with
          | some r1 => (⟨r1, false, false⟩ : IStream)
          | none => ⟨[], true, true⟩),
        is_new_line_ := false }) := by
  obtain ⟨n1, n2, n3, n4, -, -⟩ := Lexer.isString_ne c hc
  obtain ⟨str, e⟩ := Lexer.readString_closing c n4 (cs.length + 3) cs [] (by omega)
  have hmain : Lexer.findMain { lx with input_ := ⟨c :: cs, false, false⟩, is_new_line_ := false } =
      .ok (.ret (Token.String (String.mk str))
        { lx with
          input_ := (match closing c false cs with
            | some r1 => (⟨r1, false, false⟩ : IStream)
            | none => ⟨[], true, true⟩),
          is_new_line_ := false }) := by
    rw [Lexer.findMain_good _ c cs rfl]
    simp only [n1, n2, hc, if_false, if_true, e, Outcome.bind_ok]
    cases closing c false cs <;> rfl
  refine ⟨str, ?_⟩
  rcases hm with ⟨hnl, hk, -, -⟩ | ⟨hnl, rfl⟩
  · rw [Lexer.findStep_line_start lx k c cs hnl hs n1 n3]
    have := (Lexer.indentStep_count
      { lx with input_ := ⟨c :: cs, false, false⟩, is_new_line_ := false } k).2.2 hk.symm
    rw [this]
    simp only [Outcome.bind_ok]
    exact hmain
  · obtain ⟨s, toks, ind, nl⟩ := lx
    simp only at hs hnl
    subst hs hnl
    simp only [List.replicate_zero, List.nil_append] at hmain ⊢
    rw [Lexer.findStep_good _ c cs rfl]
    simp only [Lexer.findIndent, Bool.false_eq_true, if_false, Outcome.bind_ok]
    exact hmain

theorem Lexer.isNumber_ne (c : Char) (h : Lexer.IsNumber c = true) :
    c ≠ '#' ∧ Lexer.IsString c = false := by
  refine ⟨?_, ?_⟩
  · rintro rfl; revert h; decide
  · cases hs : Lexer.IsString c with
    | false => rfl
    | true => rw [(Lexer.isString_ne c hs).2.2.2.2.1] at h; cases h

theorem Lexer.isId_ne (c : Char) (h : Lexer.IsId c = true) :
    c ≠ '#' ∧ Lexer.IsString c = false := by
  refine ⟨?_, ?_⟩
  · rintro rfl; revert h; decide
  · cases hs : Lexer.IsString c with
    | false => rfl
    | true => rw [(Lexer.isString_ne c hs).2.2.2.2.2] at h; cases h

theorem literals_number (c : Char) (cs : List Char) (h : Lexer.IsNumber c = true) :
    literals (c :: cs) =
      if (decimalValue (c :: cs.takeWhile Lexer.IsNumber) : Int) ≤ INT_MAX then
        literals (cs.dropWhile Lexer.IsNumber)
      else .too_large := by
  obtain ⟨h1, h2⟩ := Lexer.isNumber_ne c h
  rw [literals_cons]
  simp [h1, h2, h]

theorem literals_word (c : Char) (cs : List Char) (h : Lexer.IsId c = true)
    (hn : Lexer.IsNumber c = false) :
    literals (c :: cs) = literals (cs.dropWhile Lexer.IsId) := by
  obtain ⟨h1, h2⟩ := Lexer.isId_ne c h
  rw [literals_cons]
  simp [h1, h2, h, hn]

theorem literals_comment (cs : List Char) :
    literals ('#' :: cs) = literals (cs.dropWhile (fun d => d != '\n')) := by
  rw [literals_cons]
  simp

theorem literals_string (c : Char) (cs : List Char) (h : Lexer.IsString c = true) :
    literals (c :: cs) =
      match closing c false cs with
      | none => .unterminated
      | some r => literals r := by
  rw [literals_cons]
  simp [(Lexer.isString_ne c h).2.1, h]

theorem literals_newline (cs : List Char) : literals ('\n' :: cs) = literals cs :=
  literals_skip '\n' cs (by decide) (by decide) (by decide) (by decide)

/-- Every pass from a stream that has not failed reads the literals as `literals`
does. -/
theorem Lexer.findStep_literals (lx : Lexer) :
    lx.input_.failbit = false → (lx.input_.eofbit = true → lx.input_.rest = []) →
      Lexer.LiteralsStep lx (Lexer.findStep lx) := by
  have key : (Lexer.findStep lx = Lexer.findStep lx →
      lx.input_.failbit = false → (lx.input_.eofbit = true → lx.input_.rest = []) →
      Lexer.LiteralsStep lx (Lexer.findStep lx)) := by
    refine Lexer.findStep_cases
      (fun lx res => res = Lexer.findStep lx →
        lx.input_.failbit = false → (lx.input_.eofbit = true → lx.input_.rest = []) →
        Lexer.LiteralsStep lx res)
      ?_ ?_ ?_ ?_ ?_ ?_ ?_ ?_ ?_ ?_ ?_ ?_ ?_ lx
    · rintro lx r e f hs hef - hf he
      rw [hs] at hf he
      simp only at hf he
      subst hf
      have he1 : e = true := by simpa using hef
      have hr := he he1
      subst hr
      refine ⟨fun h => by simp at h, fun flow h => ?_⟩
      simp only [Outcome.ok.injEq] at h
      subst h
      refine ⟨fun h => by simp [Flow.lexer] at h, fun _ => ?_⟩
      rw [hs]
      refine ⟨by simp [literals_nil], fun t l1 h hne => ?_, fun _ => literals_nil⟩
      simp only [Flow.ret.injEq] at h
      exact absurd h.1.symm hne
    · rintro lx hs - - -
      refine ⟨fun h => by simp at h, fun flow h => ?_⟩
      simp only [Outcome.ok.injEq] at h
      subst h
      refine ⟨fun _ => ?_, fun h => by simp [Flow.lexer] at h⟩
      rw [hs]
      simp [Flow.lexer]
    · rintro lx k cs hs - - - -
      refine ⟨fun h => by simp at h, fun flow h => ?_⟩
      simp only [Outcome.ok.injEq] at h
      subst h
      refine ⟨fun _ => ?_, fun h => by simp [Flow.lexer] at h⟩
      rw [hs]
      simp [Flow.lexer, literals_spaces]
    · rintro lx k r1 hs hpos hnl - - - - - -
      refine ⟨fun h => by simp at h, fun flow h => ?_⟩
      simp only [Outcome.ok.injEq] at h
      have e := (Lexer.indentStep_lexer
        { lx with input_ := (IStream.upTo r1).peek.2, is_new_line_ := false } k).1
      rw [h] at e
      rw [e, hs]
      cases r1 with
      | nil =>
        simp only [List.append_nil, List.length_nil, add_zero] at hpos ⊢
        refine ⟨fun h => by simp at h, fun _ => ?_⟩
        have hl : literals (List.replicate k ' ') = .fine := by
          have := literals_spaces k []
          simpa [literals_nil] using this
        refine ⟨by simp [hl], fun _ _ _ _ => Or.inr ⟨hnl, spacesOnly_replicate k hpos⟩,
          fun _ => hl⟩
      | cons d ds =>
        refine ⟨fun _ => ?_, fun h => by simp at h⟩
        simp [literals_spaces]
    · rintro lx k hs hk hnl - - - -
      refine ⟨fun h => by simp at h, fun flow h => ?_⟩
      simp only [Outcome.ok.injEq] at h
      subst h
      refine ⟨fun h => by simp [Flow.lexer] at h, fun _ => ?_⟩
      rw [hs]
      have hl : literals (List.replicate k ' ') = .fine := by
        have := literals_spaces k []
        simpa [literals_nil] using this
      exact ⟨by simp [hl], fun _ _ _ _ => Or.inr ⟨hnl, spacesOnly_replicate k hk⟩, fun _ => hl⟩
    · rintro lx cs hs - - - -
      refine ⟨fun h => by simp at h, fun flow h => ?_⟩
      simp only [Outcome.ok.injEq] at h
      subst h
      refine ⟨fun _ => ?_, fun h => by simp [Flow.lexer, IStream.upTo] at h⟩
      rw [hs]
      simp only [Flow.lexer, IStream.upTo]
      refine ⟨?_, fun h => by simpa using h⟩
      rw [literals_dropWhile_space,
        literals_skip ' ' cs (by decide) (by decide) (by decide) (by decide)]
    · rintro lx k c cs hs - hc - - -
      subst hc
      refine ⟨fun h => by simp at h, fun flow h => ?_⟩
      simp only [Outcome.ok.injEq] at h
      subst h
      rw [hs]
      simp only [Flow.lexer, literals_spaces, literals_comment, IStream.afterComment]
      split_ifs with hd
      · refine ⟨fun h => by simp at h, fun _ => ?_⟩
        rw [hd]
        exact ⟨by simp [literals_nil], fun t l1 h => by simp at h, fun _ => literals_nil⟩
      · exact ⟨fun _ => ⟨rfl, fun h => by simp at h⟩, fun h => by simp at h⟩
    · rintro lx k c cs str s1 hs hm hc - heq - -
      obtain ⟨str2, e⟩ := Lexer.findStep_string lx k c cs hs hm hc
      rw [e] at heq
      simp only [Outcome.ok.injEq, Flow.ret.injEq, Lexer.mk.injEq] at heq
      obtain ⟨-, hst, -⟩ := heq
      refine ⟨fun h => by simp at h, fun flow h => ?_⟩
      simp only [Outcome.ok.injEq] at h
      subst h
      rw [hs]
      simp only [Flow.lexer, hst, literals_spaces, literals_string c cs hc]
      cases closing c false cs with
      | none =>
        refine ⟨fun h => by simp at h, fun _ => ?_⟩
        refine ⟨by simp, fun _ _ _ _ => Or.inl rfl, fun h => ?_⟩
        have := h _ _ rfl
        simp at this
      | some r1 => exact ⟨fun _ => ⟨rfl, fun h => by simp at h⟩, fun h => by simp at h⟩
    · rintro lx k c cs hs - hc - - -
      unfold Lexer.LiteralsStep
      rw [hs]
      simp only [literals_spaces, literals_number c cs hc, stoi]
      split_ifs with hfit
      · refine ⟨fun h => by simp at h, fun flow h => ?_⟩
        simp only [Outcome.bind_ok, Outcome.ok.injEq] at h
        subst h
        simp only [Flow.lexer, IStream.upTo]
        exact ⟨fun _ => ⟨trivial, fun h => by simpa using h⟩, fun h => by simp at h⟩
      · exact ⟨fun _ => rfl, fun flow h => by simp [Outcome.bind] at h⟩
    · rintro lx cs hs - - - - -
      refine ⟨fun h => by simp at h, fun flow h => ?_⟩
      simp only [Outcome.ok.injEq] at h
      subst h
      rw [hs]
      simp only [Flow.lexer, literals_newline]
      exact ⟨fun _ => ⟨trivial, fun h => by simp at h⟩, fun h => by simp at h⟩
    · rintro lx cs hs - - - - - -
      refine ⟨fun h => by simp at h, fun flow h => ?_⟩
      simp only [Outcome.ok.injEq] at h
      subst h
      rw [hs]
      simp only [Flow.lexer, literals_newline]
      exact ⟨fun _ => ⟨trivial, fun h => by simp at h⟩, fun h => by simp at h⟩
    · rintro lx k c cs hs - hc hn - - -
      refine ⟨fun h => by simp at h, fun flow h => ?_⟩
      simp only [Outcome.ok.injEq] at h
      subst h
      rw [hs]
      simp only [Flow.lexer, IStream.upTo, literals_spaces, literals_word c cs hc hn]
      exact ⟨fun _ => ⟨trivial, fun h => by simpa using h⟩, fun h => by simp at h⟩
    · rintro lx k c cs hs - h1 h2 h3 h4 h5 h6 - - -
      refine ⟨fun h => by simp at h, fun flow h => ?_⟩
      simp only [Outcome.ok.injEq] at h
      subst h
      rw [hs]
      simp only [Flow.lexer, literals_spaces, literals_skip c cs h2 h3 h4 h6]
      rcases Lexer.findSymbol_stream c cs with e | e | ⟨cs1, hcs, e⟩
      · rw [e]
        simp only [IStream.upTo]
        exact ⟨fun _ => ⟨trivial, fun h => by simpa using h⟩, fun h => by simp at h⟩
      · rw [e]
        exact ⟨fun _ => ⟨rfl, fun h => by simp at h⟩, fun h => by simp at h⟩
      · rw [e, hcs]
        refine ⟨fun _ => ⟨?_, fun h => by simp at h⟩, fun h => by simp at h⟩
        exact (literals_skip '=' cs1 (by decide) (by decide) (by decide) (by decide)).symm
  exact key rfl

/-- A call of `FindNextToken` reads the literals as `literals` does: it raises
`std::out_of_range` only at a number that is too large; with a stream that has not
failed it keeps the invariant; and when it leaves the stream failed, no number was too
large, `Eof` is returned only when all literals were fine, and another token only
inside a string literal that is not closed or on a last line of spaces. -/
theorem Lexer.FindNextToken_literals (noSpaces : Prop) (v : Literals) (n : Nat) :
    ∀ lx, Lexer.LiteralsInv noSpaces v lx →
      (Lexer.FindNextToken n lx = .out_of_range → v = .too_large) ∧
      ∀ t l1, Lexer.FindNextToken n lx = .ok (t, l1) →
        (l1.input_.failbit = false →
          (l1.input_.eofbit = true → l1.input_.rest = []) ∧ (noSpaces → SpacesInv l1) ∧
          literals l1.input_.rest = v) ∧
        (l1.input_.failbit = true →
          v ≠ .too_large ∧ (t = Token.Eof → v = .fine) ∧
          (t ≠ Token.Eof → v = .unterminated ∨ ¬ noSpaces)) := by
  induction n with
  | zero => intro lx _; simp [Lexer.FindNextToken]
  | succ n ih =>
    intro lx hinv
    unfold Lexer.FindNextToken
    rcases hinv with ⟨hf, he, hsp, hv⟩ | ⟨hf, hv⟩
    · obtain ⟨p1, p2⟩ := Lexer.findStep_literals lx hf he
      cases hs : Lexer.findStep lx with
      | exhausted => simp
      | out_of_range =>
        refine ⟨fun _ => ?_, fun t l1 h => by simp at h⟩
        rw [← hv]
        exact p1 hs
      | ok flow =>
        obtain ⟨q1, q2⟩ := p2 flow hs
        cases flow with
        | ret t2 l2 =>
          refine ⟨fun h => by simp at h, fun t l1 h => ?_⟩
          simp only [Outcome.bind_ok, Outcome.ok.injEq, Prod.mk.injEq] at h
          obtain ⟨rfl, rfl⟩ := h
          simp only [Flow.lexer] at q1 q2
          refine ⟨fun hf2 => ?_, fun hf2 => ?_⟩
          · obtain ⟨r1, r2⟩ := q1 hf2
            exact ⟨r2, fun hq => spacesInv_step lx _ hs (hsp hq), by rw [r1, hv]⟩
          · obtain ⟨r1, r2, r3⟩ := q2 hf2
            rw [hv] at r1 r2 r3
            refine ⟨r1, fun ht => r3 (fun t l1 h => ?_), fun hne => ?_⟩
            · simp only [Flow.ret.injEq] at h
              rw [← h.1]; exact ht
            · rcases r2 _ _ rfl hne with r | ⟨r4, r5⟩
              · exact Or.inl r
              · exact Or.inr (fun hq => (hsp hq).1 r4 r5)
        | again l2 =>
          simp only [Outcome.bind_ok]
          simp only [Flow.lexer] at q1 q2
          apply ih l2
          cases hf2 : l2.input_.failbit with
          | false =>
            obtain ⟨r1, r2⟩ := q1 hf2
            exact Or.inl ⟨hf2, r2, fun hq => spacesInv_step lx _ hs (hsp hq), by rw [r1, hv]⟩
          | true =>
            obtain ⟨-, -, r3⟩ := q2 hf2
            rw [hv] at r3
            exact Or.inr ⟨hf2, r3 (fun t l1 h => by simp at h)⟩
        | next l2 => exact absurd hs (Lexer.findStep_ne_next lx l2)
    · have := Lexer.findStep_notgood lx lx.input_.rest lx.input_.eofbit lx.input_.failbit rfl
        (Or.inr hf)
      rw [this]
      refine ⟨fun h => by simp at h, fun t l1 h => ?_⟩
      simp only [Outcome.bind_ok, Outcome.ok.injEq, Prod.mk.injEq] at h
      obtain ⟨rfl, rfl⟩ := h
      refine ⟨fun h => by simp at h, fun _ => ⟨by simp [hv], fun _ => hv, fun h => absurd rfl h⟩⟩

/-- The loop of the constructor reads the literals as `literals` does. -/
theorem Lexer.run_literals (noSpaces : Prop) (v : Literals) (b n : Nat) :
    ∀ lx, lx.input_.failbit = false → (lx.input_.eofbit = true → lx.input_.rest = []) →
      (noSpaces → SpacesInv lx) → literals lx.input_.rest = v →
      (Lexer.run b n lx = .out_of_range → v = .too_large) ∧
      ∀ final, Lexer.run b n lx = .ok final →
        v ≠ .too_large ∧
        (final.tokens_.getLast? = some Token.Eof → v = .fine) ∧
        (v = .fine → noSpaces → final.tokens_.getLast? = some Token.Eof) := by
  induction n with
  | zero => intro lx _ _ _ _; simp [Lexer.run]
  | succ n ih =>
    intro lx hf he hsp hv
    unfold Lexer.run
    have hb : lx.input_.toBool = true := by simp [IStream.toBool, hf]
    simp only [hb, if_true]
    obtain ⟨p1, p2⟩ := Lexer.FindNextToken_literals noSpaces v b lx (Or.inl ⟨hf, he, hsp, hv⟩)
    cases hr : Lexer.FindNextToken b lx with
    | exhausted => simp
    | out_of_range => exact ⟨fun _ => p1 hr, fun final h => by simp at h⟩
    | ok r =>
      obtain ⟨t, l1⟩ := r
      obtain ⟨q1, q2⟩ := p2 t l1 hr
      simp only [Outcome.bind_ok]
      cases hf2 : l1.input_.failbit with
      | false =>
        obtain ⟨r1, r2, r3⟩ := q1 hf2
        exact ih { l1 with tokens_ := l1.tokens_ ++ [t] } hf2 r1 r2 r3
      | true =>
        obtain ⟨r1, r2, r3⟩ := q2 hf2
        cases n with
        | zero => simp [Lexer.run]
        | succ n =>
          unfold Lexer.run
          simp only [IStream.toBool, hf2, Bool.not_true, Bool.false_eq_true, if_false]
          refine ⟨fun h => by simp at h, fun final h => ?_⟩
          simp only [Outcome.ok.injEq] at h
          subst h
          have hq : (l1.tokens_ ++ [t]).getLast? = some t := by simp
          simp only [hq, Option.some.injEq]
          refine ⟨r1, r2, fun h1 h2 => ?_⟩
          by_contra hne
          rcases r3 hne with r | r
          · rw [h1] at r; cases r
          · exact r h2


/-! ## Claims about the lexer -/

set_option maxRecDepth 100000

/-- C1, as stated, fails: on the input with lines indented by 0, 1, 2 and 3 spaces the
tokens before the first `Eof` hold three `Indent` and two `Dedent` tokens, and the
whole sequence holds three `Indent` and four `Dedent` tokens. -/
theorem Lexer.indent_dedent_unbalanced_odd :
    Lexer.tokens "a\n b\n  c\n   d\n".toList =
      .ok ([Token.Id "a", Token.Newline, Token.Indent, Token.Id "b", Token.Newline,
            Token.Indent, Token.Id "c", Token.Newline, Token.Indent, Token.Id "d",
            Token.Newline, Token.Dedent, Token.Dedent] ++
           Token.Eof :: [Token.Dedent, Token.Dedent, Token.Eof]) ∧
    List.count Token.Indent
      [Token.Id "a", Token.Newline, Token.Indent, Token.Id "b", Token.Newline,
       Token.Indent, Token.Id "c", Token.Newline, Token.Indent, Token.Id "d",
       Token.Newline, Token.Dedent, Token.Dedent] = 3 ∧
    List.count Token.Dedent
      [Token.Id "a", Token.Newline, Token.Indent, Token.Id "b", Token.Newline,
       Token.Indent, Token.Id "c", Token.Newline, Token.Indent, Token.Id "d",
       Token.Newline, Token.Dedent, Token.Dedent] = 2 := by
  decide

/-- C1, amended: for every input in which every line whose leading spaces are not
directly followed by a newline starts with an even number of spaces, the tokens the
Lexer has produced when the first `Eof` is emitted contain exactly as many `Indent` as
`Dedent` tokens. -/
theorem Lexer.indent_dedent_balanced_of_even (input : List Char) (ts : List Token)
    (heven : EvenIndented input) (h : Lexer.tokens input = .ok ts)
    (pre post : List Token) (hsplit : ts = pre ++ Token.Eof :: post)
    (hfirst : Token.Eof ∉ pre) :
    pre.count Token.Indent = pre.count Token.Dedent :=
  Lexer.tokens_balanced input ts heven h pre post hsplit hfirst

/-- The amended C1 at the input `a`, newline, two spaces, `b`, newline. -/
theorem Lexer.indent_dedent_balanced_of_even_witness :
    EvenIndented "a\n  b\n".toList ∧
    Lexer.tokens "a\n  b\n".toList =
      .ok ([Token.Id "a", Token.Newline, Token.Indent, Token.Id "b", Token.Newline,
            Token.Dedent] ++ Token.Eof :: [Token.Dedent, Token.Eof]) ∧
    List.count Token.Indent [Token.Id "a", Token.Newline, Token.Indent, Token.Id "b",
      Token.Newline, Token.Dedent] =
    List.count Token.Dedent [Token.Id "a", Token.Newline, Token.Indent, Token.Id "b",
      Token.Newline, Token.Dedent] :=
  ⟨by decide, by decide,
   Lexer.indent_dedent_balanced_of_even "a\n  b\n".toList _ (by decide) (by decide)
     [Token.Id "a", Token.Newline, Token.Indent, Token.Id "b", Token.Newline, Token.Dedent]
     [Token.Dedent, Token.Eof] rfl (by decide)⟩

/-- C2: for every input the token sequence the Lexer produces never contains two
`Newline` tokens at adjacent positions. -/
theorem Lexer.no_adjacent_newlines (input : List Char) (ts : List Token)
    (h : Lexer.tokens input = .ok ts) : NoAdjacentNewlines ts :=
  (noAdjacentNewlines_iff ts).mpr (Lexer.tokens_chain input ts h)

/-- C2 at an input with blank lines, a comment line and trailing newlines. -/
theorem Lexer.no_adjacent_newlines_witness :
    Lexer.tokens "a\n\n  \n# c\nb\n\n".toList =
      .ok [Token.Id "a", Token.Newline, Token.Id "b", Token.Newline, Token.Eof,
           Token.Newline, Token.Eof] ∧
    NoAdjacentNewlines [Token.Id "a", Token.Newline, Token.Id "b", Token.Newline, Token.Eof,
           Token.Newline, Token.Eof] :=
  ⟨by decide, Lexer.no_adjacent_newlines "a\n\n  \n# c\nb\n\n".toList _ (by decide)⟩

/-- C3: lexing `if a:`, newline, `  b`, newline, `  c`, newline, `d`, newline yields a
token sequence that begins with exactly If, Id(a), Char(:), Newline, Indent, Id(b),
Newline, Id(c), Newline, Dedent, Id(d), Newline, Eof; the second end-of-file round of
the constructor loop adds Newline, Eof after them. -/
theorem Lexer.tokens_if_block :
    Lexer.tokens "if a:\n  b\n  c\nd\n".toList =
      .ok ([Token.If, Token.Id "a", Token.Char ':', Token.Newline, Token.Indent,
            Token.Id "b", Token.Newline, Token.Id "c", Token.Newline, Token.Dedent,
            Token.Id "d", Token.Newline, Token.Eof] ++ [Token.Newline, Token.Eof]) := by
  decide

/-- C4, as stated, fails: a run of twenty digits makes the constructor raise
`std::out_of_range`; an unterminated string literal leaves a token sequence that
consists of one `String` token (with the byte 0xFF that `get()` returned at the end of
the data) and does not end in `Eof`; and so does a last line of spaces only, behind
which the constructor stops at the `Indent` token. -/
theorem Lexer.not_total :
    Lexer.tokens "99999999999999999999".toList = .out_of_range ∧
    Lexer.tokens [chQuote, 'a', 'b', 'c'] =
      .ok [Token.String (String.mk ['a', 'b', 'c', Char.ofNat 255])] ∧
    Lexer.tokens "a\n  ".toList = .ok [Token.Id "a", Token.Newline, Token.Indent] := by
  decide

/-- C4, amended: for every input the constructor of the Lexer terminates.  It raises a
failure, the `std::out_of_range` of `std::stoi`, exactly when a number of the input
(a run of digits outside comments, string literals and words) does not fit an `int`.
When every number fits, every string literal outside a comment is closed and the last
line is not a run of spaces only, it completes with a token sequence whose last token is
`Eof`.  Whenever it completes the token sequence is not empty, and it ends in `Eof` only
if all literals are fine. -/
theorem Lexer.terminates_and_ends (input : List Char) :
    Lexer.tokens input ≠ .exhausted ∧
    (Lexer.tokens input = .out_of_range ↔ literals input = .too_large) ∧
    (literals input = .fine → ¬ LastLineSpaces input →
      ∃ ts, Lexer.tokens input = .ok ts ∧ ts.getLast? = some Token.Eof) ∧
    (∀ ts, Lexer.tokens input = .ok ts →
      ts ≠ [] ∧ (ts.getLast? = some Token.Eof → literals input = .fine)) := by
  have hex : Lexer.new input ≠ .exhausted := Lexer.new_total input
  have hrun := fun (noSpaces : Prop) (hsp : noSpaces → SpacesInv (Lexer.init input)) =>
    Lexer.run_literals noSpaces (literals input) (Lexer.budget input) (Lexer.budget input)
      (Lexer.init input) rfl (fun h => by simp [Lexer.init] at h) hsp rfl
  obtain ⟨a1, a2⟩ := hrun (¬ LastLineSpaces input) (spacesInv_init input)
  change (Lexer.new input = .out_of_range → _) at a1
  change (∀ final, Lexer.new input = .ok final → _) at a2
  unfold Lexer.tokens
  cases hn : Lexer.new input with
  | exhausted => exact absurd hn hex
  | out_of_range =>
    refine ⟨by simp, ⟨fun _ => a1 hn, fun _ => rfl⟩, fun h1 _ => ?_, fun ts h => by simp at h⟩
    rw [a1 hn] at h1
    cases h1
  | ok final =>
    obtain ⟨b1, b2, b3⟩ := a2 final hn
    refine ⟨by simp, ⟨fun h => by simp at h, fun h => absurd h b1⟩,
      fun h1 h2 => ⟨final.tokens_, rfl, b3 h1 h2⟩, fun ts h => ?_⟩
    simp only [Outcome.bind_ok, Outcome.ok.injEq] at h
    subst h
    exact ⟨Lexer.new_tokens_ne_nil input final hn, b2⟩

/-- The amended C4 at three inputs.  With a closed string literal and a number that is
too large only inside a comment, and with a space at the end of the last line, the
constructor completes and the last token is `Eof`; with a number that is too large it
raises `std::out_of_range`. -/
theorem Lexer.terminates_and_ends_witness :
    (literals ("x = ".toList ++ [chQuote, 'a', 'b', 'c', chQuote] ++
        " # 99999999999\n".toList) = .fine ∧
      ¬ LastLineSpaces ("x = ".toList ++ [chQuote, 'a', 'b', 'c', chQuote] ++
        " # 99999999999\n".toList) ∧
      ∃ ts, Lexer.tokens ("x = ".toList ++ [chQuote, 'a', 'b', 'c', chQuote] ++
          " # 99999999999\n".toList) = .ok ts ∧
        ts.getLast? = some Token.Eof) ∧
    (literals "a ".toList = .fine ∧ ¬ LastLineSpaces "a ".toList ∧
      ∃ ts, Lexer.tokens "a ".toList = .ok ts ∧ ts.getLast? = some Token.Eof) ∧
    (literals "x = 99999999999\n".toList = .too_large ∧
      Lexer.tokens "x = 99999999999\n".toList = .out_of_range) :=
  ⟨⟨by decide, by decide,
     (Lexer.terminates_and_ends ("x = ".toList ++ [chQuote, 'a', 'b', 'c', chQuote] ++
        " # 99999999999\n".toList)).2.2.1 (by decide) (by decide)⟩,
   ⟨by decide, by decide,
     (Lexer.terminates_and_ends "a ".toList).2.2.1 (by decide) (by decide)⟩,
   ⟨by decide, (Lexer.terminates_and_ends "x = 99999999999\n".toList).2.1.mpr (by decide)⟩⟩

/-! ## Claims about the evaluator -/

/-- C5, the code at the failing input: for every number `a` on the left, `Div` with the
number 0 on the right takes the branch for two numbers and evaluates `a / 0`, which is
undefined behaviour; no `std::runtime_error` with the text "Division by zero" is thrown. -/
theorem Div_by_zero_undefined (a : Int) :
    Execute 2 (.Div (.VariableValue ["a"]) (.VariableValue ["b"]))
      [("a", ObjectHolder.Number a), ("b", ObjectHolder.Number 0)] ⟨"", []⟩ = .undefined := by
  simp [Execute, lookupPath, List.lookup, Exec.andThen, applyDiv, TryAsNumber, intDiv]

/-- C7: `MethodBody::Execute` returns the value of the first `return` that is executed,
at whatever depth inside `Compound` and `IfElse` nodes it stands, in the state right
after the returned expression was evaluated, whatever statements follow it; and when the
body ends without a `return`, it returns `None` whatever the value of the body. -/
theorem MethodBody_returns_first_return :
    (∀ (place : Place) (n : Nat) (e : Statement) (closure : Closure) (context : Context)
        (closure1 : Closure) (context1 : Context) (value : ObjectHolder)
        (state : Closure × Context),
      place.reaches (n + 1) closure context closure1 context1 →
      Execute n e closure1 context1 = .ok value state →
      Execute (n + 1 + place.depth + 1) (.MethodBody (place.fill (.Return e))) closure context =
        .ok value state) ∧
    (∀ (n : Nat) (body : Statement) (closure : Closure) (context : Context)
        (value : ObjectHolder) (state : Closure × Context),
      Execute n body closure context = .ok value state →
      Execute (n + 1) (.MethodBody body) closure context = .ok ObjectHolder.None state) := by
  refine ⟨?_, ?_⟩
  · intro place n e closure context closure1 context1 value state hreach he
    have hret : Execute (n + 1) (.Return e) closure1 context1 = .returning value state := by
      simp only [Execute, he, Exec.andThen]
    have := Place.returning_propagates place (n + 1) (.Return e) closure context closure1
      context1 value state hreach hret
    simp only [Execute, this]
  · intro n body closure context value state h
    simp only [Execute, h]

/-- C7 at a body that assigns `x`, then returns `x` inside an `if` inside the compound,
with a failing lookup after the `return` and another after the `if`: the value of `x`
is returned and the lookups are not executed.  A body that is only the assignment
returns `None`. -/
theorem MethodBody_returns_first_return_witness :
    Execute 6
        (.MethodBody (.Compound [.Assignment "x" (.VariableValue ["a"]),
          .IfElse (.VariableValue ["a"])
            (.Compound [.Return (.VariableValue ["x"]), .VariableValue ["missing"]]) none,
          .VariableValue ["missing"]]))
        [("a", ObjectHolder.Number 5)] ⟨"", []⟩ =
      .ok (ObjectHolder.Number 5)
        ([("a", ObjectHolder.Number 5), ("x", ObjectHolder.Number 5)], ⟨"", []⟩) ∧
    Execute 3 (.MethodBody (.Assignment "x" (.VariableValue ["a"])))
        [("a", ObjectHolder.Number 5)] ⟨"", []⟩ =
      .ok ObjectHolder.None
        ([("a", ObjectHolder.Number 5), ("x", ObjectHolder.Number 5)], ⟨"", []⟩) :=
  ⟨MethodBody_returns_first_return.1
      (.inCompound [.Assignment "x" (.VariableValue ["a"])]
        (.inThen (.VariableValue ["a"])
          (.inCompound [] .here [.VariableValue ["missing"]]) none)
        [.VariableValue ["missing"]])
      1 (.VariableValue ["x"]) [("a", ObjectHolder.Number 5)] ⟨"", []⟩
      [("a", ObjectHolder.Number 5), ("x", ObjectHolder.Number 5)] ⟨"", []⟩
      (ObjectHolder.Number 5)
      ([("a", ObjectHolder.Number 5), ("x", ObjectHolder.Number 5)], ⟨"", []⟩)
      ⟨ObjectHolder.None, _, _, rfl, ObjectHolder.Number 5, _, _, rfl, rfl,
        ObjectHolder.None, _, _, rfl, rfl, rfl⟩
      rfl,
   MethodBody_returns_first_return.2 2 (.Assignment "x" (.VariableValue ["a"]))
      [("a", ObjectHolder.Number 5)] ⟨"", []⟩ (ObjectHolder.Number 5) _ rfl⟩

/-- C8, the code at the failing input: class `C` has no `__init__`.  The first execution
of the node `NewInstance(C)` returns a handle to the instance that is a member of the
node, with no fields; after the field `f` is assigned through that handle, the second
execution of the same node returns a handle to the same instance, whose fields now
hold `f`. -/
theorem NewInstance_returns_same_instance :
    Execute 1 (.NewInstance (.mk (.mk "C" [] none) 0) []) [] ⟨"", []⟩ =
      .ok (ObjectHolder.ClassInstance (.mk (.mk "C" [] none) 0)) ([], ⟨"", []⟩) ∧
    Context.Fields ⟨"", []⟩ (.mk (.mk "C" [] none) 0) = [] ∧
    Execute 2 (.FieldAssignment ["x"] "f" (.VariableValue ["one"]))
        [("x", ObjectHolder.ClassInstance (.mk (.mk "C" [] none) 0)),
         ("one", ObjectHolder.Number 1)] ⟨"", []⟩ =
      .ok (ObjectHolder.Number 1)
        ([("x", ObjectHolder.ClassInstance (.mk (.mk "C" [] none) 0)),
          ("one", ObjectHolder.Number 1)],
         ⟨"", [(0, [("f", ObjectHolder.Number 1)])]⟩) ∧
    Execute 1 (.NewInstance (.mk (.mk "C" [] none) 0) []) []
        ⟨"", [(0, [("f", ObjectHolder.Number 1)])]⟩ =
      .ok (ObjectHolder.ClassInstance (.mk (.mk "C" [] none) 0))
        ([], ⟨"", [(0, [("f", ObjectHolder.Number 1)])]⟩) ∧
    Context.Fields ⟨"", [(0, [("f", ObjectHolder.Number 1)])]⟩ (.mk (.mk "C" [] none) 0) =
      [("f", ObjectHolder.Number 1)] :=
  ⟨rfl, rfl, rfl, rfl, rfl⟩

/-- C9: `ClassInstance::Call` fails with its runtime error exactly in the case that
`HasMethod(method, |args|)` is false, that is when the lookup through the class and its
parents finds no method of that name or one with another number of formal parameters;
otherwise its result is that of the body executed in a new closure, which binds `self`
to the instance and every formal parameter to its actual argument. -/
theorem Call_checks_then_executes
    (exec : Statement → Closure → Context → Exec ObjectHolder (Closure × Context))
    (self : ClassInstance) (method : String) (actual_args : List ObjectHolder)
    (context : Context) :
    (self.HasMethod method actual_args.length = false ↔
      ¬ ∃ m, self.class_.GetMethod method = some m ∧
        m.formal_params.length = actual_args.length) ∧
    (self.HasMethod method actual_args.length = false →
      self.Call exec method actual_args context =
        .runtime_error (self.class_.GetName ++ " does not have method " ++ method ++
          "or method is incorrect")) ∧
    (∀ m, self.class_.GetMethod method = some m →
      m.formal_params.length = actual_args.length →
      self.HasMethod method actual_args.length = true ∧
      self.Call exec method actual_args context =
        (exec m.body
          (bindParams [("self", ObjectHolder.ClassInstance self)] m.formal_params actual_args)
          context).andThen (fun s => s.2) fun value s => .ok value s.2) ∧
    (∀ m, self.class_.GetMethod method = some m →
      m.formal_params.length = actual_args.length → ("self" :: m.formal_params).Nodup →
      (bindParams [("self", ObjectHolder.ClassInstance self)] m.formal_params
          actual_args).lookup "self" = some (ObjectHolder.ClassInstance self) ∧
      ∀ i : Nat, ∀ h : i < m.formal_params.length,
        (bindParams [("self", ObjectHolder.ClassInstance self)] m.formal_params
          actual_args).lookup m.formal_params[i] = actual_args[i]?) := by
  refine ⟨?_, ?_, ?_, ?_⟩
  · rw [← ClassInstance.HasMethod_iff]
    simp
  · exact ClassInstance.Call_of_not_has exec self method actual_args context
  · intro m hm hlen
    exact ⟨(ClassInstance.HasMethod_iff _ _ _).mpr ⟨m, hm, hlen⟩,
      ClassInstance.Call_of_method exec self method actual_args context m hm hlen⟩
  · intro m hm hlen hnd
    obtain ⟨hself, hps⟩ := List.nodup_cons.mp hnd
    obtain ⟨h1, h2⟩ := bindParams_lookup m.formal_params
      [("self", ObjectHolder.ClassInstance self)] actual_args hps hlen
    refine ⟨?_, h2⟩
    rw [h1 "self" hself]
    simp [List.lookup]

/-- C9 at an instance of a class with the one-parameter method `f` that returns its
argument: the call `f(7)` executes the body and gives 7, the calls `g()` (no such method)
and `f()` (wrong number of arguments) fail. -/
theorem Call_checks_then_executes_witness :
    ClassInstance.Call (Execute 3)
        (.mk (.mk "C" [.mk "f" ["x"] (.MethodBody (.Return (.VariableValue ["x"])))] none) 0)
        "f" [ObjectHolder.Number 7] ⟨"", []⟩ =
      .ok (ObjectHolder.Number 7) ⟨"", []⟩ ∧
    ClassInstance.Call (Execute 3)
        (.mk (.mk "C" [.mk "f" ["x"] (.MethodBody (.Return (.VariableValue ["x"])))] none) 0)
        "g" [] ⟨"", []⟩ =
      .runtime_error "C does not have method gor method is incorrect" ∧
    ClassInstance.Call (Execute 3)
        (.mk (.mk "C" [.mk "f" ["x"] (.MethodBody (.Return (.VariableValue ["x"])))] none) 0)
        "f" [] ⟨"", []⟩ =
      .runtime_error "C does not have method for method is incorrect" :=
  ⟨((Call_checks_then_executes (Execute 3)
      (.mk (.mk "C" [.mk "f" ["x"] (.MethodBody (.Return (.VariableValue ["x"])))] none) 0)
      "f" [ObjectHolder.Number 7] ⟨"", []⟩).2.2.1
      (.mk "f" ["x"] (.MethodBody (.Return (.VariableValue ["x"])))) rfl rfl).2,
   (Call_checks_then_executes (Execute 3)
      (.mk (.mk "C" [.mk "f" ["x"] (.MethodBody (.Return (.VariableValue ["x"])))] none) 0)
      "g" [] ⟨"", []⟩).2.1 rfl,
   (Call_checks_then_executes (Execute 3)
      (.mk (.mk "C" [.mk "f" ["x"] (.MethodBody (.Return (.VariableValue ["x"])))] none) 0)
      "f" [] ⟨"", []⟩).2.1 rfl⟩

/-- C10: `Class::GetMethod(name)` returns the method of the nearest class of the chain
(the class, its parent, the parent of the parent, ...) that defines `name`; it returns
no method exactly when no class of the chain defines `name`; and a method the class
defines itself is returned whatever its ancestors define under that name. -/
theorem GetMethod_nearest_in_chain (c : Class) (name : String) :
    c.GetMethod name = nearestMethod c.chain name ∧
    (∀ (pre post : List Class) (k : Class) (m : Method), c.chain = pre ++ k :: post →
      (∀ k1 ∈ pre, ∀ m1 ∈ k1.methods_, m1.name ≠ name) →
      findMethod k.methods_ name = some m → c.GetMethod name = some m) ∧
    (c.GetMethod name = none ↔ ∀ k ∈ c.chain, ∀ m ∈ k.methods_, m.name ≠ name) ∧
    (∀ m, findMethod c.methods_ name = some m → c.GetMethod name = some m) := by
  have h0 := Class.GetMethod_eq_nearest c name
  refine ⟨h0, ?_, ?_, ?_⟩
  · intro pre post k m hc hpre hk
    rw [h0, hc]
    exact nearestMethod_split pre post k name m hpre hk
  · rw [h0]
    exact nearestMethod_eq_none c.chain name
  · intro m hm
    cases c with
    | mk class_name_ methods_ parent_ =>
      simp only [Class.methods_mk] at hm
      cases parent_ with
      | none => simp [Class.GetMethod, hm]
      | some p => simp [Class.GetMethod, hm]

/-- C10 at a class `B` with parent `A`: `B` defines `f` with two parameters, `A` defines
`f` without parameters and `g`.  The lookup of `f` in `B` gives the method of `B`, the
lookup of `g` gives the method of `A`, and the lookup of `h` gives no method. -/
theorem GetMethod_nearest_in_chain_witness :
    (Class.mk "B" [.mk "f" ["x", "y"] (.VariableValue ["x"])]
        (some (.mk "A" [.mk "f" [] (.VariableValue ["self"]),
                        .mk "g" [] (.VariableValue ["self"])] none))).GetMethod "f" =
      some (.mk "f" ["x", "y"] (.VariableValue ["x"])) ∧
    (Class.mk "B" [.mk "f" ["x", "y"] (.VariableValue ["x"])]
        (some (.mk "A" [.mk "f" [] (.VariableValue ["self"]),
                        .mk "g" [] (.VariableValue ["self"])] none))).GetMethod "g" =
      some (.mk "g" [] (.VariableValue ["self"])) ∧
    (Class.mk "B" [.mk "f" ["x", "y"] (.VariableValue ["x"])]
        (some (.mk "A" [.mk "f" [] (.VariableValue ["self"]),
                        .mk "g" [] (.VariableValue ["self"])] none))).GetMethod "h" = none :=
  ⟨(GetMethod_nearest_in_chain _ "f").2.2.2 _ rfl,
   (GetMethod_nearest_in_chain _ "g").2.1
     [.mk "B" [.mk "f" ["x", "y"] (.VariableValue ["x"])]
        (some (.mk "A" [.mk "f" [] (.VariableValue ["self"]),
                        .mk "g" [] (.VariableValue ["self"])] none))]
     []
     (.mk "A" [.mk "f" [] (.VariableValue ["self"]), .mk "g" [] (.VariableValue ["self"])] none)
     _ rfl (by simp [Method.name]) rfl,
   (GetMethod_nearest_in_chain _ "h").2.2.1.mpr (by simp [Class.chain, Method.name])⟩

/-! ## Claims about comparison, printing and logic -/

/-- C11: when the left operand is an instance whose class defines or inherits a
one-parameter `__eq__` (for `Less`: `__lt__`), `Equal` (`Less`) ends as the call of that
method with the right operand as the argument does, and with a normal result it returns
`IsTrue` of that result. -/
theorem Equal_Less_call_dunder
    (exec : Statement → Closure → Context → Exec ObjectHolder (Closure × Context))
    (p : ClassInstance) (rhs : ObjectHolder) (context : Context) :
    (∀ m, p.class_.GetMethod "__eq__" = some m → m.formal_params.length = 1 →
      Equal exec (.ClassInstance p) rhs context =
        (p.Call exec "__eq__" [rhs] context).andThen id
          (fun result context1 => .ok (IsTrue result) context1) ∧
      ∀ result context1, p.Call exec "__eq__" [rhs] context = .ok result context1 →
        Equal exec (.ClassInstance p) rhs context = .ok (IsTrue result) context1) ∧
    (∀ m, p.class_.GetMethod "__lt__" = some m → m.formal_params.length = 1 →
      Less exec (.ClassInstance p) rhs context =
        (p.Call exec "__lt__" [rhs] context).andThen id
          (fun result context1 => .ok (IsTrue result) context1) ∧
      ∀ result context1, p.Call exec "__lt__" [rhs] context = .ok result context1 →
        Less exec (.ClassInstance p) rhs context = .ok (IsTrue result) context1) := by
  refine ⟨?_, ?_⟩
  · intro m hm hlen
    have h : p.HasMethod "__eq__" 1 = true :=
      (ClassInstance.HasMethod_iff p "__eq__" 1).mpr ⟨m, hm, hlen⟩
    have e : Equal exec (.ClassInstance p) rhs context =
        (p.Call exec "__eq__" [rhs] context).andThen id
          (fun result context1 => .ok (IsTrue result) context1) := by
      simp [Equal, h]
    refine ⟨e, ?_⟩
    intro result context1 hc
    rw [e, hc]
    rfl
  · intro m hm hlen
    have h : p.HasMethod "__lt__" 1 = true :=
      (ClassInstance.HasMethod_iff p "__lt__" 1).mpr ⟨m, hm, hlen⟩
    have e : Less exec (.ClassInstance p) rhs context =
        (p.Call exec "__lt__" [rhs] context).andThen id
          (fun result context1 => .ok (IsTrue result) context1) := by
      simp [Less, h]
    refine ⟨e, ?_⟩
    intro result context1 hc
    rw [e, hc]
    rfl

/-- C11 at a class `B` whose `__eq__` and `__lt__` return True (the negation of `self`,
an instance, which is never true) and a class `D` with parent `B` and no method of its
own: `Equal` and `Less` of two instances of `D` are true. -/
theorem Equal_Less_call_dunder_witness :
    Equal (Execute 4)
        (.ClassInstance (.mk (.mk "D" [] (some (.mk "B"
          [.mk "__eq__" ["rhs"] (.MethodBody (.Return (.Not (.VariableValue ["self"])))),
           .mk "__lt__" ["rhs"] (.MethodBody (.Return (.Not (.VariableValue ["self"]))))]
          none))) 0))
        (.ClassInstance (.mk (.mk "D" [] (some (.mk "B"
          [.mk "__eq__" ["rhs"] (.MethodBody (.Return (.Not (.VariableValue ["self"])))),
           .mk "__lt__" ["rhs"] (.MethodBody (.Return (.Not (.VariableValue ["self"]))))]
          none))) 1))
        ⟨"", []⟩ = .ok true ⟨"", []⟩ ∧
    Less (Execute 4)
        (.ClassInstance (.mk (.mk "D" [] (some (.mk "B"
          [.mk "__eq__" ["rhs"] (.MethodBody (.Return (.Not (.VariableValue ["self"])))),
           .mk "__lt__" ["rhs"] (.MethodBody (.Return (.Not (.VariableValue ["self"]))))]
          none))) 0))
        (.ClassInstance (.mk (.mk "D" [] (some (.mk "B"
          [.mk "__eq__" ["rhs"] (.MethodBody (.Return (.Not (.VariableValue ["self"])))),
           .mk "__lt__" ["rhs"] (.MethodBody (.Return (.Not (.VariableValue ["self"]))))]
          none))) 1))
        ⟨"", []⟩ = .ok true ⟨"", []⟩ :=
  ⟨((Equal_Less_call_dunder (Execute 4)
      (.mk (.mk "D" [] (some (.mk "B"
        [.mk "__eq__" ["rhs"] (.MethodBody (.Return (.Not (.VariableValue ["self"])))),
         .mk "__lt__" ["rhs"] (.MethodBody (.Return (.Not (.VariableValue ["self"]))))]
        none))) 0)
      (.ClassInstance (.mk (.mk "D" [] (some (.mk "B"
        [.mk "__eq__" ["rhs"] (.MethodBody (.Return (.Not (.VariableValue ["self"])))),
         .mk "__lt__" ["rhs"] (.MethodBody (.Return (.Not (.VariableValue ["self"]))))]
        none))) 1))
      ⟨"", []⟩).1
      (.mk "__eq__" ["rhs"] (.MethodBody (.Return (.Not (.VariableValue ["self"])))))
      rfl rfl).2 (.Bool true) ⟨"", []⟩ rfl,
   ((Equal_Less_call_dunder (Execute 4)
      (.mk (.mk "D" [] (some (.mk "B"
        [.mk "__eq__" ["rhs"] (.MethodBody (.Return (.Not (.VariableValue ["self"])))),
         .mk "__lt__" ["rhs"] (.MethodBody (.Return (.Not (.VariableValue ["self"]))))]
        none))) 0)
      (.ClassInstance (.mk (.mk "D" [] (some (.mk "B"
        [.mk "__eq__" ["rhs"] (.MethodBody (.Return (.Not (.VariableValue ["self"])))),
         .mk "__lt__" ["rhs"] (.MethodBody (.Return (.Not (.VariableValue ["self"]))))]
        none))) 1))
      ⟨"", []⟩).2
      (.mk "__lt__" ["rhs"] (.MethodBody (.Return (.Not (.VariableValue ["self"])))))
      rfl rfl).2 (.Bool true) ⟨"", []⟩ rfl⟩

/-- C12: `Equal(a, a)` returns true, and leaves the context as it was, when `a` is the
empty holder, a number, a string or a boolean. -/
theorem Equal_same_value
    (exec : Statement → Closure → Context → Exec ObjectHolder (Closure × Context))
    (context : Context) :
    Equal exec .None .None context = .ok true context ∧
    (∀ value : Int, Equal exec (.Number value) (.Number value) context = .ok true context) ∧
    (∀ value : String, Equal exec (.String value) (.String value) context = .ok true context) ∧
    (∀ value : Bool, Equal exec (.Bool value) (.Bool value) context = .ok true context) := by
  refine ⟨rfl, ?_, ?_, ?_⟩ <;> intro value <;> simp [Equal]

/-- C13: `NotEqual` ends as `Equal` does on the same operands, with the boolean negated
when `Equal` returns one and with the same failure when `Equal` fails; `GreaterOrEqual`
is the same with respect to `Less`. -/
theorem NotEqual_GreaterOrEqual_negate
    (exec : Statement → Closure → Context → Exec ObjectHolder (Closure × Context))
    (lhs rhs : ObjectHolder) (context : Context) :
    (NotEqual exec lhs rhs context =
      match Equal exec lhs rhs context with
      | .ok b context1 => .ok (!b) context1
      | failure => failure) ∧
    (∀ b context1, NotEqual exec lhs rhs context = .ok b context1 ↔
      Equal exec lhs rhs context = .ok (!b) context1) ∧
    (GreaterOrEqual exec lhs rhs context =
      match Less exec lhs rhs context with
      | .ok b context1 => .ok (!b) context1
      | failure => failure) ∧
    (∀ b context1, GreaterOrEqual exec lhs rhs context = .ok b context1 ↔
      Less exec lhs rhs context = .ok (!b) context1) := by
  refine ⟨?_, ?_, ?_, ?_⟩
  · unfold NotEqual
    cases Equal exec lhs rhs context <;> rfl
  · intro b context1
    unfold NotEqual
    cases Equal exec lhs rhs context <;> simp [Exec.andThen]
  · unfold GreaterOrEqual
    cases Less exec lhs rhs context <;> rfl
  · intro b context1
    unfold GreaterOrEqual
    cases Less exec lhs rhs context <;> simp [Exec.andThen]

/-- C14: when the argument evaluates to the empty holder, a number, a string or a
boolean, printing the string that `Stringify` returns for it ends exactly as printing
the argument itself: both append the text of the value (`None` for the empty holder)
and a line feed to the output. -/
theorem Stringify_then_Print_same_text (n : Nat) (argument_ : Statement) (closure : Closure)
    (context : Context) (value : ObjectHolder) (s : Closure × Context)
    (h : Execute n argument_ closure context = .ok value s) (hv : IsPlain value = true) :
    Execute (n + 2) (.Print [.Stringify argument_]) closure context =
      Execute (n + 1) (.Print [argument_]) closure context ∧
    Execute (n + 1) (.Print [argument_]) closure context =
      .ok .None (s.1, { s.2 with output := s.2.output ++ plainText value ++ "\n" }) ∧
    Execute (n + 1) (.Stringify argument_) closure context =
      .ok (.String (plainText value)) s := by
  obtain ⟨k, rfl⟩ : ∃ k, n = k + 1 :=
    Nat.exists_eq_succ_of_ne_zero (Nat.pos_iff_ne_zero.mp (Execute_ok_pos _ _ _ _ _ _ h))
  cases value <;> simp [IsPlain] at hv <;>
    simp [Execute, printArgs, h, Exec.andThen, Object.Print, plainText, printString]

/-- C14 at the values 12, `ab`, True and the empty holder of the variables `x`, `s`,
`b` and `y`. -/
theorem Stringify_then_Print_same_text_witness :
    Execute 3 (.Print [.Stringify (.VariableValue ["x"])])
        [("x", .Number 12), ("s", .String "ab"), ("b", .Bool true), ("y", .None)] ⟨"", []⟩ =
      Execute 2 (.Print [.VariableValue ["x"]])
        [("x", .Number 12), ("s", .String "ab"), ("b", .Bool true), ("y", .None)] ⟨"", []⟩ ∧
    Execute 2 (.Print [.VariableValue ["x"]])
        [("x", .Number 12), ("s", .String "ab"), ("b", .Bool true), ("y", .None)] ⟨"", []⟩ =
      .ok .None
        ([("x", .Number 12), ("s", .String "ab"), ("b", .Bool true), ("y", .None)],
          ⟨"12\n", []⟩) ∧
    Execute 3 (.Print [.Stringify (.VariableValue ["y"])])
        [("x", .Number 12), ("s", .String "ab"), ("b", .Bool true), ("y", .None)] ⟨"", []⟩ =
      Execute 2 (.Print [.VariableValue ["y"]])
        [("x", .Number 12), ("s", .String "ab"), ("b", .Bool true), ("y", .None)] ⟨"", []⟩ ∧
    Execute 2 (.Print [.VariableValue ["y"]])
        [("x", .Number 12), ("s", .String "ab"), ("b", .Bool true), ("y", .None)] ⟨"", []⟩ =
      .ok .None
        ([("x", .Number 12), ("s", .String "ab"), ("b", .Bool true), ("y", .None)],
          ⟨"None\n", []⟩) :=
  ⟨(Stringify_then_Print_same_text 1 (.VariableValue ["x"])
      [("x", .Number 12), ("s", .String "ab"), ("b", .Bool true), ("y", .None)] ⟨"", []⟩
      (.Number 12) (_, ⟨"", []⟩) rfl rfl).1,
   (Stringify_then_Print_same_text 1 (.VariableValue ["x"])
      [("x", .Number 12), ("s", .String "ab"), ("b", .Bool true), ("y", .None)] ⟨"", []⟩
      (.Number 12) (_, ⟨"", []⟩) rfl rfl).2.1,
   (Stringify_then_Print_same_text 1 (.VariableValue ["y"])
      [("x", .Number 12), ("s", .String "ab"), ("b", .Bool true), ("y", .None)] ⟨"", []⟩
      .None (_, ⟨"", []⟩) rfl rfl).1,
   (Stringify_then_Print_same_text 1 (.VariableValue ["y"])
      [("x", .Number 12), ("s", .String "ab"), ("b", .Bool true), ("y", .None)] ⟨"", []⟩
      .None (_, ⟨"", []⟩) rfl rfl).2.1⟩

/-- C15 fails: `Equal` of the empty holder and the number 1, in either order, throws
the runtime error of an unsupported comparison; it does not return false. -/
theorem Equal_none_number_throws :
    Equal (Execute 1) .None (.Number 1) ⟨"", []⟩ = .runtime_error "Error in compare equal" ∧
    Equal (Execute 1) (.Number 1) .None ⟨"", []⟩ = .runtime_error "Error in compare equal" ∧
    Equal (Execute 1) .None (.Number 1) ⟨"", []⟩ ≠ .ok false ⟨"", []⟩ ∧
    Equal (Execute 1) (.Number 1) .None ⟨"", []⟩ ≠ .ok false ⟨"", []⟩ :=
  ⟨rfl, rfl, by simp [Equal], by simp [Equal]⟩

/-- C15, amended: `Equal` of the empty holder and a number, a string or a boolean, in
either order, fails with the runtime error `Error in compare equal`, while `Equal` of two
empty holders returns true. -/
theorem Equal_none_with_value_fails
    (exec : Statement → Closure → Context → Exec ObjectHolder (Closure × Context))
    (context : Context) :
    (∀ value : Int,
      Equal exec .None (.Number value) context = .runtime_error "Error in compare equal" ∧
      Equal exec (.Number value) .None context = .runtime_error "Error in compare equal") ∧
    (∀ value : String,
      Equal exec .None (.String value) context = .runtime_error "Error in compare equal" ∧
      Equal exec (.String value) .None context = .runtime_error "Error in compare equal") ∧
    (∀ value : Bool,
      Equal exec .None (.Bool value) context = .runtime_error "Error in compare equal" ∧
      Equal exec (.Bool value) .None context = .runtime_error "Error in compare equal") ∧
    Equal exec .None .None context = .ok true context :=
  ⟨fun _ => ⟨rfl, rfl⟩, fun _ => ⟨rfl, rfl⟩, fun _ => ⟨rfl, rfl⟩, rfl⟩

/-- C17: `Print::Execute` executes its arguments left to right and returns the empty
holder.  When executing the arguments and rendering their values ends normally, what
it appends to the output is exactly the renderings of the values, joined by single spaces
and followed by one line feed, each rendering coming behind the text that executing that
argument wrote itself, if any: arguments that write nothing leave just the renderings,
the spaces and the line feed.  An empty holder renders as `None`, and an empty list of
arguments writes just the line feed. -/
theorem Print_writes_renderings (n : Nat) (args_ : List Statement) (closure : Closure)
    (context : Context) :
    (∀ pieces closure1 fields1,
      Renderings (Execute n) n args_ closure context.fields pieces closure1 fields1 →
      Execute (n + 1) (.Print args_) closure context =
        .ok .None (closure1,
          ⟨context.output ++ " ".intercalate (pieces.map fun p => p.1 ++ p.2) ++ "\n",
            fields1⟩) ∧
      ((∀ p ∈ pieces, p.1 = "") →
        Execute (n + 1) (.Print args_) closure context =
          .ok .None (closure1,
            ⟨context.output ++ " ".intercalate (pieces.map Prod.snd) ++ "\n", fields1⟩))) ∧
    Execute (n + 1) (.Print []) closure context =
      .ok .None (closure, ⟨context.output ++ "\n", context.fields⟩) ∧
    rendering (Execute n) n .None context = .ok "None" context := by
  refine ⟨?_, rfl, rfl⟩
  intro pieces closure1 fields1 h
  have e := printArgs_renderings (Execute n) n args_ closure context pieces closure1 fields1 h
  refine ⟨?_, ?_⟩
  · simp only [Execute]
    exact e
  · intro hs
    simp only [Execute]
    rw [e, List.map_pieces_silent pieces hs]

/-- C17 at the arguments `x`, `y`, `s`, `b` holding 1, the empty holder, the string `a`
and False, after `out:` was written: the output grows by `1 None a False` and a line
feed.  And at the arguments `o.f()`, `x`, where the method `f` prints an empty line and
returns True: the output grows by the line feed that `f` wrote, then `True 1` and a
line feed. -/
theorem Print_writes_renderings_witness :
    Execute 2 (.Print [.VariableValue ["x"], .VariableValue ["y"], .VariableValue ["s"],
        .VariableValue ["b"]])
        [("x", .Number 1), ("y", .None), ("s", .String "a"), ("b", .Bool false)]
        ⟨"out:", []⟩ =
      .ok .None ([("x", .Number 1), ("y", .None), ("s", .String "a"), ("b", .Bool false)],
        ⟨"out:1 None a False\n", []⟩) ∧
    Execute 7 (.Print [.MethodCall (.VariableValue ["o"]) "f" [], .VariableValue ["x"]])
        [("x", .Number 1), ("o", .ClassInstance (.mk (.mk "C" [.mk "f" [] (.MethodBody
          (.Compound [.Print [], .Return (.Not (.VariableValue ["self"]))]))] none) 0))]
        ⟨"out:", []⟩ =
      .ok .None ([("x", .Number 1), ("o", .ClassInstance (.mk (.mk "C" [.mk "f" [] (.MethodBody
          (.Compound [.Print [], .Return (.Not (.VariableValue ["self"]))]))] none) 0))],
        ⟨"out:\nTrue 1\n", []⟩) :=
  ⟨((Print_writes_renderings 1 [.VariableValue ["x"], .VariableValue ["y"], .VariableValue ["s"],
        .VariableValue ["b"]]
      [("x", .Number 1), ("y", .None), ("s", .String "a"), ("b", .Bool false)]
      ⟨"out:", []⟩).1 [("", "1"), ("", "None"), ("", "a"), ("", "False")]
      [("x", .Number 1), ("y", .None), ("s", .String "a"), ("b", .Bool false)] []
      ⟨.Number 1, [("x", .Number 1), ("y", .None), ("s", .String "a"), ("b", .Bool false)], [], "", "1", "", [], _,
         fun out => by rw [String.append_empty]; rfl,
         fun out => by rw [String.append_empty]; rfl, rfl,
       .None, [("x", .Number 1), ("y", .None), ("s", .String "a"), ("b", .Bool false)], [], "", "None", "", [], _,
         fun out => by rw [String.append_empty]; rfl,
         fun out => by rw [String.append_empty]; rfl, rfl,
       .String "a", [("x", .Number 1), ("y", .None), ("s", .String "a"), ("b", .Bool false)], [], "", "a", "", [], _,
         fun out => by rw [String.append_empty]; rfl,
         fun out => by rw [String.append_empty]; rfl, rfl,
       .Bool false, [("x", .Number 1), ("y", .None), ("s", .String "a"), ("b", .Bool false)], [], "", "False", "", [], _,
         fun out => by rw [String.append_empty]; rfl,
         fun out => by rw [String.append_empty]; rfl, rfl,
       rfl, rfl, rfl⟩).2 (by decide),
   ((Print_writes_renderings 6 [.MethodCall (.VariableValue ["o"]) "f" [], .VariableValue ["x"]]
      [("x", .Number 1), ("o", .ClassInstance (.mk (.mk "C" [.mk "f" [] (.MethodBody
          (.Compound [.Print [], .Return (.Not (.VariableValue ["self"]))]))] none) 0))]
      ⟨"out:", []⟩).1 [("\n", "True"), ("", "1")]
      [("x", .Number 1), ("o", .ClassInstance (.mk (.mk "C" [.mk "f" [] (.MethodBody
          (.Compound [.Print [], .Return (.Not (.VariableValue ["self"]))]))] none) 0))] []
      ⟨.Bool true, [("x", .Number 1), ("o", .ClassInstance (.mk (.mk "C" [.mk "f" [] (.MethodBody
          (.Compound [.Print [], .Return (.Not (.VariableValue ["self"]))]))] none) 0))], [], "\n", "True", "", [], _,
         fun _ => rfl,
         fun out => by rw [String.append_empty]; rfl, rfl,
       .Number 1, [("x", .Number 1), ("o", .ClassInstance (.mk (.mk "C" [.mk "f" [] (.MethodBody
          (.Compound [.Print [], .Return (.Not (.VariableValue ["self"]))]))] none) 0))], [], "", "1", "", [], _,
         fun out => by rw [String.append_empty]; rfl,
         fun out => by rw [String.append_empty]; rfl, rfl,
       rfl, rfl, rfl⟩).1⟩

/-- C18: `Or` and `And` return a boolean.  When the left operand is true `Or` returns
True in the state the left operand left, whatever the right operand is, and when it is
false `And` returns False in that state: the right operand is not executed.  Otherwise
the right operand is executed and the result is the boolean
`IsTrue(lhs) or IsTrue(rhs)` for `Or` and `IsTrue(lhs) and IsTrue(rhs)` for `And`. -/
theorem Or_And_short_circuit (n : Nat) (lhs_ rhs_ : Statement) (closure : Closure)
    (context : Context) (lhs : ObjectHolder) (s : Closure × Context)
    (h : Execute n lhs_ closure context = .ok lhs s) :
    (IsTrue lhs = true →
      Execute (n + 1) (.Or lhs_ rhs_) closure context = .ok (.Bool true) s) ∧
    (IsTrue lhs = false → ∀ rhs s1, Execute n rhs_ s.1 s.2 = .ok rhs s1 →
      Execute (n + 1) (.Or lhs_ rhs_) closure context =
        .ok (.Bool (IsTrue lhs || IsTrue rhs)) s1) ∧
    (IsTrue lhs = false →
      Execute (n + 1) (.And lhs_ rhs_) closure context = .ok (.Bool false) s) ∧
    (IsTrue lhs = true → ∀ rhs s1, Execute n rhs_ s.1 s.2 = .ok rhs s1 →
      Execute (n + 1) (.And lhs_ rhs_) closure context =
        .ok (.Bool (IsTrue lhs && IsTrue rhs)) s1) := by
  refine ⟨?_, ?_, ?_, ?_⟩
  · intro ht
    simp [Execute, h, Exec.andThen, ht]
  · intro ht rhs s1 hr
    simp [Execute, h, Exec.andThen, ht, hr]
  · intro ht
    simp [Execute, h, Exec.andThen, ht]
  · intro ht rhs s1 hr
    simp [Execute, h, Exec.andThen, ht, hr]

/-- C18 with 1 in `x`, 0 in `z` and no variable `y`: `x or y` is True and `z and y` is
False although `y` cannot be executed, `z or x` is True and `x and z` is False. -/
theorem Or_And_short_circuit_witness :
    Execute 2 (.Or (.VariableValue ["x"]) (.VariableValue ["y"]))
        [("x", .Number 1), ("z", .Number 0)] ⟨"", []⟩ =
      .ok (.Bool true) ([("x", .Number 1), ("z", .Number 0)], ⟨"", []⟩) ∧
    Execute 2 (.And (.VariableValue ["z"]) (.VariableValue ["y"]))
        [("x", .Number 1), ("z", .Number 0)] ⟨"", []⟩ =
      .ok (.Bool false) ([("x", .Number 1), ("z", .Number 0)], ⟨"", []⟩) ∧
    Execute 2 (.Or (.VariableValue ["z"]) (.VariableValue ["x"]))
        [("x", .Number 1), ("z", .Number 0)] ⟨"", []⟩ =
      .ok (.Bool true) ([("x", .Number 1), ("z", .Number 0)], ⟨"", []⟩) ∧
    Execute 2 (.And (.VariableValue ["x"]) (.VariableValue ["z"]))
        [("x", .Number 1), ("z", .Number 0)] ⟨"", []⟩ =
      .ok (.Bool false) ([("x", .Number 1), ("z", .Number 0)], ⟨"", []⟩) :=
  ⟨(Or_And_short_circuit 1 (.VariableValue ["x"]) (.VariableValue ["y"])
      [("x", .Number 1), ("z", .Number 0)] ⟨"", []⟩ (.Number 1) (_, ⟨"", []⟩) rfl).1 rfl,
   (Or_And_short_circuit 1 (.VariableValue ["z"]) (.VariableValue ["y"])
      [("x", .Number 1), ("z", .Number 0)] ⟨"", []⟩ (.Number 0) (_, ⟨"", []⟩) rfl).2.2.1 rfl,
   (Or_And_short_circuit 1 (.VariableValue ["z"]) (.VariableValue ["x"])
      [("x", .Number 1), ("z", .Number 0)] ⟨"", []⟩ (.Number 0) (_, ⟨"", []⟩) rfl).2.1 rfl
      (.Number 1) (_, ⟨"", []⟩) rfl,
   (Or_And_short_circuit 1 (.VariableValue ["x"]) (.VariableValue ["z"])
      [("x", .Number 1), ("z", .Number 0)] ⟨"", []⟩ (.Number 1) (_, ⟨"", []⟩) rfl).2.2.2 rfl
      (.Number 0) (_, ⟨"", []⟩) rfl⟩

/-- C19: `IsTrue` is false for the empty holder, true for a number exactly when it is
not 0, true for a string exactly when it is not empty, the value itself for a boolean,
and false for a class and for an instance. -/
theorem IsTrue_table :
    IsTrue .None = false ∧
    (∀ value : Int, IsTrue (.Number value) = true ↔ value ≠ 0) ∧
    (∀ value : String, IsTrue (.String value) = true ↔ value ≠ "") ∧
    (∀ value : Bool, IsTrue (.Bool value) = value) ∧
    (∀ cls : Class, IsTrue (.Class cls) = false) ∧
    (∀ object : ClassInstance, IsTrue (.ClassInstance object) = false) := by
  refine ⟨rfl, ?_, ?_, fun _ => rfl, fun _ => rfl, fun _ => rfl⟩
  · intro value
    simp [IsTrue]
  · intro value
    have e := String.isEmpty_iff value
    cases hE : value.isEmpty <;> simp_all [IsTrue]

/-! ## Claims about the indentation tokens -/

/-- C20 fails: one leading space after indentation 0 emits an Indent, where the claim
counts `floor(1/2) - floor(0/2) = 0` tokens; three leading spaces after indentation 0
emit two, where the claim counts `floor(3/2) - floor(0/2) = 1`; and three leading spaces
after indentation 2 emit one, where the claim counts `floor(3/2) - floor(2/2) = 0`. -/
theorem Lexer.odd_indentation_rounds_up :
    Lexer.tokens "a\n b\n".toList =
      .ok [Token.Id "a", Token.Newline, Token.Indent, Token.Id "b", Token.Newline,
           Token.Dedent, Token.Eof, Token.Dedent, Token.Eof] ∧
    Lexer.FindNextToken 1
        ⟨⟨[' ', 'b', '\n'], false, false⟩, [Token.Id "a", Token.Newline], 0, true⟩ =
      .ok (Token.Indent,
        ⟨⟨['b', '\n'], false, false⟩, [Token.Id "a", Token.Newline], 1, false⟩) ∧
    Lexer.FindNextToken 1
        ⟨⟨[' ', ' ', ' ', 'b', '\n'], false, false⟩, [Token.Id "a", Token.Newline], 0, true⟩ =
      .ok (Token.Indent,
        ⟨⟨['b', '\n'], false, false⟩, [Token.Id "a", Token.Newline, Token.Indent], 3, false⟩) ∧
    Lexer.FindNextToken 1
        ⟨⟨[' ', ' ', ' ', 'b', '\n'], false, false⟩, [Token.Id "a", Token.Newline], 2, true⟩ =
      .ok (Token.Indent,
        ⟨⟨['b', '\n'], false, false⟩, [Token.Id "a", Token.Newline], 3, false⟩) ∧
    (1 / 2 - 0 / 2 = 0 ∧ 3 / 2 - 0 / 2 = 1 ∧ 3 / 2 - 2 / 2 = 0) := by
  decide

/-- C20, amended: at the start of a line that is not blank, with `c` leading spaces
while the indentation before was `p = indent_` spaces, the call of `FindNextToken`
emits (pushes and returns) exactly `ceil((c - p) / 2)` Indent tokens when `c > p` and
exactly `ceil((p - c) / 2)` Dedent tokens when `c < p`, and sets the indentation to `c`;
when `c = p` the indentation block emits nothing, the pass goes on with the main part and
the token it returns is neither Indent nor Dedent.  For even `c` and `p` the number of
tokens is `c/2 - p/2`, resp. `p/2 - c/2`. -/
theorem Lexer.indentation_tokens_round_up (lx : Lexer) (c : Nat) (ch : Char) (r : List Char)
    (n : Nat) (hnl : lx.is_new_line_ = true)
    (hin : lx.input_ = ⟨List.replicate c ' ' ++ ch :: r, false, false⟩)
    (h1 : ch ≠ ' ') (h2 : ch ≠ '\n') :
    (lx.indent_ < c → ∃ l1, Lexer.FindNextToken (n + 1) lx = .ok (Token.Indent, l1) ∧
      l1.indent_ = c ∧ l1.input_ = ⟨ch :: r, false, false⟩ ∧
      l1.tokens_ ++ [Token.Indent] =
        lx.tokens_ ++ List.replicate ((c - lx.indent_ + 1) / 2).toNat Token.Indent) ∧
    (c < lx.indent_ → ∃ l1, Lexer.FindNextToken (n + 1) lx = .ok (Token.Dedent, l1) ∧
      l1.indent_ = c ∧ l1.input_ = ⟨ch :: r, false, false⟩ ∧
      l1.tokens_ ++ [Token.Dedent] =
        lx.tokens_ ++ List.replicate ((lx.indent_ - c + 1) / 2).toNat Token.Dedent) ∧
    (lx.indent_ = c →
      Lexer.findStep lx =
        Lexer.findMain { lx with input_ := ⟨ch :: r, false, false⟩, is_new_line_ := false } ∧
      ∀ t l1, Lexer.findStep lx = .ok (.ret t l1) → t ≠ Token.Indent ∧ t ≠ Token.Dedent) ∧
    (2 ∣ (c : Int) → 2 ∣ lx.indent_ →
      (c - lx.indent_ + 1) / 2 = c / 2 - lx.indent_ / 2 ∧
      (lx.indent_ - c + 1) / 2 = lx.indent_ / 2 - c / 2) := by
  have hs := Lexer.findStep_line_start lx c ch r hnl hin h1 h2
  obtain ⟨up, down, same⟩ := Lexer.indentStep_count
    { lx with input_ := ⟨ch :: r, false, false⟩, is_new_line_ := false } c
  refine ⟨?_, ?_, ?_, ?_⟩
  · intro h
    obtain ⟨l1, e, e1, e2, -, e3⟩ := up h
    refine ⟨l1, ?_, e1, e2, e3⟩
    simp only [Lexer.FindNextToken, hs, e, Outcome.bind_ok]
  · intro h
    obtain ⟨l1, e, e1, e2, -, e3⟩ := down h
    refine ⟨l1, ?_, e1, e2, e3⟩
    simp only [Lexer.FindNextToken, hs, e, Outcome.bind_ok]
  · intro h
    have e := same h
    refine ⟨?_, ?_⟩
    · rw [hs, e]
      rfl
    · intro t l1 ht
      have hh : (ch :: r).head? ≠ some ' ' := by simpa using h1
      obtain ⟨q1, -⟩ := List.takeWhile_space_replicate c (ch :: r) hh
      have hk : (leadingSpaces lx.input_.rest : Int) = c := by
        simp [leadingSpaces, hin, q1]
      rcases Lexer.findStep_tokens lx t l1 ht with
        ⟨rfl, -, -⟩ | ⟨-, -, a, b, -⟩ | ⟨-, -, a, b, -⟩ | ⟨-, a, b, -⟩
      · simp
      · omega
      · omega
      · exact ⟨a, b⟩
  · intro d1 d2
    omega

/-- C20, amended, at the line `   b` (three leading spaces) after indentation 0, which
emits two Indent tokens, at the line `b` after indentation 3, which emits two Dedent
tokens, and at the line `  b` after indentation 2, which emits none. -/
theorem Lexer.indentation_tokens_round_up_witness :
    (∃ l1, Lexer.FindNextToken 1
        ⟨⟨[' ', ' ', ' ', 'b', '\n'], false, false⟩, [Token.Id "a", Token.Newline], 0, true⟩ =
        .ok (Token.Indent, l1) ∧
      l1.indent_ = 3 ∧ l1.input_ = ⟨['b', '\n'], false, false⟩ ∧
      l1.tokens_ ++ [Token.Indent] =
        [Token.Id "a", Token.Newline] ++ [Token.Indent, Token.Indent]) ∧
    (∃ l1, Lexer.FindNextToken 1
        ⟨⟨['b', '\n'], false, false⟩, [Token.Id "a", Token.Newline], 3, true⟩ =
        .ok (Token.Dedent, l1) ∧
      l1.indent_ = 0 ∧ l1.input_ = ⟨['b', '\n'], false, false⟩ ∧
      l1.tokens_ ++ [Token.Dedent] =
        [Token.Id "a", Token.Newline] ++ [Token.Dedent, Token.Dedent]) ∧
    (Lexer.findStep
        ⟨⟨[' ', ' ', 'b', '\n'], false, false⟩, [Token.Id "a", Token.Newline], 2, true⟩ =
      Lexer.findMain
        ⟨⟨['b', '\n'], false, false⟩, [Token.Id "a", Token.Newline], 2, false⟩) :=
  ⟨(Lexer.indentation_tokens_round_up
      ⟨⟨[' ', ' ', ' ', 'b', '\n'], false, false⟩, [Token.Id "a", Token.Newline], 0, true⟩
      3 'b' ['\n'] 0 rfl rfl (by decide) (by decide)).1 (by decide),
   (Lexer.indentation_tokens_round_up
      ⟨⟨['b', '\n'], false, false⟩, [Token.Id "a", Token.Newline], 3, true⟩
      0 'b' ['\n'] 0 rfl rfl (by decide) (by decide)).2.1 (by decide),
   ((Lexer.indentation_tokens_round_up
      ⟨⟨[' ', ' ', 'b', '\n'], false, false⟩, [Token.Id "a", Token.Newline], 2, true⟩
      2 'b' ['\n'] 0 rfl rfl (by decide) (by decide)).2.2.1 rfl).1⟩

/-! ## Claims about the token sequence as a whole -/

/-- C22: on two numbers, two strings or two booleans the derived comparators agree with
the native order of the payloads (for strings the lexicographic order, for booleans
false below true): `Greater(a, b)` holds exactly when `b < a`, `LessOrEqual(a, b)`
exactly when `a <= b`, and exactly one of `Less(a, b)`, `Equal(a, b)`, `Greater(a, b)`
is true.  None of them fails or touches the context. -/
theorem derived_comparators_native_order
    (exec : Statement → Closure → Context → Exec ObjectHolder (Closure × Context))
    (context : Context) :
    (∀ a b : Int,
      Greater exec (.Number a) (.Number b) context = .ok (decide (b < a)) context ∧
      LessOrEqual exec (.Number a) (.Number b) context = .ok (decide (a ≤ b)) context ∧
      ∃ less equal greater,
        Less exec (.Number a) (.Number b) context = .ok less context ∧
        Equal exec (.Number a) (.Number b) context = .ok equal context ∧
        Greater exec (.Number a) (.Number b) context = .ok greater context ∧
        ((less = true ∧ equal = false ∧ greater = false) ∨
         (less = false ∧ equal = true ∧ greater = false) ∨
         (less = false ∧ equal = false ∧ greater = true))) ∧
    (∀ a b : String,
      Greater exec (.String a) (.String b) context = .ok (decide (b < a)) context ∧
      LessOrEqual exec (.String a) (.String b) context = .ok (decide (a ≤ b)) context ∧
      ∃ less equal greater,
        Less exec (.String a) (.String b) context = .ok less context ∧
        Equal exec (.String a) (.String b) context = .ok equal context ∧
        Greater exec (.String a) (.String b) context = .ok greater context ∧
        ((less = true ∧ equal = false ∧ greater = false) ∨
         (less = false ∧ equal = true ∧ greater = false) ∨
         (less = false ∧ equal = false ∧ greater = true))) ∧
    (∀ a b : Bool,
      Greater exec (.Bool a) (.Bool b) context = .ok (decide (b < a)) context ∧
      LessOrEqual exec (.Bool a) (.Bool b) context = .ok (decide (a ≤ b)) context ∧
      ∃ less equal greater,
        Less exec (.Bool a) (.Bool b) context = .ok less context ∧
        Equal exec (.Bool a) (.Bool b) context = .ok equal context ∧
        Greater exec (.Bool a) (.Bool b) context = .ok greater context ∧
        ((less = true ∧ equal = false ∧ greater = false) ∨
         (less = false ∧ equal = true ∧ greater = false) ∨
         (less = false ∧ equal = false ∧ greater = true))) ∧
    Less exec (.Bool false) (.Bool true) context = .ok true context ∧
    Less exec (.String "Ab") (.String "a") context = .ok true context ∧
    Less exec (.String "a") (.String "ab") context = .ok true context := by
  refine ⟨?_, ?_, ?_, rfl, ?_, ?_⟩
  · intro a b
    have hg : Greater exec (.Number a) (.Number b) context = .ok (decide (b < a)) context := by
      rcases lt_trichotomy a b with h | h | h
      · simp [Greater, Less, Equal, Exec.andThen, h, not_lt_of_lt h]
      · subst h; simp [Greater, Less, Equal, Exec.andThen]
      · simp [Greater, Less, Equal, Exec.andThen, h, not_lt_of_lt h, ne_of_gt h]
    refine ⟨hg, ?_, _, _, _, rfl, rfl, hg, ?_⟩
    · have hle : (!decide (b < a)) = decide (a ≤ b) := by
        by_cases h : b < a
        · simp only [h, decide_True, Bool.not_true, not_le.mpr h, decide_False]
        · simp only [h, decide_False, Bool.not_false, not_lt.mp h, decide_True]
      simp only [LessOrEqual, hg, Exec.andThen, hle]
    · rcases lt_trichotomy a b with h | h | h
      · simp [h, not_lt_of_lt h, ne_of_lt h]
      · subst h; simp
      · simp [h, not_lt_of_lt h, ne_of_gt h]
  · intro a b
    have hg : Greater exec (.String a) (.String b) context = .ok (decide (b < a)) context := by
      rcases lt_trichotomy a b with h | h | h
      · simp [Greater, Less, Equal, Exec.andThen, h, not_lt_of_lt h]
      · subst h; simp [Greater, Less, Equal, Exec.andThen]
      · simp [Greater, Less, Equal, Exec.andThen, h, not_lt_of_lt h, ne_of_gt h]
    refine ⟨hg, ?_, _, _, _, rfl, rfl, hg, ?_⟩
    · have hle : (!decide (b < a)) = decide (a ≤ b) := by
        by_cases h : b < a
        · simp only [h, decide_True, Bool.not_true, not_le.mpr h, decide_False]
        · simp only [h, decide_False, Bool.not_false, not_lt.mp h, decide_True]
      simp only [LessOrEqual, hg, Exec.andThen, hle]
    · rcases lt_trichotomy a b with h | h | h
      · simp [h, not_lt_of_lt h, ne_of_lt h]
      · subst h; simp
      · simp [h, not_lt_of_lt h, ne_of_gt h]
  · intro a b
    cases a <;> cases b <;> simp [Greater, LessOrEqual, Less, Equal, Exec.andThen]
  · simp [Less]; decide
  · simp [Less]; decide

/-! ## Claims about the indentation and the end of the token sequence -/

/-- C23: for every input in which every line whose run of leading spaces is not
directly followed by a newline has an even number of leading spaces, in every prefix of
the token sequence up to the first `Eof` the number of `Indent` tokens is at least the
number of `Dedent` tokens, and at the first `Eof` the two numbers are equal.  In every
round of the constructor loop before that `Eof` the indentation is even, a change of the
indentation from `p` to `c` spaces emits exactly `(c - p) / 2` `Indent` tokens when
`c > p` and exactly `(p - c) / 2` `Dedent` tokens when `c < p`, a round that leaves the
indentation as it is emits neither, and the round that returns `Eof` emits `p / 2`
`Dedent` tokens. -/
theorem Lexer.even_indentation_nests (input : List Char) (ts : List Token)
    (he : EvenIndented input) (h : Lexer.tokens input = .ok ts) :
    (∀ p, p <+: ts → Token.Eof ∉ p → p.count Token.Dedent ≤ p.count Token.Indent) ∧
    (∀ pre post, ts = pre ++ Token.Eof :: post → Token.Eof ∉ pre →
      pre.count Token.Indent = pre.count Token.Dedent) ∧
    (∀ lx t l1, Lexer.Reachable input lx → Token.Eof ∉ lx.tokens_ →
      Lexer.FindNextToken (Lexer.budget input) lx = .ok (t, l1) →
      2 ∣ lx.indent_ ∧ 2 ∣ l1.indent_ ∧
      (lx.indent_ < l1.indent_ → t = Token.Indent ∧
        l1.tokens_ ++ [t] =
          lx.tokens_ ++ List.replicate ((l1.indent_ - lx.indent_) / 2).toNat Token.Indent) ∧
      (l1.indent_ < lx.indent_ → t = Token.Dedent ∧
        l1.tokens_ ++ [t] =
          lx.tokens_ ++ List.replicate ((lx.indent_ - l1.indent_) / 2).toNat Token.Dedent) ∧
      (l1.indent_ = lx.indent_ → t ≠ Token.Indent ∧ t ≠ Token.Dedent ∧
        (t ≠ Token.Eof → l1.tokens_ = lx.tokens_)) ∧
      (t = Token.Eof → ∃ nl, (nl = [] ∨ nl = [Token.Newline]) ∧
        l1.tokens_ =
          lx.tokens_ ++ List.replicate (lx.indent_ / 2).toNat Token.Dedent ++ nl)) := by
  refine ⟨Lexer.tokens_nested input ts he h,
    fun pre post hs hpre => Lexer.tokens_balanced input ts he h pre post hs hpre, ?_⟩
  intro lx t l1 hr hno hf
  rcases (Lexer.Reachable.balanceInv input he lx hr).1 with ⟨pre, post, hp, -, -⟩ |
    ⟨-, ⟨hb1, hb2⟩, hl⟩
  · exact absurd (by rw [hp]; simp) hno
  obtain ⟨l0, e1, e2, hl0, hs⟩ := Lexer.FindNextToken_tokenStep _ lx l1 t hf
  have hl1 := hl0 hl
  have hp2 : (2 : Int) ∣ lx.indent_ := ⟨_, hb1.symm⟩
  rcases Lexer.findStep_tokens l0 t l1 hs with
    ⟨rfl, ei, e⟩ | ⟨rfl, hnl, hlt, hk, hd, e⟩ | ⟨rfl, hnl, hlt, hk, hd, e⟩ | ⟨n1, n2, n3, ei, e⟩
  · have hm : dedentsAtEof l0.indent_ = (lx.indent_ / 2).toNat := by
      unfold dedentsAtEof; omega
    refine ⟨hp2, by rw [ei, e2]; exact hp2, fun hlt => by omega, fun hlt => by omega,
      fun _ => ⟨by simp, by simp, fun hne => absurd rfl hne⟩, fun _ => ?_⟩
    rw [e, Lexer.atEof_tokens, e1, hm]
    split_ifs
    · exact ⟨[Token.Newline], Or.inr rfl, rfl⟩
    · exact ⟨[], Or.inl rfl, by simp⟩
  · have hev : leadingSpaces l0.input_.rest % 2 = 0 := hl1.1 hnl hd
    have hn : ((l1.indent_ - lx.indent_) / 2).toNat =
        ((l1.indent_ - l0.indent_ - 1) / 2).toNat + 1 := by omega
    refine ⟨hp2, by omega, fun _ => ⟨rfl, ?_⟩, fun _ => by omega, fun _ => by omega,
      fun hne => by simp at hne⟩
    rw [e, e1, hn, List.replicate_succ', List.append_assoc]
  · have hev : leadingSpaces l0.input_.rest % 2 = 0 := hl1.1 hnl hd
    have hn : ((lx.indent_ - l1.indent_) / 2).toNat =
        ((l0.indent_ - l1.indent_ - 1) / 2).toNat + 1 := by omega
    refine ⟨hp2, by omega, fun _ => by omega, fun _ => ⟨rfl, ?_⟩, fun _ => by omega,
      fun hne => by simp at hne⟩
    rw [e, e1, hn, List.replicate_succ', List.append_assoc]
  · refine ⟨hp2, by omega, fun _ => by omega, fun _ => by omega,
      fun _ => ⟨n2, n3, fun _ => by rw [e, e1]⟩, fun hne => absurd hne n1⟩

/-- C23 at the input `a`, newline, `  b`, newline: every prefix of the tokens before the
first `Eof` holds at least as many `Indent` as `Dedent` tokens, at that `Eof` there is one
of each, and the round at the start of the second line, which changes the indentation
from 0 to 2, emits one `Indent`. -/
theorem Lexer.even_indentation_nests_witness :
    EvenIndented "a\n  b\n".toList ∧
    Lexer.tokens "a\n  b\n".toList =
      .ok [Token.Id "a", Token.Newline, Token.Indent, Token.Id "b", Token.Newline,
           Token.Dedent, Token.Eof, Token.Dedent, Token.Eof] ∧
    (∀ p, p <+: [Token.Id "a", Token.Newline, Token.Indent, Token.Id "b", Token.Newline,
           Token.Dedent, Token.Eof, Token.Dedent, Token.Eof] →
      Token.Eof ∉ p → p.count Token.Dedent ≤ p.count Token.Indent) ∧
    List.count Token.Indent
        [Token.Id "a", Token.Newline, Token.Indent, Token.Id "b", Token.Newline, Token.Dedent] =
      List.count Token.Dedent
        [Token.Id "a", Token.Newline, Token.Indent, Token.Id "b", Token.Newline, Token.Dedent] ∧
    Lexer.FindNextToken 16
        ⟨⟨[' ', ' ', 'b', '\n'], false, false⟩, [Token.Id "a", Token.Newline], 0, true⟩ =
      .ok (Token.Indent,
        ⟨⟨['b', '\n'], false, false⟩, [Token.Id "a", Token.Newline], 2, false⟩) ∧
    [Token.Id "a", Token.Newline] ++ [Token.Indent] =
      [Token.Id "a", Token.Newline] ++ List.replicate 1 Token.Indent :=
  ⟨by decide, by decide,
   (Lexer.even_indentation_nests "a\n  b\n".toList _ (by decide) (by decide)).1,
   (Lexer.even_indentation_nests "a\n  b\n".toList _ (by decide) (by decide)).2.1
     [Token.Id "a", Token.Newline, Token.Indent, Token.Id "b", Token.Newline, Token.Dedent]
     [Token.Dedent, Token.Eof] rfl (by decide),
   by decide,
   (((Lexer.even_indentation_nests "a\n  b\n".toList
      [Token.Id "a", Token.Newline, Token.Indent, Token.Id "b", Token.Newline,
           Token.Dedent, Token.Eof, Token.Dedent, Token.Eof] (by decide) (by decide)).2.2
     ⟨⟨[' ', ' ', 'b', '\n'], false, false⟩, [Token.Id "a", Token.Newline], 0, true⟩
     Token.Indent
     ⟨⟨['b', '\n'], false, false⟩, [Token.Id "a", Token.Newline], 2, false⟩
     (Lexer.Reachable.round
       ⟨⟨['\n', ' ', ' ', 'b', '\n'], false, false⟩, [Token.Id "a"], 0, false⟩
       ⟨⟨[' ', ' ', 'b', '\n'], false, false⟩, [Token.Id "a"], 0, true⟩ Token.Newline
       (Lexer.Reachable.round (Lexer.init "a\n  b\n".toList)
         ⟨⟨['\n', ' ', ' ', 'b', '\n'], false, false⟩, [], 0, false⟩ (Token.Id "a")
         Lexer.Reachable.init (by decide) (by decide))
       (by decide) (by decide))
     (by decide) (by decide)).2.2.1 (by decide)).2⟩

/-- C24 fails: the input `a`, newline, `  b` without a newline at its end yields
Id(a) Newline Indent Id(b) Dedent Eof; no `Newline` stands between the last token that is
not structural, Id(b), and `Eof`. -/
theorem Lexer.last_line_in_block_unterminated :
    Lexer.tokens "a\n  b".toList =
      .ok [Token.Id "a", Token.Newline, Token.Indent, Token.Id "b", Token.Dedent, Token.Eof] ∧
    Token.Newline ∉ [Token.Dedent] := by
  decide

/-- C24, amended: in the token sequence of every input, behind the last token before
the first `Eof` that is not `Newline`, `Indent`, `Dedent` or `Eof` there is, before that
`Eof`, a `Newline` token, or there are only `Dedent` tokens, at least one; when the input
ends with a newline character there is a `Newline`.  Behind the first `Eof` only
structural tokens follow. -/
theorem Lexer.last_statement_terminated (input : List Char) (ts : List Token)
    (h : Lexer.tokens input = .ok ts) (pre post : List Token)
    (hs : ts = pre ++ Token.Eof :: post) (hpre : Token.Eof ∉ pre) :
    (∀ t ∈ post, Structural t = true) ∧
    ∀ l1 t l2, pre = l1 ++ t :: l2 → Structural t = false →
      (∀ u ∈ l2, Structural u = true) →
      (Token.Newline ∈ l2 ∨ (l2 ≠ [] ∧ ∀ u ∈ l2, u = Token.Dedent)) ∧
      (input.getLast? = some '\n' → Token.Newline ∈ l2) := by
  obtain ⟨body, k, rfl, hb1, hb2, hb3, hb4⟩ :=
    Lexer.tokens_first_eof input ts (input.getLast? = some '\n') id h pre post hs hpre
  refine ⟨hb4, ?_⟩
  intro l1 t l2 hsplit ht hl2
  obtain ⟨q1, q2⟩ := flushed_after_word body k l1 l2 t hb2 hb1 hsplit ht hl2
  exact ⟨q1, fun hst => q2 (hb3 hst)⟩

/-- C24, amended, at the input `a`, newline, `  b`, newline, where a `Newline` stands
behind Id(b), and at the same input without the newline at its end, where only a
`Dedent` stands behind Id(b). -/
theorem Lexer.last_statement_terminated_witness :
    Lexer.tokens "a\n  b\n".toList =
      .ok ([Token.Id "a", Token.Newline, Token.Indent, Token.Id "b", Token.Newline,
            Token.Dedent] ++ Token.Eof :: [Token.Dedent, Token.Eof]) ∧
    Token.Newline ∈ [Token.Newline, Token.Dedent] ∧
    Lexer.tokens "a\n  b".toList =
      .ok ([Token.Id "a", Token.Newline, Token.Indent, Token.Id "b", Token.Dedent] ++
            Token.Eof :: []) ∧
    (Token.Newline ∈ [Token.Dedent] ∨
      ([Token.Dedent] ≠ [] ∧ ∀ u ∈ [Token.Dedent], u = Token.Dedent)) :=
  ⟨by decide,
   ((Lexer.last_statement_terminated "a\n  b\n".toList _ (by decide)
      [Token.Id "a", Token.Newline, Token.Indent, Token.Id "b", Token.Newline, Token.Dedent]
      [Token.Dedent, Token.Eof] rfl (by decide)).2
      [Token.Id "a", Token.Newline, Token.Indent] (Token.Id "b")
      [Token.Newline, Token.Dedent] rfl rfl (by decide)).2 (by decide),
   by decide,
   ((Lexer.last_statement_terminated "a\n  b".toList _ (by decide)
      [Token.Id "a", Token.Newline, Token.Indent, Token.Id "b", Token.Dedent]
      [] rfl (by decide)).2
      [Token.Id "a", Token.Newline, Token.Indent] (Token.Id "b")
      [Token.Dedent] rfl rfl (by decide)).1⟩

end Mython
